import Mathlib

/-!
# Verification of the packerpy declarative binary-protocol codec

A shallow embedding, in Lean 4, of the codec core of the packerpy library:

* `src/packerpy/protocols/message_partial.py` — `MessagePartial`,
  `FieldEncoder`, `BitPackingContext`, `BitUnpackingContext`;
* `src/packerpy/protocols/message.py` — `Message` (serialize/deserialize,
  computed values, conditional and static fields, bitwise mode);
* `src/packerpy/protocols/protocol.py` — `Protocol` (registry, envelope
  framing, automatic headers/footers, per-source incomplete buffers,
  `InvalidMessage` quarantine).

Python byte strings are modelled as `List Nat` (each entry `< 256` on every
byte string the code itself produces), `int` as `Int`, dictionaries of
instance attributes as association lists `List (String × Value)` with the
`setattr`/`getattr` discipline made explicit, and raised exceptions as
`Except Err`.  Modelling notes, where the embedding restricts or renames, are
recorded on each definition.
-/

namespace Packerpy

/-- Wire bytes: Python `bytes` as a list of byte values. -/
abbrev Bytes := List Nat

/-- Byte order, from `Encoding.LITTLE_ENDIAN` / `Encoding.BIG_ENDIAN`
(`message_partial.py`, class `Encoding`). -/
inductive Byteorder where
  | big
  | little
deriving DecidableEq, Repr

/-- Little-endian byte expansion of a natural number into exactly `len`
bytes (the digits of `n` base 256, least significant first). -/
def toBytesLE : Nat → Nat → Bytes
  | 0, _ => []
  | len + 1, n => n % 256 :: toBytesLE len (n / 256)

/-- Python `n.to_bytes(len, byteorder)` for `0 ≤ n < 256^len`: big-endian is
the reverse of little-endian. -/
def natToBytes (len : Nat) (bo : Byteorder) (n : Nat) : Bytes :=
  match bo with
  | .little => toBytesLE len n
  | .big => (toBytesLE len n).reverse

/-- Little-endian byte recomposition (inverse of `toBytesLE`). -/
def fromBytesLE : Bytes → Nat
  | [] => 0
  | b :: rest => b + 256 * fromBytesLE rest

/-- Python `int.from_bytes(data, byteorder)` (unsigned). -/
def natFromBytes (bo : Byteorder) (data : Bytes) : Nat :=
  match bo with
  | .little => fromBytesLE data
  | .big => fromBytesLE data.reverse

/-- Python `int.from_bytes(data, byteorder, signed=True)`: take the unsigned
value and subtract `256^len` when the sign bit is set. -/
def intFromBytes (bo : Byteorder) (data : Bytes) : Int :=
  let u : Nat := natFromBytes bo data
  if 2 * u < 256 ^ data.length then (u : Int)
  else (u : Int) - ((256 ^ data.length : Nat) : Int)

/-- Python `v.to_bytes(len, byteorder, signed=True)` for an in-range `v`:
encode `v mod 256^len` unsigned. -/
def intToBytes (len : Nat) (bo : Byteorder) (v : Int) : Bytes :=
  natToBytes len bo (v % ((256 ^ len : Nat) : Int)).toNat

theorem toBytesLE_length (len n : Nat) : (toBytesLE len n).length = len := by
  induction len generalizing n with
  | zero => rfl
  | succ k ih => simp [toBytesLE, ih]

theorem natToBytes_length (len : Nat) (bo : Byteorder) (n : Nat) :
    (natToBytes len bo n).length = len := by
  cases bo <;> simp [natToBytes, toBytesLE_length]

theorem intToBytes_length (len : Nat) (bo : Byteorder) (v : Int) :
    (intToBytes len bo v).length = len := by
  simp [intToBytes, natToBytes_length]

theorem fromBytesLE_toBytesLE (len n : Nat) (h : n < 256 ^ len) :
    fromBytesLE (toBytesLE len n) = n := by
  induction len generalizing n with
  | zero => simp [toBytesLE, fromBytesLE]; omega
  | succ k ih =>
      simp only [toBytesLE, fromBytesLE]
      rw [ih (n / 256)]
      · omega
      · have hp : 256 ^ (k + 1) = 256 ^ k * 256 := by ring
        rw [hp] at h
        omega

theorem natFromBytes_natToBytes (len : Nat) (bo : Byteorder) (n : Nat)
    (h : n < 256 ^ len) : natFromBytes bo (natToBytes len bo n) = n := by
  cases bo <;>
    simp [natFromBytes, natToBytes, List.reverse_reverse,
      fromBytesLE_toBytesLE len n h]

theorem intFromBytes_intToBytes (len : Nat) (bo : Byteorder) (v : Int)
    (hlen : 0 < len)
    (hlo : -(2 ^ (8 * len - 1) : Int) ≤ v) (hhi : v < (2 ^ (8 * len - 1) : Int)) :
    intFromBytes bo (intToBytes len bo v) = v := by
  have hM256 : ((256 ^ len : Nat) : Int) = (2 : Int) ^ (8 * len) := by
    push_cast
    rw [show (256 : Int) = 2 ^ 8 by norm_num, ← pow_mul]
  have hsplit : (2 : Int) ^ (8 * len) = 2 ^ (8 * len - 1) * 2 := by
    rw [← pow_succ]
    congr 1
    omega
  have hMpos : (0 : Int) < ((256 ^ len : Nat) : Int) := by positivity
  have hhalfpos : (0 : Int) < 2 ^ (8 * len - 1) := by positivity
  have hcast : ((256 ^ len : Nat) : Int) = 2 ^ (8 * len - 1) * 2 := by rw [hM256, hsplit]
  have hemod : v % ((256 ^ len : Nat) : Int) = if 0 ≤ v then v else v + ((256 ^ len : Nat) : Int) := by
    split
    · exact Int.emod_eq_of_lt (by assumption) (by omega)
    · have h1 : (v + ((256 ^ len : Nat) : Int)) % ((256 ^ len : Nat) : Int)
          = v % ((256 ^ len : Nat) : Int) := by
        conv_lhs => rw [show v + ((256 ^ len : Nat) : Int)
            = v + ((256 ^ len : Nat) : Int) * 1 by ring]
        exact Int.add_mul_emod_self_left v ((256 ^ len : Nat) : Int) 1
      rw [← h1]
      exact Int.emod_eq_of_lt (by omega) (by omega)
  have hu_lt : (v % ((256 ^ len : Nat) : Int)).toNat < 256 ^ len := by
    have h2 := Int.emod_lt_of_pos v hMpos
    have h3 := Int.emod_nonneg v (ne_of_gt hMpos)
    omega
  unfold intFromBytes intToBytes
  rw [natToBytes_length, natFromBytes_natToBytes len bo _ hu_lt]
  by_cases hv : 0 ≤ v
  · rw [if_pos]
    · rw [hemod, if_pos hv, Int.toNat_of_nonneg hv]
    · rw [hemod, if_pos hv]
      omega
  · rw [if_neg]
    · rw [hemod, if_neg hv]
      omega
    · rw [hemod, if_neg hv]
      omega

/-! ## Values, errors and attribute maps -/

/-- A Python value as the codec handles it.  `str` values are modelled by the
list of their UTF-8 code units (`vstr`), so `len(s)` agrees with the byte
count only for ASCII content; floating point values are outside the model.
A `MessagePartial` instance is its attribute map (`vcomp`). -/
inductive Value where
  | vint (n : Int)
  | vbool (b : Bool)
  | vstr (bs : Bytes)
  | vbytes (bs : Bytes)
  | vlist (vs : List Value)
  | vcomp (attrs : List (String × Value))
deriving Repr

mutual

/-- Structural equality of values, modelling Python `==` / `!=` on the
values the codec compares (static-field and validation checks). -/
def Value.beq : Value → Value → Bool
  | .vint a, .vint b => a == b
  | .vbool a, .vbool b => a == b
  | .vstr a, .vstr b => a == b
  | .vbytes a, .vbytes b => a == b
  | .vlist a, .vlist b => Value.beqList a b
  | .vcomp a, .vcomp b => Value.beqAttrs a b
  | _, _ => false

/-- Elementwise `Value.beq` on lists. -/
def Value.beqList : List Value → List Value → Bool
  | [], [] => true
  | a :: as, b :: bs => Value.beq a b && Value.beqList as bs
  | _, _ => false

/-- Elementwise `Value.beq` on attribute maps. -/
def Value.beqAttrs : List (String × Value) → List (String × Value) → Bool
  | [], [] => true
  | (k, a) :: as, (j, b) :: bs => k == j && Value.beq a b && Value.beqAttrs as bs
  | _, _ => false

end

/-- Exception kinds raised by the codec.  Python raises `ValueError`,
`OverflowError`, `AttributeError` and `NameError` with message strings; the
embedding tags the raise sites instead.  `fuelErr` is a modelling artifact of
the bounded delimiter/bit loops and is unreachable under the well-formedness
hypotheses used by the theorems. -/
inductive Err where
  | insufficient
  | rangeErr
  | typeErr
  | refErr (f : String)
  | attrErr (f : String)
  | staticMismatch (f : String)
  | unknownType
  | validationErr (f : String)
  | nameErr
  | valueErr
  | fuelErr
deriving DecidableEq, Repr

/-- Association-list lookup (first match), modelling Python attribute /
dict access. -/
def lookupA {κ α : Type} [DecidableEq κ] : List (κ × α) → κ → Option α
  | [], _ => none
  | (k, v) :: t, key => if k = key then some v else lookupA t key

/-- Association-list update (replace the first binding or append),
modelling `setattr` / dict assignment. -/
def setA {κ α : Type} [DecidableEq κ] : List (κ × α) → κ → α → List (κ × α)
  | [], key, v => [(key, v)]
  | (k, w) :: t, key, v => if k = key then (key, v) :: t else (k, w) :: setA t key v

/-- Association-list deletion (`del d[k]`). -/
def eraseA {κ α : Type} [DecidableEq κ] : List (κ × α) → κ → List (κ × α)
  | [], _ => []
  | (k, w) :: t, key => if k = key then t else (k, w) :: eraseA t key

/-- An object's attribute map: one binding per set attribute. -/
abbrev Ctx := List (String × Value)

/-! ## Scalar wire codecs

The `field_type`-string dispatch at the tail of `MessagePartial._serialize_value`
and `Message._serialize_value` (the two copies are textually identical), and of
the matching `_deserialize_value` methods. -/

/-- A primitive field type tag: `"uint(N)"`, `"int(N)"`, `"int"`, `"bool"`,
`"str"`, `"bytes"`.  `float`/`double` (IEEE-754 via `struct`) are outside the
model. -/
inductive SType where
  | uintT (bits : Nat)
  | intT (bits : Nat)
  | intNative
  | boolT
  | strT
  | bytesT
deriving DecidableEq, Repr

/-- Serialize one primitive value (`_serialize_value`, string-type branch).
`int.to_bytes` raising `OverflowError` on out-of-range input is modelled by
the explicit range checks; a value of the wrong Python type raises, which is
modelled as `typeErr` (Python's duck typing, e.g. `bool` passed where `int`
is declared, is outside the model). -/
def serializeScalar (t : SType) (v : Value) (bo : Byteorder) : Except Err Bytes :=
  match t with
  | .intT bits =>
      let byteSize := bits / 8
      match v with
      | .vint n =>
          if -((2 : Int) ^ (8 * byteSize - 1)) ≤ n ∧ n < (2 : Int) ^ (8 * byteSize - 1) then
            .ok (intToBytes byteSize bo n)
          else .error .rangeErr
      | _ => .error .typeErr
  | .uintT bits =>
      let byteSize := bits / 8
      match v with
      | .vint n =>
          if 0 ≤ n ∧ n < ((256 ^ byteSize : Nat) : Int) then
            .ok (natToBytes byteSize bo n.toNat)
          else .error .rangeErr
      | _ => .error .typeErr
  | .intNative =>
      match v with
      | .vint n =>
          if -((2 : Int) ^ 63) ≤ n ∧ n < (2 : Int) ^ 63 then
            .ok (intToBytes 8 bo n)
          else .error .rangeErr
      | _ => .error .typeErr
  | .strT =>
      match v with
      | .vstr bs =>
          if bs.length < 2 ^ 32 then .ok (natToBytes 4 bo bs.length ++ bs)
          else .error .rangeErr
      | _ => .error .typeErr
  | .boolT =>
      match v with
      | .vbool b => .ok [if b then 1 else 0]
      | _ => .error .typeErr
  | .bytesT =>
      match v with
      | .vbytes bs =>
          if bs.length < 2 ^ 32 then .ok (natToBytes 4 bo bs.length ++ bs)
          else .error .rangeErr
      | _ => .error .typeErr

/-- Deserialize one primitive value (`_deserialize_value`, string-type
branch), returning the value and the bytes consumed.  The `"Insufficient
data"` `ValueError`s become `insufficient`.  `bool(data[0])` is true exactly
on a nonzero byte. -/
def deserializeScalar (t : SType) (data : Bytes) (bo : Byteorder) :
    Except Err (Value × Nat) :=
  match t with
  | .intT bits =>
      let byteSize := bits / 8
      if data.length < byteSize then .error .insufficient
      else .ok (.vint (intFromBytes bo (data.take byteSize)), byteSize)
  | .uintT bits =>
      let byteSize := bits / 8
      if data.length < byteSize then .error .insufficient
      else .ok (.vint (natFromBytes bo (data.take byteSize)), byteSize)
  | .intNative =>
      if data.length < 8 then .error .insufficient
      else .ok (.vint (intFromBytes bo (data.take 8)), 8)
  | .strT =>
      if data.length < 4 then .error .insufficient
      else
        let len := natFromBytes bo (data.take 4)
        if data.length < 4 + len then .error .insufficient
        else .ok (.vstr ((data.drop 4).take len), 4 + len)
  | .boolT =>
      match data with
      | [] => .error .insufficient
      | b :: _ => .ok (.vbool (b != 0), 1)
  | .bytesT =>
      if data.length < 4 then .error .insufficient
      else
        let len := natFromBytes bo (data.take 4)
        if data.length < 4 + len then .error .insufficient
        else .ok (.vbytes ((data.drop 4).take len), 4 + len)

/-! ## MessagePartial (`message_partial.py`)

The modelled universe restricts a partial's fields to primitive types or a
custom encoder (no arrays, serializer overrides, enums or nested partials
inside a partial; one level of nesting — a partial inside a `Message` — is
modelled below).  A custom `FieldEncoder` instance is modelled by its two
methods. -/

/-- A custom `FieldEncoder` instance: its `encode(value, byteorder)` and
`decode(data, byteorder) -> (value, consumed)` methods. -/
structure EncModel where
  enc : Value → Byteorder → Except Err Bytes
  dec : Bytes → Byteorder → Except Err (Value × Nat)

/-- A field specification inside a `MessagePartial`. -/
structure PFieldSpec where
  ptype : SType
  encoder : Option EncModel := none

/-- A `MessagePartial` subclass: its `encoding` and ordered `fields`. -/
structure PartSpec where
  encoding : Byteorder := .big
  fields : List (String × PFieldSpec)

/-- `MessagePartial._serialize_value`: the `"encoder"` branch (where
`FieldEncoder` is in scope, being defined in the same module) and then the
string-type dispatch. -/
def MessagePartial.serializeValue (fl : PFieldSpec) (v : Value) (bo : Byteorder) :
    Except Err Bytes :=
  match fl.encoder with
  | some e => e.enc v bo
  | none => serializeScalar fl.ptype v bo

/-- `MessagePartial._deserialize_value`: the `"encoder"` branch and the
string-type dispatch. -/
def MessagePartial.deserializeValue (fl : PFieldSpec) (data : Bytes) (bo : Byteorder) :
    Except Err (Value × Nat) :=
  match fl.encoder with
  | some e => e.dec data bo
  | none => deserializeScalar fl.ptype data bo

/-- The field loop of `MessagePartial.serialize_bytes` (byte-aligned mode;
`getattr(self, field_name)` on an unset attribute is `attrErr`). -/
def MessagePartial.serializeFields :
    List (String × PFieldSpec) → Ctx → Byteorder → Except Err Bytes
  | [], _, _ => .ok []
  | (f, fl) :: rest, inst, bo =>
      match lookupA inst f with
      | none => .error (.attrErr f)
      | some v => do
          let s ← MessagePartial.serializeValue fl v bo
          let t ← MessagePartial.serializeFields rest inst bo
          pure (s ++ t)

/-- `MessagePartial.serialize_bytes` for a byte-aligned partial. -/
def MessagePartial.serializeBytes (p : PartSpec) (inst : Ctx) : Except Err Bytes :=
  MessagePartial.serializeFields p.fields inst p.encoding

/-- The field loop of `MessagePartial.deserialize_bytes` (byte-aligned),
accumulating `kwargs` in declaration order. -/
def MessagePartial.deserializeFields :
    List (String × PFieldSpec) → Bytes → Byteorder → Except Err (Ctx × Nat)
  | [], _, _ => .ok ([], 0)
  | (f, fl) :: rest, data, bo => do
      let (v, n) ← MessagePartial.deserializeValue fl data bo
      let (kw, m) ← MessagePartial.deserializeFields rest (data.drop n) bo
      pure ((f, v) :: kw, n + m)

/-- `MessagePartial.deserialize_bytes`: returns the instance (as its
attribute map, one binding per declared field in declaration order, which is
what `cls(**kwargs)` produces) and the bytes consumed. -/
def MessagePartial.deserializeBytes (p : PartSpec) (data : Bytes) :
    Except Err (Value × Nat) := do
  let (kw, n) ← MessagePartial.deserializeFields p.fields data p.encoding
  pure (.vcomp kw, n)

/-! ## Message field specifications (`message.py`)

A `Message` field adds, on top of a primitive or composite type: a `static`
constant, a `condition` predicate, a computed value source (`length_of`,
`size_of`, `value_from`; arbitrary `compute` closures are outside the
modelled universe), fixed/length-prefixed/delimited array shapes, a custom
encoder, and bit fields.  Conditions are deep-embedded as comparisons of a
named field against an integer constant, which is the shape the library's
tests and examples use; `_resolve_field_reference` in `message.py` accepts
only plain names (no dotted paths), and so does the embedding. -/

/-- A deep-embedded `condition` callable: compare one attribute of the
(partially built) message with an integer constant.  Reading a missing
attribute raises (`AttributeError`), as the Python lambda would. -/
inductive CondE where
  | intEq (f : String) (n : Int)
  | intNe (f : String) (n : Int)
deriving DecidableEq, Repr

/-- Evaluate a condition against an attribute map. -/
def evalCond (c : CondE) (ctx : Ctx) : Except Err Bool :=
  match c with
  | .intEq f n =>
      match lookupA ctx f with
      | some (.vint k) => .ok (k = n)
      | some _ => .error .typeErr
      | none => .error (.attrErr f)
  | .intNe f n =>
      match lookupA ctx f with
      | some (.vint k) => .ok (k ≠ n)
      | some _ => .error .typeErr
      | none => .error (.attrErr f)

/-- A computed value source (`length_of` / `size_of` / `value_from`). -/
inductive VSource where
  | lengthOf (f : String)
  | sizeOf (f : String)
  | valueFrom (f : String)
deriving DecidableEq, Repr

/-- A `numlist` parameter: an integer literal or a (non-digit) field-name
reference. -/
inductive NumParam where
  | lit (n : Nat)
  | ref (f : String)
deriving DecidableEq, Repr

/-- A message field's type: primitive, nested `MessagePartial` subclass, or
`"bit"`. -/
inductive FType where
  | scalar (t : SType)
  | comp (p : PartSpec)
  | bitT

/-- One entry of `Message.fields`: the spec dictionary of a field.
Keys the embedding does not model (`serializer`, `encode`/`decode`
functions, `enum`, `size` references, dotted deep-assignment keys) are the
ones `Message.serialize_bytes`/`deserialize_bytes` either never reads or
that are excluded from the modelled universe; see the claim theorems. -/
structure MField where
  ftype : FType
  encoder : Option EncModel := none
  static : Option Value := none
  cond : Option CondE := none
  source : Option VSource := none
  numlist : Option NumParam := none
  dynamicArray : Bool := false
  delimiter : Option Bytes := none
  bits : Option Nat := none
  signed : Bool := false

/-- A `Message` subclass: `__name__` (as UTF-8 bytes), `encoding`,
`bitwise`, and the ordered `fields`. -/
structure MClass where
  name : Bytes
  encoding : Byteorder := .big
  bitwise : Bool := false
  fields : List (String × MField)

/-- `Message._serialize_value`: `encoder` branch first — which raises
`NameError` because `message.py` uses the name `FieldEncoder` without
importing it — then nested `MessagePartial`, then the primitive dispatch.
(The `serializer`, `encode`-function and `enum` branches, and `size`
field-reference resolution, are outside the modelled universe.) -/
def Message.serializeValue (fl : MField) (v : Value) (bo : Byteorder) :
    Except Err Bytes :=
  if fl.encoder.isSome then .error .nameErr
  else
    match fl.ftype with
    | .comp p =>
        match v with
        | .vcomp attrs => MessagePartial.serializeBytes p attrs
        | _ => .error .typeErr
    | .scalar t => serializeScalar t v bo
    | .bitT => .error .valueErr

/-- `Message._deserialize_value`: `encoder` branch (also a `NameError`, same
missing import), nested `MessagePartial`, primitive dispatch. -/
def Message.deserializeValue (fl : MField) (data : Bytes) (bo : Byteorder) :
    Except Err (Value × Nat) :=
  if fl.encoder.isSome then .error .nameErr
  else
    match fl.ftype with
    | .comp p => MessagePartial.deserializeBytes p data
    | .scalar t => deserializeScalar t data bo
    | .bitT => .error .valueErr

/-- `Message._resolve_field_reference`: plain attribute lookup; a missing
attribute raises. -/
def Message.resolveFieldReference (inst : Ctx) (f : String) : Except Err Value :=
  match lookupA inst f with
  | some v => .ok v
  | none => .error (.refErr f)

/-- `Message._compute_field_value` for the modelled value sources. -/
def Message.computeFieldValue (spec : MClass) (inst : Ctx) (fl : MField) :
    Except Err Value :=
  match fl.source with
  | some (.lengthOf g) => do
      let tv ← Message.resolveFieldReference inst g
      match tv with
      | .vlist vs => pure (.vint vs.length)
      | .vstr bs => pure (.vint bs.length)
      | .vbytes bs => pure (.vint bs.length)
      | _ => .error .typeErr
  | some (.sizeOf g) => do
      let tv ← Message.resolveFieldReference inst g
      match lookupA spec.fields g with
      | none => .error .valueErr
      | some gfl => do
          let s ← Message.serializeValue gfl tv spec.encoding
          pure (.vint s.length)
  | some (.valueFrom g) => Message.resolveFieldReference inst g
  | none => .error .valueErr

/-- Serialize the elements of an array field back-to-back, each through
`_serialize_value` with the field's own spec. -/
def Message.serializeItems (fl : MField) : List Value → Byteorder → Except Err Bytes
  | [], _ => .ok []
  | v :: vs, bo => do
      let s ← Message.serializeValue fl v bo
      let t ← Message.serializeItems fl vs bo
      pure (s ++ t)

/-- The elements after the first of a delimited array: each preceded by the
delimiter. -/
def Message.encodeDelimItems (fl : MField) (d : Bytes) :
    List Value → Byteorder → Except Err Bytes
  | [], _ => .ok []
  | v :: vs, bo => do
      let s ← Message.serializeValue fl v bo
      let t ← Message.encodeDelimItems fl d vs bo
      pure (d ++ s ++ t)

/-- A delimited array on the wire: elements separated by the delimiter, and
a trailing delimiter marking the end. -/
def Message.encodeDelimArray (fl : MField) (items : List Value) (d : Bytes)
    (bo : Byteorder) : Except Err Bytes :=
  match items with
  | [] => .ok d
  | v :: vs => do
      let s ← Message.serializeValue fl v bo
      let t ← Message.encodeDelimItems fl d vs bo
      pure (s ++ t ++ d)

/-- One pass of the field loop of `Message.serialize_bytes` (byte-aligned
mode): check the condition (a skipped field contributes no bytes and no
mutation), pick the static / computed (with `setattr` write-back) / stored
value, then dispatch on the array shape.  Returns the serialized piece and
the possibly mutated instance. -/
def Message.serializeFieldBody (spec : MClass) (f : String) (fl : MField) (inst : Ctx) :
    Except Err (Bytes × Ctx) := do
    let (value, inst1) ←
      match fl.static with
      | some s => pure (s, inst)
      | none =>
          match fl.source with
          | some _ => do
              let v ← Message.computeFieldValue spec inst fl
              pure (v, setA inst f v)
          | none =>
              match lookupA inst f with
              | some v => pure (v, inst)
              | none => Except.error (.attrErr f)
    let piece ←
      match fl.numlist with
      | some np => do
          let count ←
            match np with
            | .lit n => pure (n : Int)
            | .ref g => do
                let rv ← Message.resolveFieldReference inst1 g
                match rv with
                | .vint k => pure k
                | _ => Except.error .typeErr
          match value with
          | .vlist items =>
              if (items.length : Int) = count then
                Message.serializeItems fl items spec.encoding
              else Except.error .valueErr
          | _ => Except.error .typeErr
      | none =>
          if fl.dynamicArray then
            match value with
            | .vlist items =>
                if items.length < 2 ^ 32 then do
                  let body ← Message.serializeItems fl items spec.encoding
                  pure (natToBytes 4 spec.encoding items.length ++ body)
                else Except.error .rangeErr
            | _ => Except.error .typeErr
          else
            match fl.delimiter with
            | some d =>
                match value with
                | .vlist items => Message.encodeDelimArray fl items d spec.encoding
                | _ => Except.error .typeErr
            | none => Message.serializeValue fl value spec.encoding
    pure (piece, inst1)

/-- One pass of the field loop of `Message.serialize_bytes` (byte-aligned
mode): check the condition (a skipped field contributes no bytes and no
mutation), then run the body. -/
def Message.serializeField (spec : MClass) (f : String) (fl : MField) (inst : Ctx) :
    Except Err (Bytes × Ctx) := do
  let skip ←
    match fl.cond with
    | some c => do
        let b ← evalCond c inst
        pure (!b)
    | none => pure false
  if skip then pure ([], inst)
  else Message.serializeFieldBody spec f fl inst

/-- The field loop of `Message.serialize_bytes` (byte-aligned mode),
concatenating the per-field pieces and threading the instance. -/
def Message.serializeFields (spec : MClass) :
    List (String × MField) → Ctx → Except Err (Bytes × Ctx)
  | [], inst => .ok ([], inst)
  | (f, fl) :: rest, inst => do
      let r ← Message.serializeField spec f fl inst
      let r2 ← Message.serializeFields spec rest r.2
      pure (r.1 ++ r2.1, r2.2)

/-! ## Bit packing (`BitPackingContext` / `BitUnpackingContext`) -/

/-- `BitPackingContext`: accumulator, bit count, output buffer.  The byte
order argument of the Python constructor is never read by `pack_bits` or
`flush` and is omitted. -/
structure BitCtx where
  bitBuffer : Nat
  bitsInBuffer : Nat
  output : Bytes

/-- The `while bits_in_buffer >= 8` emission loop of `pack_bits`; the fuel
bounds the iteration count by `bits` (each pass removes 8 bits). -/
def emitBytes : Nat → Nat → Nat → Bytes → Nat × Nat × Bytes
  | 0, buf, bits, out => (buf, bits, out)
  | fuel + 1, buf, bits, out =>
      if 8 ≤ bits then
        let bits2 := bits - 8
        let byte := (buf >>> bits2) &&& 255
        emitBytes fuel (buf &&& (2 ^ bits2 - 1)) bits2 (out ++ [byte])
      else (buf, bits, out)

/-- `BitPackingContext.pack_bits`. -/
def BitCtx.packBits (c : BitCtx) (value bitCount : Nat) : BitCtx :=
  let buf := (c.bitBuffer <<< bitCount) ||| (value &&& (2 ^ bitCount - 1))
  let bits := c.bitsInBuffer + bitCount
  let r := emitBytes bits buf bits c.output
  ⟨r.1, r.2.1, r.2.2⟩

/-- `BitPackingContext.flush`: pad the remaining bits to a byte boundary. -/
def BitCtx.flush (c : BitCtx) : Bytes :=
  if 0 < c.bitsInBuffer then
    c.output ++ [(c.bitBuffer <<< (8 - c.bitsInBuffer)) &&& 255]
  else c.output

/-- Validate and pack one `"bit"`-typed value
(`Message._serialize_bitwise`, single-field branch): range check, negative
conversion for signed fields, then `pack_bits`. -/
def Message.packBit (c : BitCtx) (bitCount : Nat) (signed : Bool) (v : Value) :
    Except Err BitCtx :=
  match v with
  | .vint n =>
      if signed then
        if -((2 : Int) ^ (bitCount - 1)) ≤ n ∧ n ≤ (2 : Int) ^ (bitCount - 1) - 1 then
          pure (c.packBits (if n < 0 then ((2 : Int) ^ bitCount + n).toNat else n.toNat) bitCount)
        else .error .rangeErr
      else
        if 0 ≤ n ∧ n ≤ (2 : Int) ^ bitCount - 1 then
          pure (c.packBits n.toNat bitCount)
        else .error .rangeErr
  | _ => .error .typeErr

/-- Pack an array of bit fields back-to-back. -/
def Message.packBitItems (bitCount : Nat) (signed : Bool) :
    List Value → BitCtx → Except Err BitCtx
  | [], c => .ok c
  | v :: vs, c => do
      let c2 ← Message.packBit c bitCount signed v
      Message.packBitItems bitCount signed vs c2

/-- `Message._has_bitwise_fields` (and its classmethod twin): a field of
type `"bit"` or carrying a `bits` key. -/
def Message.hasBitwiseFields (spec : MClass) : Bool :=
  spec.fields.any fun fp =>
    (match fp.2.ftype with | .bitT => true | _ => false) || fp.2.bits.isSome

/-- The field loop of `Message._serialize_bitwise`: static or stored value,
then bit array / single bit / mixing error. -/
def Message.serializeBitwiseFields :
    List (String × MField) → Ctx → BitCtx → Except Err BitCtx
  | [], _, c => .ok c
  | (f, fl) :: rest, inst, c => do
      let value ←
        match fl.static with
        | some s => pure s
        | none =>
            match lookupA inst f with
            | some v => pure v
            | none => Except.error (.attrErr f)
      let bitCount := fl.bits.getD 1
      match fl.numlist, fl.ftype with
      | some np, .bitT => do
          match value with
          | .vlist items =>
              match np with
              | .lit n =>
                  if items.length = n then do
                    let c2 ← Message.packBitItems bitCount fl.signed items c
                    Message.serializeBitwiseFields rest inst c2
                  else Except.error .valueErr
              | .ref _ => Except.error .valueErr
          | _ => Except.error .typeErr
      | none, .bitT => do
          let c2 ← Message.packBit c bitCount fl.signed value
          Message.serializeBitwiseFields rest inst c2
      | _, _ => Except.error .valueErr

/-- `Message._serialize_bitwise`: pack every field, then flush. -/
def Message.serializeBitwise (spec : MClass) (inst : Ctx) : Except Err Bytes := do
  let c ← Message.serializeBitwiseFields spec.fields inst ⟨0, 0, []⟩
  pure c.flush

/-- `Message.serialize_bytes`: bitwise mode when declared or detected, else
the byte-aligned field loop.  Returns the bytes and the (possibly mutated)
instance, making the Python in-place `setattr` write-backs explicit. -/
def Message.serializeBytes (spec : MClass) (inst : Ctx) : Except Err (Bytes × Ctx) :=
  if spec.bitwise || Message.hasBitwiseFields spec then do
    let bs ← Message.serializeBitwise spec inst
    pure (bs, inst)
  else Message.serializeFields spec spec.fields inst

/-- `BitUnpackingContext`: input bytes, accumulator, bit count, byte
offset. -/
structure BitUCtx where
  data : Bytes
  bitBuffer : Nat
  bitsInBuffer : Nat
  byteOffset : Nat

/-- The `while bits_in_buffer < bit_count` byte-loading loop of
`unpack_bits`; running out of input raises `insufficient`, and the fuel
(always at least the bit count plus one) bounds iterations. -/
def BitUCtx.loadLoop : Nat → BitUCtx → Nat → Except Err BitUCtx
  | 0, c, bitCount => if c.bitsInBuffer < bitCount then .error .fuelErr else .ok c
  | fuel + 1, c, bitCount =>
      if c.bitsInBuffer < bitCount then
        match c.data.drop c.byteOffset with
        | [] => .error .insufficient
        | b :: _ =>
            BitUCtx.loadLoop fuel
              ⟨c.data, (c.bitBuffer <<< 8) ||| b, c.bitsInBuffer + 8, c.byteOffset + 1⟩
              bitCount
      else .ok c

/-- `BitUnpackingContext.unpack_bits`. -/
def BitUCtx.unpackBits (c : BitUCtx) (bitCount : Nat) : Except Err (Nat × BitUCtx) := do
  let c2 ← BitUCtx.loadLoop (bitCount + 1) c bitCount
  let bits2 := c2.bitsInBuffer - bitCount
  let v := (c2.bitBuffer >>> bits2) &&& (2 ^ bitCount - 1)
  pure (v, ⟨c2.data, c2.bitBuffer &&& (2 ^ bits2 - 1), bits2, c2.byteOffset⟩)

/-- Sign extension applied by `_deserialize_bitwise` after `unpack_bits`. -/
def signExtend (bitCount : Nat) (signed : Bool) (u : Nat) : Int :=
  if signed && (u &&& (1 <<< (bitCount - 1)) != 0) then
    (u : Int) - (2 : Int) ^ bitCount
  else (u : Int)

/-- Unpack an array of bit fields. -/
def Message.unpackBitItems (bitCount : Nat) (signed : Bool) :
    Nat → BitUCtx → Except Err (List Value × BitUCtx)
  | 0, c => .ok ([], c)
  | n + 1, c => do
      let (u, c2) ← c.unpackBits bitCount
      let (vs, c3) ← Message.unpackBitItems bitCount signed n c2
      pure (.vint (signExtend bitCount signed u) :: vs, c3)

/-- The field loop of `Message._deserialize_bitwise`: static verification,
bit arrays, single bits, mixing error. -/
def Message.deserializeBitwiseFields :
    List (String × MField) → BitUCtx → Ctx → Except Err (Ctx × BitUCtx)
  | [], c, kwargs => .ok (kwargs, c)
  | (f, fl) :: rest, c, kwargs => do
      let bitCount := fl.bits.getD 1
      match fl.static with
      | some s =>
          match fl.ftype with
          | .bitT => do
              let (u, c2) ← c.unpackBits bitCount
              let v : Value := .vint (signExtend bitCount fl.signed u)
              if Value.beq v s then
                Message.deserializeBitwiseFields rest c2 (setA kwargs f s)
              else Except.error (.staticMismatch f)
          | _ => Except.error .valueErr
      | none =>
          match fl.numlist, fl.ftype with
          | some np, .bitT =>
              match np with
              | .lit n => do
                  let (vs, c2) ← Message.unpackBitItems bitCount fl.signed n c
                  Message.deserializeBitwiseFields rest c2 (setA kwargs f (.vlist vs))
              | .ref _ => Except.error .typeErr
          | none, .bitT => do
              let (u, c2) ← c.unpackBits bitCount
              Message.deserializeBitwiseFields rest c2
                (setA kwargs f (.vint (signExtend bitCount fl.signed u)))
          | _, _ => Except.error .valueErr

/-- `Message._deserialize_bitwise`: unpack every field, report
`get_bytes_consumed`. -/
def Message.deserializeBitwise (spec : MClass) (data : Bytes) :
    Except Err (Ctx × Nat) := do
  let (kw, c) ← Message.deserializeBitwiseFields spec.fields ⟨data, 0, 0, 0⟩ []
  pure (kw, c.byteOffset)

/-- Deserialize `count` array elements back-to-back. -/
def Message.decodeItems (fl : MField) (bo : Byteorder) :
    Nat → Bytes → Except Err (List Value × Nat)
  | 0, _ => .ok ([], 0)
  | n + 1, data => do
      let (v, consumed) ← Message.deserializeValue fl data bo
      let (vs, m) ← Message.decodeItems fl bo n (data.drop consumed)
      pure (v :: vs, consumed + m)

/-- The delimited-array decode loop of `Message.deserialize_bytes`: read an
element, require the delimiter, then peek — if another element followed by a
delimiter fits, continue, else this was the trailing delimiter.  Exceptions
inside the peek are swallowed (`except: pass`), ending the list.  The fuel
(the caller passes the input length plus one) bounds the loop. -/
def Message.decodeDelimArray (fl : MField) (d : Bytes) (bo : Byteorder) :
    Nat → Bytes → Except Err (List Value × Nat)
  | 0, _ => .error .fuelErr
  | fuel + 1, data => do
      let (v, consumed) ← Message.deserializeValue fl data bo
      let after := data.drop consumed
      if after.length < d.length then .error .valueErr
      else if after.take d.length = d then
        let rest := after.drop d.length
        let cont : Bool :=
          if 0 < rest.length then
            match Message.deserializeValue fl rest bo with
            | .ok (_, tc) =>
                if tc + d.length ≤ rest.length then
                  decide ((rest.drop tc).take d.length = d)
                else false
            | .error _ => false
          else false
        if cont then do
          let (vs, m) ← Message.decodeDelimArray fl d bo fuel rest
          pure (v :: vs, consumed + d.length + m)
        else pure ([v], consumed + d.length)
      else .error .valueErr

/-- One pass of the field loop of `Message.deserialize_bytes`
(byte-aligned): static verification first, then the condition check against
the fields decoded so far (a skipped field consumes nothing and adds no
entry), `numlist` reference resolution against them, and the array dispatch.
Returns the extended `kwargs` and the bytes consumed. -/
def Message.deserializeFieldBody (spec : MClass) (f : String) (fl : MField)
    (data : Bytes) (kwargs : Ctx) : Except Err (Ctx × Nat) :=
        match fl.numlist with
        | some np => do
            let count ←
              match np with
              | .lit n => pure n
              | .ref g =>
                  match lookupA kwargs g with
                  | some (.vint k) => pure k.toNat
                  | some _ => Except.error .typeErr
                  | none => Except.error (.refErr g)
            let (vs, consumed) ← Message.decodeItems fl spec.encoding count data
            pure (setA kwargs f (.vlist vs), consumed)
        | none =>
            if fl.dynamicArray then
              if data.length < 4 then Except.error .insufficient
              else do
                let count := natFromBytes spec.encoding (data.take 4)
                let (vs, consumed) ←
                  Message.decodeItems fl spec.encoding count (data.drop 4)
                pure (setA kwargs f (.vlist vs), 4 + consumed)
            else
              match fl.delimiter with
              | some d => do
                  let (vs, consumed) ←
                    Message.decodeDelimArray fl d spec.encoding (data.length + 1) data
                  pure (setA kwargs f (.vlist vs), consumed)
              | none => do
                  let (v, consumed) ← Message.deserializeValue fl data spec.encoding
                  pure (setA kwargs f v, consumed)

/-- One pass of the field loop of `Message.deserialize_bytes`
(byte-aligned): static verification first, then the condition check against
the fields decoded so far (a skipped field consumes nothing and adds no
entry), then the body. -/
def Message.deserializeField (spec : MClass) (f : String) (fl : MField)
    (data : Bytes) (kwargs : Ctx) : Except Err (Ctx × Nat) :=
  match fl.static with
  | some s => do
      let (v, consumed) ← Message.deserializeValue fl data spec.encoding
      if Value.beq v s then pure (setA kwargs f s, consumed)
      else Except.error (.staticMismatch f)
  | none => do
      let skip ←
        match fl.cond with
        | some c => do
            let b ← evalCond c kwargs
            pure (!b)
        | none => pure false
      if skip then pure (kwargs, 0)
      else Message.deserializeFieldBody spec f fl data kwargs

/-- The field loop of `Message.deserialize_bytes` (byte-aligned),
accumulating `kwargs` and the running offset. -/
def Message.deserializeFields (spec : MClass) :
    List (String × MField) → Bytes → Ctx → Except Err (Ctx × Nat)
  | [], _, kwargs => .ok (kwargs, 0)
  | (f, fl) :: rest, data, kwargs => do
      let r ← Message.deserializeField spec f fl data kwargs
      let r2 ← Message.deserializeFields spec rest (data.drop r.2) r.1
      pure (r2.1, r.2 + r2.2)

/-- `Message.__init__` applied to decode `kwargs` (`cls(**kwargs)`): one
attribute per declared field — the static constant always, otherwise the
`kwargs` entry when present. -/
def Message.mkFields : List (String × MField) → Ctx → Ctx
  | [], _ => []
  | (f, fl) :: rest, kwargs =>
      match fl.static with
      | some s => (f, s) :: Message.mkFields rest kwargs
      | none =>
          match lookupA kwargs f with
          | some v => (f, v) :: Message.mkFields rest kwargs
          | none => Message.mkFields rest kwargs

/-- The instance `cls(**kwargs)` built by `deserialize_bytes`. -/
def Message.mkInstance (spec : MClass) (kwargs : Ctx) : Ctx :=
  Message.mkFields spec.fields kwargs

/-- `Message.deserialize_bytes`: bitwise or byte-aligned field loop, then
`cls(**kwargs)`; returns the instance and the bytes consumed. -/
def Message.deserializeBytes (spec : MClass) (data : Bytes) :
    Except Err (Ctx × Nat) :=
  if spec.bitwise || Message.hasBitwiseFields spec then do
    let (kw, n) ← Message.deserializeBitwise spec data
    pure (Message.mkInstance spec kw, n)
  else do
    let (kw, n) ← Message.deserializeFields spec spec.fields data []
    pure (Message.mkInstance spec kw, n)

/-- `Message.validate`: computed and conditional fields are exempt; every
other declared field must be set. -/
def Message.validate (spec : MClass) (inst : Ctx) : Bool :=
  spec.fields.all fun fp =>
    if fp.2.source.isSome then true
    else if fp.2.cond.isSome then true
    else (lookupA inst fp.1).isSome

/-! ## Protocol envelope (`protocol.py`)

Automatic header/footer fields are restricted to the statically sized types
the decode path supports (`uint(N)`, `int(N)`, `bool`; `float`/`double` are
floating point and custom sized encoders are excluded), with the modelled
value sources.  `_resolve_auto_field_reference` is modelled for plain field
names (the dotted branch and the context-object fallback attributes
`message`/`message_bytes` are unused by the claims). -/

/-- An automatic header/footer field type. -/
inductive AFType where
  | uintT (bits : Nat)
  | intT (bits : Nat)
  | boolT
deriving DecidableEq, Repr

/-- An automatic header/footer field specification. -/
structure AutoField where
  ftype : AFType
  static : Option Value := none
  source : Option VSource := none

/-- The message-level field spec `_serialize_auto_field_value` hands to
`Message._serialize_value` (only the `type` key is populated). -/
def AutoField.toMField (af : AutoField) : MField :=
  { ftype := .scalar (match af.ftype with
      | .uintT bits => .uintT bits
      | .intT bits => .intT bits
      | .boolT => .boolT) }

/-- A `Protocol`: the message-type registry (keyed by class `__name__`) and
the automatic header and footer field lists.  The mutable incomplete-buffer
map is threaded explicitly through `Protocol.decode`. -/
structure Protocol where
  registry : List (Bytes × MClass)
  headers : List (String × AutoField) := []
  footers : List (String × AutoField) := []

/-- The per-source incomplete-message buffer map
(`Protocol._incomplete_buffers`), modelled as a partial map from source id
to buffered bytes. -/
abbrev Buffers := String → Option Bytes

/-- The empty buffer map. -/
def emptyBufs : Buffers := fun _ => none

/-- Dict assignment `bufs[sid] = data`. -/
def bufSet (b : Buffers) (k : String) (v : Bytes) : Buffers :=
  fun j => if j = k then some v else b j

/-- Dict deletion `del bufs[sid]`. -/
def bufDel (b : Buffers) (k : String) : Buffers :=
  fun j => if j = k then none else b j

/-- `Protocol._resolve_auto_field_reference` for a plain field name: the
message is consulted (the context object only adds copies of the same
fields). -/
def Protocol.resolveAutoFieldReference (message : Ctx) (f : String) : Except Err Value :=
  match lookupA message f with
  | some v => .ok v
  | none => .error (.refErr f)

/-- `Protocol._compute_auto_field_value`: static, `length_of`, `size_of`
(with the reserved `"body"`/`"message"`/`"payload"` names), `value_from`. -/
def Protocol.computeAutoFieldValue (spec : MClass) (message : Ctx)
    (messageBytes : Bytes) (af : AutoField) : Except Err Value :=
  match af.static with
  | some s => .ok s
  | none =>
      match af.source with
      | some (.lengthOf g) => do
          let tv ← Protocol.resolveAutoFieldReference message g
          match tv with
          | .vbytes bs => pure (.vint bs.length)
          | .vstr bs => pure (.vint bs.length)
          | .vlist vs => pure (.vint vs.length)
          | _ => Except.error .valueErr
      | some (.sizeOf g) =>
          if g = "body" ∨ g = "message" ∨ g = "payload" then
            .ok (.vint messageBytes.length)
          else do
            let tv ← Protocol.resolveAutoFieldReference message g
            match lookupA spec.fields g with
            | none => Except.error .typeErr
            | some gfl => do
                let s ← Message.serializeValue gfl tv spec.encoding
                pure (.vint s.length)
      | some (.valueFrom g) => Protocol.resolveAutoFieldReference message g
      | none => Except.error .valueErr

/-- The field loop of `Protocol._serialize_auto_fields`: compute each value
against the message and the pre-serialized body, then serialize it through
`Message._serialize_value` with the message's byte order. -/
def Protocol.serializeAutoFields (fields : List (String × AutoField)) (spec : MClass)
    (message : Ctx) (messageBytes : Bytes) : Except Err Bytes :=
  match fields with
  | [] => .ok []
  | (_, af) :: rest => do
      let v ← Protocol.computeAutoFieldValue spec message messageBytes af
      let s ← Message.serializeValue af.toMField v spec.encoding
      let t ← Protocol.serializeAutoFields rest spec message messageBytes
      pure (s ++ t)

/-- `Protocol._calculate_auto_fields_size` on the modelled (always sized)
auto field types: `uint(N)`/`int(N)` contribute `N // 8` bytes, `bool` one. -/
def Protocol.calculateAutoFieldsSize (fields : List (String × AutoField)) : Nat :=
  match fields with
  | [] => 0
  | (_, af) :: rest =>
      (match af.ftype with
        | .uintT bits => bits / 8
        | .intT bits => bits / 8
        | .boolT => 1) + Protocol.calculateAutoFieldsSize rest

/-- `Protocol._deserialize_auto_field_value`: sized integers slice
`data[:size]` without a length guard (a short slice just decodes short);
`bool(data[0])` raises on empty input. -/
def Protocol.deserializeAutoFieldValue (af : AutoField) (data : Bytes)
    (bo : Byteorder) : Except Err (Value × Nat) :=
  match af.ftype with
  | .uintT bits =>
      let size := bits / 8
      .ok (.vint (natFromBytes bo (data.take size)), size)
  | .intT bits =>
      let size := bits / 8
      .ok (.vint (intFromBytes bo (data.take size)), size)
  | .boolT =>
      match data with
      | [] => .error .valueErr
      | b :: _ => .ok (.vbool (b != 0), 1)

/-- The field loop of `Protocol._validate_auto_fields`: deserialize each
field from the header/footer region and compare computed fields against the
value recomputed from the decoded message (`message_bytes` being the decoded
message re-serialized), static fields against their constant. -/
def Protocol.validateAutoFieldsLoop (spec : MClass) (message : Ctx)
    (messageBytes : Bytes) (bo : Byteorder) :
    List (String × AutoField) → Bytes → Except Err Unit
  | [], _ => .ok ()
  | (f, af) :: rest, fieldData => do
      let (v, consumed) ← Protocol.deserializeAutoFieldValue af fieldData bo
      if af.source.isSome then do
        let expected ← Protocol.computeAutoFieldValue spec message messageBytes af
        if Value.beq v expected then
          Protocol.validateAutoFieldsLoop spec message messageBytes bo rest
            (fieldData.drop consumed)
        else Except.error (.validationErr f)
      else
        match af.static with
        | some s =>
            if Value.beq v s then
              Protocol.validateAutoFieldsLoop spec message messageBytes bo rest
                (fieldData.drop consumed)
            else Except.error (.validationErr f)
        | none =>
            Protocol.validateAutoFieldsLoop spec message messageBytes bo rest
              (fieldData.drop consumed)

/-- `Protocol._validate_auto_fields`: re-serialize the decoded message
(`message.serialize_bytes()`, which may mutate computed fields in place),
then run the field loop.  The embedding keeps the byte order read from the
message class. -/
def Protocol.validateAutoFields (fields : List (String × AutoField)) (fieldData : Bytes)
    (spec : MClass) (message : Ctx) : Except Err Unit := do
  let r ← Message.serializeBytes spec message
  Protocol.validateAutoFieldsLoop spec r.2 r.1 spec.encoding fields fieldData

/-- `Protocol.encode`: registry check, `validate_message`, the
`<type-len:u16 big-endian> <type-name>` envelope prefix, the serialized body
(mutating the instance), automatic headers and footers computed against the
mutated instance and the body bytes.  Returns the wire bytes and the mutated
instance. -/
def Protocol.encode (p : Protocol) (spec : MClass) (m : Ctx) :
    Except Err (Bytes × Ctx) :=
  if (lookupA p.registry spec.name).isNone then .error .valueErr
  else if !Message.validate spec m then .error .valueErr
  else if spec.name.length < 2 ^ 16 then do
    let typeHeader := natToBytes 2 .big spec.name.length ++ spec.name
    let r ← Message.serializeBytes spec m
    let hdr ← Protocol.serializeAutoFields p.headers spec r.2 r.1
    let ftr ← Protocol.serializeAutoFields p.footers spec r.2 r.1
    pure (typeHeader ++ hdr ++ r.1 ++ ftr, r.2)
  else .error .rangeErr

/-- `InvalidMessage`: the raw (buffer-prepended) input, the error, and the
type name when it was extracted (kept as bytes; `partial_data` is always the
empty dict on these paths and is omitted). -/
structure InvalidMessage where
  rawData : Bytes
  error : Err
  ptypeName : Option Bytes
deriving Repr

/-- The non-`None` result of `Protocol.decode`: a decoded message of a
registered class with the remaining bytes, or an `InvalidMessage` with an
empty remainder. -/
inductive DecodeOut where
  | msg (spec : MClass) (m : Ctx) (remaining : Bytes)
  | invalid (im : InvalidMessage)

/-- `Protocol.decode`: prepend and drop any buffered bytes for `source_id`,
then read the envelope; on each short-input boundary buffer the accumulated
bytes and return `None`; wrap decode errors (a body error only once at least
10 body bytes are present, else buffer) in `InvalidMessage`; validate
headers and footers after a successful body decode.  Returns the updated
buffer map and the optional result. -/
def Protocol.decode (p : Protocol) (bufs : Buffers) (data0 : Bytes) (sid : String) :
    Buffers × Option DecodeOut :=
  let s1 : Buffers × Bytes :=
    match bufs sid with
    | some b => (bufDel bufs sid, b ++ data0)
    | none => (bufs, data0)
  let bufs1 := s1.1
  let data := s1.2
  if data.length < 2 then (bufSet bufs1 sid data, none)
  else
    let typeLength := natFromBytes .big (data.take 2)
    if data.length < 2 + typeLength then (bufSet bufs1 sid data, none)
    else
      let messageType := (data.drop 2).take typeLength
      match lookupA p.registry messageType with
      | none => (bufs1, some (.invalid ⟨data, .unknownType, some messageType⟩))
      | some mc =>
          let messageData := data.drop (2 + typeLength)
          let headerSize := Protocol.calculateAutoFieldsSize p.headers
          if messageData.length < headerSize then (bufSet bufs1 sid data, none)
          else
            let messageDataBody := messageData.drop headerSize
            match Message.deserializeBytes mc messageDataBody with
            | .error e =>
                if messageDataBody.length < 10 then (bufSet bufs1 sid data, none)
                else (bufs1, some (.invalid ⟨data, e, some messageType⟩))
            | .ok (m, bodyConsumed) =>
                let footerSize := Protocol.calculateAutoFieldsSize p.footers
                let footerStart := headerSize + bodyConsumed
                if messageData.length < footerStart + footerSize then
                  (bufSet bufs1 sid data, none)
                else
                  let hres :=
                    if 0 < headerSize then
                      Protocol.validateAutoFields p.headers (messageData.take headerSize) mc m
                    else .ok ()
                  match hres with
                  | .error e => (bufs1, some (.invalid ⟨data, e, some messageType⟩))
                  | .ok _ =>
                      let fres :=
                        if 0 < footerSize then
                          Protocol.validateAutoFields p.footers
                            ((messageData.drop footerStart).take footerSize) mc m
                        else .ok ()
                      match fres with
                      | .error e => (bufs1, some (.invalid ⟨data, e, some messageType⟩))
                      | .ok _ =>
                          let totalConsumed :=
                            2 + typeLength + headerSize + bodyConsumed + footerSize
                          (bufs1, some (.msg mc m (data.drop totalConsumed)))

/-! ## Basic lemmas about attribute maps and value equality -/

theorem lookupA_setA_self {κ α : Type} [DecidableEq κ] (l : List (κ × α)) (k : κ) (v : α) :
    lookupA (setA l k v) k = some v := by
  induction l with
  | nil => simp [setA, lookupA]
  | cons hd tl ih =>
      obtain ⟨j, w⟩ := hd
      by_cases h : j = k <;> simp [setA, lookupA, h, ih]

theorem lookupA_setA_ne {κ α : Type} [DecidableEq κ] (l : List (κ × α)) (k j : κ) (v : α)
    (h : j ≠ k) : lookupA (setA l k v) j = lookupA l j := by
  induction l with
  | nil =>
      simp [setA, lookupA]
      intro hh
      exact absurd hh.symm h
  | cons hd tl ih =>
      obtain ⟨i, w⟩ := hd
      by_cases hik : i = k
      · subst hik
        simp [setA, lookupA, Ne.symm h]
      · simp [setA, lookupA, hik, ih]

theorem setA_of_lookupA_eq {κ α : Type} [DecidableEq κ] (l : List (κ × α)) (k : κ) (v : α)
    (h : lookupA l k = some v) : setA l k v = l := by
  induction l with
  | nil => simp [lookupA] at h
  | cons hd tl ih =>
      obtain ⟨j, w⟩ := hd
      by_cases hjk : j = k
      · subst hjk
        simp [lookupA] at h
        simp [setA, h]
      · simp [lookupA, hjk] at h
        simp [setA, hjk, ih h]

theorem bufSet_self (b : Buffers) (k : String) (v : Bytes) : bufSet b k v k = some v := by
  simp [bufSet]

theorem bufDel_self (b : Buffers) (k : String) : bufDel b k k = none := by
  simp [bufDel]

mutual

theorem Value.beq_refl : (v : Value) → Value.beq v v = true
  | .vint _ => by simp [Value.beq]
  | .vbool _ => by simp [Value.beq]
  | .vstr _ => by simp [Value.beq]
  | .vbytes _ => by simp [Value.beq]
  | .vlist vs => by simp [Value.beq, Value.beqList_refl vs]
  | .vcomp a => by simp [Value.beq, Value.beqAttrs_refl a]

theorem Value.beqList_refl : (vs : List Value) → Value.beqList vs vs = true
  | [] => rfl
  | v :: vs => by simp [Value.beqList, Value.beq_refl v, Value.beqList_refl vs]

theorem Value.beqAttrs_refl : (a : List (String × Value)) → Value.beqAttrs a a = true
  | [] => rfl
  | (k, v) :: t => by simp [Value.beqAttrs, Value.beq_refl v, Value.beqAttrs_refl t]

end

/-! ## Scalar codec round trip -/

/-- Spec-level restriction for the round-trip universe: sized integer types
occupy at least one byte (`bits // 8 ≥ 1`). -/
def stypeWF : SType → Prop
  | .uintT bits => 0 < bits / 8
  | .intT bits => 0 < bits / 8
  | .intNative => True
  | .boolT => True
  | .strT => True
  | .bytesT => True

theorem deserializeScalar_roundtrip (t : SType) (v : Value) (bo : Byteorder)
    (s rest : Bytes) (hwf : stypeWF t) (h : serializeScalar t v bo = .ok s) :
    deserializeScalar t (s ++ rest) bo = .ok (v, s.length) := by
  cases t with
  | uintT bits =>
      cases v <;> simp only [serializeScalar] at h <;> try exact Except.noConfusion h
      case vint n =>
        split at h
        case isFalse => exact Except.noConfusion h
        case isTrue hr =>
          obtain ⟨hlo, hhi⟩ := hr
          simp only [Except.ok.injEq] at h
          subst h
          have hlen : (natToBytes (bits / 8) bo n.toNat).length = bits / 8 :=
            natToBytes_length _ _ _
          have hkn : n.toNat < 256 ^ (bits / 8) := by
            have := @Int.toNat_lt' n (256 ^ (bits / 8)) (by positivity)
            omega
          simp only [deserializeScalar, List.length_append, hlen]
          rw [if_neg (by omega)]
          rw [List.take_append_of_le_length (by omega), List.take_of_length_le (by omega)]
          rw [natFromBytes_natToBytes _ _ _ hkn]
          simp [Int.toNat_of_nonneg hlo]
  | intT bits =>
      cases v <;> simp only [serializeScalar] at h <;> try exact Except.noConfusion h
      case vint n =>
        split at h
        case isFalse => exact Except.noConfusion h
        case isTrue hr =>
          obtain ⟨hlo, hhi⟩ := hr
          simp only [Except.ok.injEq] at h
          subst h
          have hlen : (intToBytes (bits / 8) bo n).length = bits / 8 :=
            intToBytes_length _ _ _
          simp only [deserializeScalar, List.length_append, hlen]
          rw [if_neg (by omega)]
          rw [List.take_append_of_le_length (by omega), List.take_of_length_le (by omega)]
          rw [intFromBytes_intToBytes (bits / 8) bo n hwf hlo hhi]
  | intNative =>
      cases v <;> simp only [serializeScalar] at h <;> try exact Except.noConfusion h
      case vint n =>
        split at h
        case isFalse => exact Except.noConfusion h
        case isTrue hr =>
          obtain ⟨hlo, hhi⟩ := hr
          simp only [Except.ok.injEq] at h
          subst h
          have hlen : (intToBytes 8 bo n).length = 8 := intToBytes_length _ _ _
          simp only [deserializeScalar, List.length_append, hlen]
          rw [if_neg (by omega)]
          rw [List.take_append_of_le_length (by omega), List.take_of_length_le (by omega)]
          rw [intFromBytes_intToBytes 8 bo n (by norm_num)
            (by norm_num at hlo ⊢; exact hlo) (by norm_num at hhi ⊢; exact hhi)]
  | strT =>
      cases v <;> simp only [serializeScalar] at h <;> try exact Except.noConfusion h
      case vstr bs =>
        split at h
        case isFalse => exact Except.noConfusion h
        case isTrue hr =>
          simp only [Except.ok.injEq] at h
          subst h
          have hplen : (natToBytes 4 bo bs.length).length = 4 := natToBytes_length _ _ _
          have hbs : bs.length < 256 ^ 4 := by norm_num at hr ⊢; omega
          simp only [deserializeScalar, List.length_append, hplen, List.append_assoc]
          rw [if_neg (by omega)]
          rw [List.take_append_of_le_length (by omega), List.take_of_length_le (by omega),
            natFromBytes_natToBytes _ _ _ hbs]
          rw [if_neg (by omega)]
          rw [show natToBytes 4 bo bs.length ++ (bs ++ rest)
              = natToBytes 4 bo bs.length ++ (bs ++ rest) from rfl]
          rw [List.drop_append_of_le_length (by omega)]
          rw [List.drop_of_length_le (by omega), List.nil_append,
            List.take_append_of_le_length (by omega), List.take_of_length_le (by omega)]
  | boolT =>
      cases v <;> simp only [serializeScalar] at h <;> try exact Except.noConfusion h
      case vbool b =>
        simp only [Except.ok.injEq] at h
        subst h
        cases b <;> simp [deserializeScalar]
  | bytesT =>
      cases v <;> simp only [serializeScalar] at h <;> try exact Except.noConfusion h
      case vbytes bs =>
        split at h
        case isFalse => exact Except.noConfusion h
        case isTrue hr =>
          simp only [Except.ok.injEq] at h
          subst h
          have hplen : (natToBytes 4 bo bs.length).length = 4 := natToBytes_length _ _ _
          have hbs : bs.length < 256 ^ 4 := by norm_num at hr ⊢; omega
          simp only [deserializeScalar, List.length_append, hplen, List.append_assoc]
          rw [if_neg (by omega)]
          rw [List.take_append_of_le_length (by omega), List.take_of_length_le (by omega),
            natFromBytes_natToBytes _ _ _ hbs]
          rw [if_neg (by omega)]
          rw [List.drop_append_of_le_length (by omega)]
          rw [List.drop_of_length_le (by omega), List.nil_append,
            List.take_append_of_le_length (by omega), List.take_of_length_le (by omega)]

theorem deserializeScalar_prefix (t : SType) (v : Value) (bo : Byteorder)
    (s : Bytes) (hwf : stypeWF t) (h : serializeScalar t v bo = .ok s)
    (m : Nat) (hm : m < s.length) :
    deserializeScalar t (s.take m) bo = .error .insufficient := by
  have hmlen : (s.take m).length = m := by
    simp [List.length_take]
    omega
  cases t with
  | uintT bits =>
      cases v <;> simp only [serializeScalar] at h <;> try exact Except.noConfusion h
      case vint n =>
        split at h
        case isFalse => exact Except.noConfusion h
        case isTrue hr =>
          simp only [Except.ok.injEq] at h
          subst h
          rw [natToBytes_length] at hm
          simp only [deserializeScalar, hmlen]
          rw [if_pos hm]
  | intT bits =>
      cases v <;> simp only [serializeScalar] at h <;> try exact Except.noConfusion h
      case vint n =>
        split at h
        case isFalse => exact Except.noConfusion h
        case isTrue hr =>
          simp only [Except.ok.injEq] at h
          subst h
          rw [intToBytes_length] at hm
          simp only [deserializeScalar, hmlen]
          rw [if_pos hm]
  | intNative =>
      cases v <;> simp only [serializeScalar] at h <;> try exact Except.noConfusion h
      case vint n =>
        split at h
        case isFalse => exact Except.noConfusion h
        case isTrue hr =>
          simp only [Except.ok.injEq] at h
          subst h
          rw [intToBytes_length] at hm
          simp only [deserializeScalar, hmlen]
          rw [if_pos hm]
  | strT =>
      cases v <;> simp only [serializeScalar] at h <;> try exact Except.noConfusion h
      case vstr bs =>
        split at h
        case isFalse => exact Except.noConfusion h
        case isTrue hr =>
          simp only [Except.ok.injEq] at h
          subst h
          have hplen : (natToBytes 4 bo bs.length).length = 4 := natToBytes_length _ _ _
          have hslen : (natToBytes 4 bo bs.length ++ bs).length = 4 + bs.length := by
            simp [hplen]
          by_cases hm4 : m < 4
          · simp only [deserializeScalar, hmlen]
            rw [if_pos hm4]
          · have hbs : bs.length < 256 ^ 4 := by norm_num at hr ⊢; omega
            simp only [deserializeScalar, hmlen]
            rw [if_neg hm4]
            rw [List.take_take, show min 4 m = 4 by omega,
              List.take_append_of_le_length (by omega), List.take_of_length_le (by omega),
              natFromBytes_natToBytes _ _ _ hbs]
            rw [if_pos (by omega)]
  | boolT =>
      cases v <;> simp only [serializeScalar] at h <;> try exact Except.noConfusion h
      case vbool b =>
        simp only [Except.ok.injEq] at h
        subst h
        have hm0 : m = 0 := by
          simp at hm
          omega
        subst hm0
        cases b <;> simp [deserializeScalar]
  | bytesT =>
      cases v <;> simp only [serializeScalar] at h <;> try exact Except.noConfusion h
      case vbytes bs =>
        split at h
        case isFalse => exact Except.noConfusion h
        case isTrue hr =>
          simp only [Except.ok.injEq] at h
          subst h
          have hplen : (natToBytes 4 bo bs.length).length = 4 := natToBytes_length _ _ _
          have hslen : (natToBytes 4 bo bs.length ++ bs).length = 4 + bs.length := by
            simp [hplen]
          by_cases hm4 : m < 4
          · simp only [deserializeScalar, hmlen]
            rw [if_pos hm4]
          · have hbs : bs.length < 256 ^ 4 := by norm_num at hr ⊢; omega
            simp only [deserializeScalar, hmlen]
            rw [if_neg hm4]
            rw [List.take_take, show min 4 m = 4 by omega,
              List.take_append_of_le_length (by omega), List.take_of_length_le (by omega),
              natFromBytes_natToBytes _ _ _ hbs]
            rw [if_pos (by omega)]

/-! ## MessagePartial codec round trip -/

/-- Well-formed partial field list for the round-trip universe: distinct
names, no custom encoders, sized scalar types. -/
def pfieldsWF (pf : List (String × PFieldSpec)) : Prop :=
  (pf.map Prod.fst).Nodup ∧ ∀ x ∈ pf, x.2.encoder = none ∧ stypeWF x.2.ptype

/-- The instance attribute map lists exactly the declared field names, in
declaration order (what `__init__` produces). -/
def alignedWith (pf : List (String × PFieldSpec)) (attrs : Ctx) : Prop :=
  List.Forall₂ (fun (ft : String × PFieldSpec) (kv : String × Value) => ft.1 = kv.1) pf attrs

theorem MessagePartial.serializeFields_fresh (pf : List (String × PFieldSpec))
    (f : String) (v : Value) (inst : Ctx) (bo : Byteorder)
    (hf : f ∉ pf.map Prod.fst) :
    MessagePartial.serializeFields pf ((f, v) :: inst) bo
      = MessagePartial.serializeFields pf inst bo := by
  induction pf with
  | nil => rfl
  | cons hd tl ih =>
      obtain ⟨g, gfl⟩ := hd
      simp only [List.map_cons, List.mem_cons] at hf
      push_neg at hf
      simp only [MessagePartial.serializeFields, lookupA, if_neg hf.1, ih (hf.2)]

theorem MessagePartial.deserializeFields_roundtrip
    (pf : List (String × PFieldSpec)) (attrs : Ctx) (bo : Byteorder) (s rest : Bytes)
    (hwf : pfieldsWF pf) (halign : alignedWith pf attrs)
    (hser : MessagePartial.serializeFields pf attrs bo = .ok s) :
    MessagePartial.deserializeFields pf (s ++ rest) bo = .ok (attrs, s.length) := by
  induction halign generalizing s rest with
  | nil =>
      simp only [MessagePartial.serializeFields, Except.ok.injEq] at hser
      subst hser
      simp [MessagePartial.deserializeFields]
  | @cons ft kv pftl atl hfk _ ih =>
      obtain ⟨f, fl⟩ := ft
      obtain ⟨f2, v⟩ := kv
      simp only at hfk
      subst hfk
      obtain ⟨hnd, hall⟩ := hwf
      have hfl := hall (f, fl) (by simp)
      have henc : fl.encoder = none := hfl.1
      have hsw : stypeWF fl.ptype := hfl.2
      have hfnotin : f ∉ pftl.map Prod.fst := by
        simp only [List.map_cons, List.nodup_cons] at hnd
        exact hnd.1
      simp only [MessagePartial.serializeFields, MessagePartial.serializeValue, lookupA,
        eq_self_iff_true, if_true, henc] at hser
      cases hsv : serializeScalar fl.ptype v bo with
      | error e =>
          rw [hsv] at hser
          exact Except.noConfusion hser
      | ok s1 =>
          rw [hsv] at hser
          rw [MessagePartial.serializeFields_fresh pftl f v atl bo hfnotin] at hser
          cases hst : MessagePartial.serializeFields pftl atl bo with
          | error e =>
              rw [hst] at hser
              exact Except.noConfusion hser
          | ok t =>
              rw [hst] at hser
              simp only [Except.bind, bind, pure, Except.pure, Except.ok.injEq] at hser
              subst hser
              have hwf2 : pfieldsWF pftl :=
                ⟨by simp only [List.map_cons, List.nodup_cons] at hnd; exact hnd.2,
                 fun x hx => hall x (by simp [hx])⟩
              have hdv := deserializeScalar_roundtrip fl.ptype v bo s1 (t ++ rest) hsw hsv
              simp only [MessagePartial.deserializeFields, MessagePartial.deserializeValue,
                henc, List.append_assoc]
              rw [hdv]
              simp only [Except.bind, bind]
              rw [List.drop_left]
              rw [ih t rest hwf2 hst]
              simp [pure, Except.pure, List.length_append]

theorem MessagePartial.deserializeFields_prefix
    (pf : List (String × PFieldSpec)) (attrs : Ctx) (bo : Byteorder) (s : Bytes)
    (hwf : pfieldsWF pf) (halign : alignedWith pf attrs)
    (hser : MessagePartial.serializeFields pf attrs bo = .ok s)
    (m : Nat) (hm : m < s.length) :
    ∃ e, MessagePartial.deserializeFields pf (s.take m) bo = .error e := by
  induction halign generalizing s m with
  | nil =>
      simp only [MessagePartial.serializeFields, Except.ok.injEq] at hser
      subst hser
      simp at hm
  | @cons ft kv pftl atl hfk _ ih =>
      obtain ⟨f, fl⟩ := ft
      obtain ⟨f2, v⟩ := kv
      simp only at hfk
      subst hfk
      obtain ⟨hnd, hall⟩ := hwf
      have hfl := hall (f, fl) (by simp)
      have henc : fl.encoder = none := hfl.1
      have hsw : stypeWF fl.ptype := hfl.2
      have hfnotin : f ∉ pftl.map Prod.fst := by
        simp only [List.map_cons, List.nodup_cons] at hnd
        exact hnd.1
      simp only [MessagePartial.serializeFields, MessagePartial.serializeValue, lookupA,
        eq_self_iff_true, if_true, henc] at hser
      cases hsv : serializeScalar fl.ptype v bo with
      | error e =>
          rw [hsv] at hser
          exact Except.noConfusion hser
      | ok s1 =>
          rw [hsv] at hser
          rw [MessagePartial.serializeFields_fresh pftl f v atl bo hfnotin] at hser
          cases hst : MessagePartial.serializeFields pftl atl bo with
          | error e =>
              rw [hst] at hser
              exact Except.noConfusion hser
          | ok t =>
              rw [hst] at hser
              simp only [Except.bind, bind, pure, Except.pure, Except.ok.injEq] at hser
              subst hser
              have hwf2 : pfieldsWF pftl :=
                ⟨by simp only [List.map_cons, List.nodup_cons] at hnd; exact hnd.2,
                 fun x hx => hall x (by simp [hx])⟩
              by_cases hms : m < s1.length
              · have hdv := deserializeScalar_prefix fl.ptype v bo s1 hsw hsv m hms
                refine ⟨.insufficient, ?_⟩
                simp only [MessagePartial.deserializeFields, MessagePartial.deserializeValue,
                  henc]
                rw [List.take_append_of_le_length (by omega), hdv]
                rfl
              · push_neg at hms
                have htake : (s1 ++ t).take m = s1 ++ t.take (m - s1.length) := by
                  rw [List.take_append_eq_append_take, List.take_of_length_le hms]
                have hdv := deserializeScalar_roundtrip fl.ptype v bo s1
                  (t.take (m - s1.length)) hsw hsv
                rw [List.length_append] at hm
                obtain ⟨e, he⟩ := ih t hwf2 hst (m - s1.length) (by omega)
                refine ⟨e, ?_⟩
                simp only [MessagePartial.deserializeFields, MessagePartial.deserializeValue,
                  henc, htake]
                rw [hdv]
                simp only [Except.bind, bind]
                rw [List.drop_left, he]

/-! ## The modelled round-trip universe for `Message` classes

`classWF` circumscribes the classes over which the round-trip theorems are
proved: byte-aligned mode, distinct field names, no custom encoders, sized
scalar or one-level composite types, no delimited arrays (the delimiter
look-ahead defeats the round trip — see the counterexample for claim C1),
conditions and `numlist` references pointing at earlier materialized
fields, and computed-value sources pointing at plain (non-computed,
unconditional) fields. -/

/-- The well-typedness a value needs for exact round-tripping: composite
instances list exactly the declared sub-fields in declaration order. -/
def valFits : FType → Value → Prop
  | .comp p, .vcomp attrs => alignedWith p.fields attrs
  | .comp _, _ => True
  | _, _ => True

/-- Field-type well-formedness for the round-trip universe. -/
def ftypeWF : FType → Prop
  | .scalar t => stypeWF t
  | .comp p => pfieldsWF p.fields
  | .bitT => False

/-- A field value fits: array values fit elementwise. -/
def fieldValFits (fl : MField) (v : Value) : Prop :=
  match v with
  | .vlist items => ∀ w ∈ items, valFits fl.ftype w
  | w => valFits fl.ftype w

/-- The field a condition reads. -/
def condRefName : CondE → String
  | .intEq g _ => g
  | .intNe g _ => g

/-- The field a value source reads. -/
def vsrcName : VSource → String
  | .lengthOf g => g
  | .sizeOf g => g
  | .valueFrom g => g

/-- The field type is scalar. -/
def ftypeScalar : FType → Prop
  | .scalar _ => True
  | _ => False

/-- `g` is declared in `spec` as a plain field: no computed source, no
condition. -/
def targetPlain (spec : MClass) (g : String) : Prop :=
  ∃ gfl, lookupA spec.fields g = some gfl ∧ gfl.source = none ∧ gfl.cond = none

/-- Per-field well-formedness, relative to the names of the earlier
unconditional (always materialized) fields. -/
def fieldWFcore (spec : MClass) (avail : List String) (fl : MField) : Prop :=
  fl.encoder = none
  ∧ fl.delimiter = none
  ∧ fl.bits = none
  ∧ ftypeWF fl.ftype
  ∧ (fl.static.isSome → fl.cond = none ∧ fl.source = none ∧ fl.numlist = none
      ∧ fl.dynamicArray = false)
  ∧ (∀ c, fl.cond = some c → condRefName c ∈ avail)
  ∧ (∀ g, fl.numlist = some (.ref g) → g ∈ avail)
  ∧ (fl.source.isSome → fl.numlist = none ∧ fl.dynamicArray = false
      ∧ ftypeScalar fl.ftype
      ∧ ∀ vs, fl.source = some vs → targetPlain spec (vsrcName vs))

/-- Well-formedness of a field suffix, threading the available names. -/
def fieldsWF (spec : MClass) : List (String × MField) → List String → Prop
  | [], _ => True
  | (f, fl) :: rest, avail =>
      fieldWFcore spec avail fl
      ∧ fieldsWF spec rest (if fl.cond.isSome then avail else avail ++ [f])

/-- The round-trip universe of `Message` classes. -/
def classWF (spec : MClass) : Prop :=
  spec.bitwise = false
  ∧ Message.hasBitwiseFields spec = false
  ∧ (spec.fields.map Prod.fst).Nodup
  ∧ fieldsWF spec spec.fields []

/-- Instances over which the round trip is stated: static fields hold their
declared constant (as the constructor guarantees) and set values are
well-typed for their field. -/
def instFits (spec : MClass) (m : Ctx) : Prop :=
  (∀ f fl sv, (f, fl) ∈ spec.fields → fl.static = some sv → lookupA m f = some sv)
  ∧ (∀ f fl v, (f, fl) ∈ spec.fields → lookupA m f = some v → fieldValFits fl v)

/-! ### Association-list membership -/

theorem lookupA_mem {κ α : Type} [DecidableEq κ] (l : List (κ × α)) (k : κ) (v : α)
    (h : lookupA l k = some v) : (k, v) ∈ l := by
  induction l with
  | nil => simp [lookupA] at h
  | cons hd tl ih =>
      obtain ⟨j, w⟩ := hd
      by_cases hj : j = k
      · subst hj
        simp [lookupA] at h
        subst h
        exact List.mem_cons_self _ _
      · simp only [lookupA, if_neg hj] at h
        simp [ih h]

theorem mem_lookupA_of_nodup {κ α : Type} [DecidableEq κ] (l : List (κ × α)) (k : κ) (v : α)
    (hnd : (l.map Prod.fst).Nodup) (h : (k, v) ∈ l) : lookupA l k = some v := by
  induction l with
  | nil => simp at h
  | cons hd tl ih =>
      obtain ⟨j, w⟩ := hd
      simp only [List.map_cons, List.nodup_cons] at hnd
      rcases List.mem_cons.mp h with h1 | h1
      · cases h1
        simp [lookupA]
      · have hjk : j ≠ k := by
          intro hh
          subst hh
          exact hnd.1 (List.mem_map.mpr ⟨(j, v), h1, rfl⟩)
        simp [lookupA, hjk, ih hnd.2 h1]

theorem nodup_bindings_eq {κ α : Type} [DecidableEq κ] (l : List (κ × α)) (k : κ) (a b : α)
    (hnd : (l.map Prod.fst).Nodup) (ha : (k, a) ∈ l) (hb : (k, b) ∈ l) : a = b := by
  have h1 := mem_lookupA_of_nodup l k a hnd ha
  have h2 := mem_lookupA_of_nodup l k b hnd hb
  exact Option.some.inj (h1.symm.trans h2)

/-! ### Value-level round trip at the `Message` layer -/

theorem Message.deserializeValue_roundtrip (fl : MField) (v : Value) (bo : Byteorder)
    (s rest : Bytes) (henc : fl.encoder = none) (hwf : ftypeWF fl.ftype)
    (hfits : valFits fl.ftype v) (hser : Message.serializeValue fl v bo = .ok s) :
    Message.deserializeValue fl (s ++ rest) bo = .ok (v, s.length) := by
  simp only [Message.serializeValue, henc, Option.isSome_none, Bool.false_eq_true,
    if_false] at hser
  simp only [Message.deserializeValue, henc, Option.isSome_none, Bool.false_eq_true,
    if_false]
  cases hft : fl.ftype with
  | scalar t =>
      rw [hft] at hser hwf
      exact deserializeScalar_roundtrip t v bo s rest hwf hser
  | comp p =>
      rw [hft] at hser hwf hfits
      cases v <;> try exact Except.noConfusion hser
      case vcomp attrs =>
        simp only [valFits] at hfits
        simp only [MessagePartial.serializeBytes] at hser
        simp only [MessagePartial.deserializeBytes]
        rw [MessagePartial.deserializeFields_roundtrip p.fields attrs p.encoding s rest
          hwf hfits hser]
        rfl
  | bitT =>
      rw [hft] at hwf
      exact absurd hwf (by simp [ftypeWF])

theorem Message.deserializeValue_prefix (fl : MField) (v : Value) (bo : Byteorder)
    (s : Bytes) (henc : fl.encoder = none) (hwf : ftypeWF fl.ftype)
    (hfits : valFits fl.ftype v) (hser : Message.serializeValue fl v bo = .ok s)
    (m : Nat) (hm : m < s.length) :
    ∃ e, Message.deserializeValue fl (s.take m) bo = .error e := by
  simp only [Message.serializeValue, henc, Option.isSome_none, Bool.false_eq_true,
    if_false] at hser
  simp only [Message.deserializeValue, henc, Option.isSome_none, Bool.false_eq_true,
    if_false]
  cases hft : fl.ftype with
  | scalar t =>
      rw [hft] at hser hwf
      exact ⟨.insufficient, deserializeScalar_prefix t v bo s hwf hser m hm⟩
  | comp p =>
      rw [hft] at hser hwf hfits
      cases v <;> try exact Except.noConfusion hser
      case vcomp attrs =>
        simp only [valFits] at hfits
        simp only [MessagePartial.serializeBytes] at hser
        simp only [MessagePartial.deserializeBytes]
        obtain ⟨e, he⟩ := MessagePartial.deserializeFields_prefix p.fields attrs p.encoding s
          hwf hfits hser m hm
        exact ⟨e, by rw [he]; rfl⟩
  | bitT =>
      rw [hft] at hwf
      exact absurd hwf (by simp [ftypeWF])

theorem Message.decodeItems_roundtrip (fl : MField) (bo : Byteorder)
    (items : List Value) (s rest : Bytes)
    (henc : fl.encoder = none) (hwf : ftypeWF fl.ftype)
    (hfits : ∀ w ∈ items, valFits fl.ftype w)
    (hser : Message.serializeItems fl items bo = .ok s) :
    Message.decodeItems fl bo items.length (s ++ rest) = .ok (items, s.length) := by
  induction items generalizing s rest with
  | nil =>
      simp only [Message.serializeItems, Except.ok.injEq] at hser
      subst hser
      simp [Message.decodeItems]
  | cons v vs ih =>
      simp only [Message.serializeItems, bind, Except.bind] at hser
      cases hsv : Message.serializeValue fl v bo with
      | error e => rw [hsv] at hser; exact Except.noConfusion hser
      | ok s1 =>
          rw [hsv] at hser
          cases hst : Message.serializeItems fl vs bo with
          | error e => rw [hst] at hser; exact Except.noConfusion hser
          | ok t =>
              rw [hst] at hser
              simp only [pure, Except.pure, Except.ok.injEq] at hser
              subst hser
              have hdv := Message.deserializeValue_roundtrip fl v bo s1 (t ++ rest) henc hwf
                (hfits v (by simp)) hsv
              have hih := ih t rest (fun w hw => hfits w (by simp [hw])) hst
              simp only [List.length_cons, Message.decodeItems, bind, Except.bind,
                List.append_assoc, hdv, List.drop_left, hih, pure, Except.pure,
                Except.ok.injEq, Prod.mk.injEq, List.length_append]

theorem Message.decodeItems_prefix (fl : MField) (bo : Byteorder)
    (items : List Value) (s : Bytes)
    (henc : fl.encoder = none) (hwf : ftypeWF fl.ftype)
    (hfits : ∀ w ∈ items, valFits fl.ftype w)
    (hser : Message.serializeItems fl items bo = .ok s)
    (m : Nat) (hm : m < s.length) :
    ∃ e, Message.decodeItems fl bo items.length (s.take m) = .error e := by
  induction items generalizing s m with
  | nil =>
      simp only [Message.serializeItems, Except.ok.injEq] at hser
      subst hser
      simp at hm
  | cons v vs ih =>
      simp only [Message.serializeItems, bind, Except.bind] at hser
      cases hsv : Message.serializeValue fl v bo with
      | error e => rw [hsv] at hser; exact Except.noConfusion hser
      | ok s1 =>
          rw [hsv] at hser
          cases hst : Message.serializeItems fl vs bo with
          | error e => rw [hst] at hser; exact Except.noConfusion hser
          | ok t =>
              rw [hst] at hser
              simp only [pure, Except.pure, Except.ok.injEq] at hser
              subst hser
              by_cases hms : m < s1.length
              · obtain ⟨e, he⟩ := Message.deserializeValue_prefix fl v bo s1 henc hwf
                  (hfits v (by simp)) hsv m hms
                refine ⟨e, ?_⟩
                simp only [List.length_cons, Message.decodeItems, bind, Except.bind]
                rw [List.take_append_of_le_length (by omega), he]
              · push_neg at hms
                have htake : (s1 ++ t).take m = s1 ++ t.take (m - s1.length) := by
                  rw [List.take_append_eq_append_take, List.take_of_length_le hms]
                have hdv := Message.deserializeValue_roundtrip fl v bo s1
                  (t.take (m - s1.length)) henc hwf (hfits v (by simp)) hsv
                rw [List.length_append] at hm
                obtain ⟨e, he⟩ := ih t (fun w hw => hfits w (by simp [hw])) hst
                  (m - s1.length) (by omega)
                refine ⟨e, ?_⟩
                simp only [List.length_cons, Message.decodeItems, bind, Except.bind, htake,
                  hdv, List.drop_left, he]

/-! ### Stability of condition and computed-value evaluation -/

theorem evalCond_stable (c : CondE) (ctxA ctxB : Ctx)
    (heq : lookupA ctxA (condRefName c) = lookupA ctxB (condRefName c)) :
    evalCond c ctxA = evalCond c ctxB := by
  cases c <;> simp only [condRefName] at heq <;> simp only [evalCond, heq]

theorem Message.computeFieldValue_stable (spec : MClass) (fl : MField) (instA instB : Ctx)
    (vs : VSource) (hs : fl.source = some vs)
    (heq : lookupA instA (vsrcName vs) = lookupA instB (vsrcName vs)) :
    Message.computeFieldValue spec instA fl = Message.computeFieldValue spec instB fl := by
  cases vs <;> simp only [vsrcName] at heq <;>
    simp only [Message.computeFieldValue, hs, Message.resolveFieldReference, heq]

/-! ### Frame lemmas: which attributes serialization mutates -/

theorem Message.serializeFieldBody_inst (spec : MClass) (f : String) (fl : MField)
    (inst : Ctx) (piece : Bytes) (inst1 : Ctx)
    (h : Message.serializeFieldBody spec f fl inst = .ok (piece, inst1)) :
    inst1 = inst ∨ (fl.static = none ∧ fl.source.isSome ∧ ∃ v, inst1 = setA inst f v) := by
  simp only [Message.serializeFieldBody, bind, Except.bind, pure, Except.pure] at h
  repeat' split at h
  all_goals
    first
      | exact Except.noConfusion h
      | (simp only [Except.ok.injEq, Prod.mk.injEq] at h
         first
           | exact Or.inl h.2.symm
           | (rename_i heq1 heq2 heq3
              exact Or.inr ⟨by assumption, by simp [*], _, h.2.symm⟩))

theorem Message.serializeField_inst (spec : MClass) (f : String) (fl : MField) (inst : Ctx)
    (piece : Bytes) (inst1 : Ctx)
    (h : Message.serializeField spec f fl inst = .ok (piece, inst1)) :
    inst1 = inst ∨ (fl.static = none ∧ fl.source.isSome ∧ ∃ v, inst1 = setA inst f v) := by
  simp only [Message.serializeField, bind, Except.bind, pure, Except.pure] at h
  repeat' split at h
  all_goals
    first
      | exact Except.noConfusion h
      | exact Message.serializeFieldBody_inst spec f fl inst piece inst1 h
      | (simp only [Except.ok.injEq, Prod.mk.injEq] at h
         exact Or.inl h.2.symm)

theorem Message.serializeFields_frame (spec : MClass) (fs : List (String × MField))
    (inst : Ctx) (s : Bytes) (instF : Ctx)
    (h : Message.serializeFields spec fs inst = .ok (s, instF))
    (g : String) (hg : g ∉ fs.map Prod.fst) :
    lookupA instF g = lookupA inst g := by
  induction fs generalizing inst s with
  | nil =>
      simp only [Message.serializeFields, Except.ok.injEq, Prod.mk.injEq] at h
      rw [h.2]
  | cons hd tl ih =>
      obtain ⟨f, fl⟩ := hd
      simp only [List.map_cons, List.mem_cons] at hg
      push_neg at hg
      simp only [Message.serializeFields, bind, Except.bind] at h
      cases hsf : Message.serializeField spec f fl inst with
      | error e => simp only [hsf] at h; exact Except.noConfusion h
      | ok r =>
          simp only [hsf] at h
          cases hst : Message.serializeFields spec tl r.2 with
          | error e => simp only [hst] at h; exact Except.noConfusion h
          | ok r2 =>
              simp only [hst, pure, Except.pure, Except.ok.injEq, Prod.mk.injEq] at h
              have h2 : lookupA instF g = lookupA r.2 g :=
                ih r.2 r2.1 (by rw [hst, ← h.2]) hg.2
              rw [h2]
              rcases Message.serializeField_inst spec f fl inst r.1 r.2 (by rw [hsf]) with
                hi | ⟨_, _, v, hi⟩
              · rw [hi]
              · rw [hi, lookupA_setA_ne _ _ _ _ hg.1]

theorem Message.serializeFields_frame_plain (spec : MClass) (fs : List (String × MField))
    (inst : Ctx) (s : Bytes) (instF : Ctx)
    (h : Message.serializeFields spec fs inst = .ok (s, instF))
    (g : String) (hall : ∀ gfl, (g, gfl) ∈ fs → gfl.source = none) :
    lookupA instF g = lookupA inst g := by
  induction fs generalizing inst s with
  | nil =>
      simp only [Message.serializeFields, Except.ok.injEq, Prod.mk.injEq] at h
      rw [h.2]
  | cons hd tl ih =>
      obtain ⟨f, fl⟩ := hd
      simp only [Message.serializeFields, bind, Except.bind] at h
      cases hsf : Message.serializeField spec f fl inst with
      | error e => simp only [hsf] at h; exact Except.noConfusion h
      | ok r =>
          simp only [hsf] at h
          cases hst : Message.serializeFields spec tl r.2 with
          | error e => simp only [hst] at h; exact Except.noConfusion h
          | ok r2 =>
              simp only [hst, pure, Except.pure, Except.ok.injEq, Prod.mk.injEq] at h
              have h2 : lookupA instF g = lookupA r.2 g :=
                ih r.2 r2.1 (by rw [hst, ← h.2])
                  (fun gfl hm => hall gfl (by simp [hm]))
              rw [h2]
              rcases Message.serializeField_inst spec f fl inst r.1 r.2 (by rw [hsf]) with
                hi | ⟨_, hsrc, v, hi⟩
              · rw [hi]
              · by_cases hgf : g = f
                · subst hgf
                  have := hall fl (by simp)
                  rw [this] at hsrc
                  exact absurd hsrc (by simp)
                · rw [hi, lookupA_setA_ne _ _ _ _ hgf]

/-! ### Conditional fields: skip and take reductions -/

theorem Message.serializeField_skip (spec : MClass) (f : String) (fl : MField)
    (inst : Ctx) (c : CondE) (hc : fl.cond = some c)
    (hev : evalCond c inst = .ok false) :
    Message.serializeField spec f fl inst = .ok ([], inst) := by
  simp [Message.serializeField, hc, hev, bind, Except.bind, pure, Except.pure]

theorem Message.serializeField_take (spec : MClass) (f : String) (fl : MField)
    (inst : Ctx) (c : CondE) (hc : fl.cond = some c)
    (hev : evalCond c inst = .ok true) :
    Message.serializeField spec f fl inst = Message.serializeFieldBody spec f fl inst := by
  simp [Message.serializeField, hc, hev, bind, Except.bind, pure, Except.pure]

theorem Message.serializeField_nocond (spec : MClass) (f : String) (fl : MField)
    (inst : Ctx) (hc : fl.cond = none) :
    Message.serializeField spec f fl inst = Message.serializeFieldBody spec f fl inst := by
  simp [Message.serializeField, hc, bind, Except.bind, pure, Except.pure]

theorem Message.deserializeField_skip (spec : MClass) (f : String) (fl : MField)
    (data : Bytes) (kwargs : Ctx) (c : CondE) (hs : fl.static = none)
    (hc : fl.cond = some c) (hev : evalCond c kwargs = .ok false) :
    Message.deserializeField spec f fl data kwargs = .ok (kwargs, 0) := by
  simp [Message.deserializeField, hs, hc, hev, bind, Except.bind, pure, Except.pure]

theorem Message.deserializeField_take (spec : MClass) (f : String) (fl : MField)
    (data : Bytes) (kwargs : Ctx) (c : CondE) (hs : fl.static = none)
    (hc : fl.cond = some c) (hev : evalCond c kwargs = .ok true) :
    Message.deserializeField spec f fl data kwargs
      = Message.deserializeFieldBody spec f fl data kwargs := by
  simp [Message.deserializeField, hs, hc, hev, bind, Except.bind, pure, Except.pure]

theorem Message.deserializeField_nocond (spec : MClass) (f : String) (fl : MField)
    (data : Bytes) (kwargs : Ctx) (hs : fl.static = none) (hc : fl.cond = none) :
    Message.deserializeField spec f fl data kwargs
      = Message.deserializeFieldBody spec f fl data kwargs := by
  simp [Message.deserializeField, hs, hc, bind, Except.bind, pure, Except.pure]

/-! ### One-field round trip -/

/-- Shapes other than composite maps fit any field type. -/
theorem valFits_not_vcomp (t : FType) (v : Value)
    (h : ∀ attrs, v ≠ Value.vcomp attrs) : valFits t v := by
  cases t <;> cases v <;> first | exact absurd rfl (h _) | simp [valFits]

theorem Message.deserializeField_roundtrip_static
    (spec : MClass) (f : String) (fl : MField) (instCur kwargs : Ctx)
    (piece : Bytes) (inst1 : Ctx) (rest : Bytes) (sv : Value)
    (hstatic : fl.static = some sv) (hcond : fl.cond = none)
    (henc : fl.encoder = none) (hdelim : fl.delimiter = none)
    (hnl : fl.numlist = none) (hdyn : fl.dynamicArray = false)
    (hsrc : fl.source = none) (hwft : ftypeWF fl.ftype)
    (hser : Message.serializeField spec f fl instCur = .ok (piece, inst1))
    (hfit : fieldValFits fl sv) :
    Message.deserializeField spec f fl (piece ++ rest) kwargs
        = .ok (setA kwargs f sv, piece.length)
      ∧ inst1 = instCur := by
  rw [Message.serializeField_nocond spec f fl instCur hcond] at hser
  simp only [Message.serializeFieldBody, hstatic, hsrc, hnl, hdyn, hdelim,
    Bool.false_eq_true, if_false, bind, Except.bind, pure, Except.pure] at hser
  cases hsv : Message.serializeValue fl sv spec.encoding with
  | error e =>
      simp only [hsv] at hser
      exact Except.noConfusion hser
  | ok s1 =>
      simp only [hsv, Except.ok.injEq, Prod.mk.injEq] at hser
      obtain ⟨hp, hi⟩ := hser
      subst hp
      have hfv : valFits fl.ftype sv := by
        cases sv <;>
          first
            | exact hfit
            | exact valFits_not_vcomp _ _ (fun a hh => Value.noConfusion hh)
      have hdv := Message.deserializeValue_roundtrip fl sv spec.encoding s1 rest
        henc hwft hfv hsv
      constructor
      · simp only [Message.deserializeField, hstatic, bind, Except.bind, hdv,
          Value.beq_refl, if_true, pure, Except.pure]
      · exact hi.symm

theorem Message.deserializeFieldBody_roundtrip
    (spec : MClass) (f : String) (fl : MField) (instCur kwargs : Ctx)
    (avail : List String) (piece : Bytes) (inst1 : Ctx) (rest : Bytes)
    (hstatic : fl.static = none)
    (henc : fl.encoder = none) (hdelim : fl.delimiter = none)
    (hwft : ftypeWF fl.ftype)
    (hsrcwf : fl.source.isSome →
      fl.numlist = none ∧ fl.dynamicArray = false ∧ ftypeScalar fl.ftype)
    (hnlref : ∀ g, fl.numlist = some (.ref g) → g ∈ avail)
    (hser : Message.serializeFieldBody spec f fl instCur = .ok (piece, inst1))
    (hagree : ∀ g ∈ avail, ∃ w, lookupA kwargs g = some w ∧ lookupA instCur g = some w)
    (hfits : ∀ v, lookupA instCur f = some v → fieldValFits fl v) :
    ∃ v, Message.deserializeFieldBody spec f fl (piece ++ rest) kwargs
        = .ok (setA kwargs f v, piece.length)
      ∧ lookupA inst1 f = some v
      ∧ (∀ g, g ≠ f → lookupA inst1 g = lookupA instCur g)
      ∧ (fl.source = none → lookupA instCur f = some v) := by
  cases hsrc : fl.source with
  | some vs =>
      obtain ⟨hnl, hdyn, hscal⟩ := hsrcwf (by simp [hsrc])
      simp only [Message.serializeFieldBody, hstatic, hsrc, hnl, hdyn, hdelim,
        Bool.false_eq_true, if_false, bind, Except.bind, pure, Except.pure] at hser
      cases hcv : Message.computeFieldValue spec instCur fl with
      | error e =>
          simp only [hcv] at hser
          exact Except.noConfusion hser
      | ok v =>
          simp only [hcv] at hser
          cases hsv : Message.serializeValue fl v spec.encoding with
          | error e =>
              simp only [hsv] at hser
              exact Except.noConfusion hser
          | ok s1 =>
              simp only [hsv, Except.ok.injEq, Prod.mk.injEq] at hser
              obtain ⟨hp, hi⟩ := hser
              subst hp
              have hfv : valFits fl.ftype v := by
                cases hft : fl.ftype with
                | scalar t => simp [valFits]
                | comp p => rw [hft] at hscal; exact absurd hscal (by simp [ftypeScalar])
                | bitT => rw [hft] at hscal; exact absurd hscal (by simp [ftypeScalar])
              have hdv := Message.deserializeValue_roundtrip fl v spec.encoding s1 rest
                henc hwft hfv hsv
              refine ⟨v, ?_, ?_, ?_, ?_⟩
              · simp only [Message.deserializeFieldBody, hnl, hdyn, hdelim,
                  Bool.false_eq_true, if_false, bind, Except.bind, hdv, pure, Except.pure]
              · rw [← hi]
                exact lookupA_setA_self instCur f v
              · intro g hg
                rw [← hi]
                exact lookupA_setA_ne instCur f g v hg
              · intro hcontra
                exact Option.noConfusion hcontra
  | none =>
      simp only [Message.serializeFieldBody, hstatic, hsrc, bind, Except.bind,
        pure, Except.pure] at hser
      cases hlk : lookupA instCur f with
      | none =>
          simp only [hlk] at hser
          exact Except.noConfusion hser
      | some v0 =>
          simp only [hlk] at hser
          have hfit0 := hfits v0 hlk
          cases hnl : fl.numlist with
          | some np =>
              simp only [hnl] at hser
              cases np with
              | lit n =>
                  simp only [pure, Except.pure] at hser
                  cases v0 <;> try (simp only at hser; exact Except.noConfusion hser)
                  case vlist items =>
                  simp only at hser
                  simp only [fieldValFits] at hfit0
                  by_cases hlen : (items.length : Int) = (n : Int)
                  · rw [if_pos hlen] at hser
                    cases hsi : Message.serializeItems fl items spec.encoding with
                    | error e =>
                        simp only [hsi] at hser
                        exact Except.noConfusion hser
                    | ok s1 =>
                        simp only [hsi, Except.ok.injEq, Prod.mk.injEq] at hser
                        obtain ⟨hp, hi⟩ := hser
                        subst hp
                        have hn : n = items.length := by exact_mod_cast hlen.symm
                        have hdi := Message.decodeItems_roundtrip fl spec.encoding items s1
                          rest henc hwft hfit0 hsi
                        refine ⟨.vlist items, ?_, ?_, ?_, ?_⟩
                        · simp only [Message.deserializeFieldBody, hnl, pure, Except.pure,
                            bind, Except.bind, hn, hdi]
                        · rw [← hi]; exact hlk
                        · intro g hg; rw [← hi]
                        · intro _; rfl
                  · rw [if_neg hlen] at hser
                    exact Except.noConfusion hser
              | ref g =>
                  obtain ⟨w, hkw, hiw⟩ := hagree g (hnlref g hnl)
                  simp only [Message.resolveFieldReference, hiw, pure, Except.pure] at hser
                  cases w <;> try (simp only at hser; exact Except.noConfusion hser)
                  case vint k =>
                  simp only at hser
                  cases v0 <;> try (simp only at hser; exact Except.noConfusion hser)
                  case vlist items =>
                  simp only at hser
                  simp only [fieldValFits] at hfit0
                  by_cases hlen : (items.length : Int) = k
                  · rw [if_pos hlen] at hser
                    cases hsi : Message.serializeItems fl items spec.encoding with
                    | error e =>
                        simp only [hsi] at hser
                        exact Except.noConfusion hser
                    | ok s1 =>
                        simp only [hsi, Except.ok.injEq, Prod.mk.injEq] at hser
                        obtain ⟨hp, hi⟩ := hser
                        subst hp
                        have hn : k.toNat = items.length := by
                          rw [← hlen]; simp
                        have hdi := Message.decodeItems_roundtrip fl spec.encoding items s1
                          rest henc hwft hfit0 hsi
                        refine ⟨.vlist items, ?_, ?_, ?_, ?_⟩
                        · simp only [Message.deserializeFieldBody, hnl, hkw, pure, Except.pure,
                            bind, Except.bind, hn, hdi]
                        · rw [← hi]; exact hlk
                        · intro g' hg; rw [← hi]
                        · intro _; rfl
                  · rw [if_neg hlen] at hser
                    exact Except.noConfusion hser
          | none =>
              simp only [hnl] at hser
              cases hdyn : fl.dynamicArray with
              | true =>
                  simp only [hdyn, eq_self_iff_true, if_true] at hser
                  cases v0 <;> try (simp only at hser; exact Except.noConfusion hser)
                  case vlist items =>
                  simp only at hser
                  simp only [fieldValFits] at hfit0
                  by_cases hlt : items.length < 2 ^ 32
                  · rw [if_pos hlt] at hser
                    cases hsi : Message.serializeItems fl items spec.encoding with
                    | error e =>
                        simp only [hsi] at hser
                        exact Except.noConfusion hser
                    | ok body =>
                        simp only [hsi, pure, Except.pure, Except.ok.injEq,
                          Prod.mk.injEq] at hser
                        obtain ⟨hp, hi⟩ := hser
                        subst hp
                        have h4 : ¬ ((natToBytes 4 spec.encoding items.length ++ body
                            ++ rest).length < 4) := by
                          simp [natToBytes_length]
                        have htake : (natToBytes 4 spec.encoding items.length ++ body
                            ++ rest).take 4 = natToBytes 4 spec.encoding items.length := by
                          rw [List.append_assoc]
                          exact List.take_left' (natToBytes_length 4 _ _)
                        have hdrop : (natToBytes 4 spec.encoding items.length ++ body
                            ++ rest).drop 4 = body ++ rest := by
                          rw [List.append_assoc]
                          exact List.drop_left' (natToBytes_length 4 _ _)
                        have hlt' : items.length < 256 ^ 4 := by
                          have : (256 : Nat) ^ 4 = 2 ^ 32 := by norm_num
                          rw [this]; exact hlt
                        have hdi := Message.decodeItems_roundtrip fl spec.encoding items
                          body rest henc hwft hfit0 hsi
                        refine ⟨.vlist items, ?_, ?_, ?_, ?_⟩
                        · simp only [Message.deserializeFieldBody, hnl, hdyn,
                            eq_self_iff_true, if_true, bind, Except.bind,
                            pure, Except.pure]
                          rw [if_neg h4, htake, natFromBytes_natToBytes 4 _ _ hlt',
                            hdrop, hdi]
                          simp [natToBytes_length]
                        · rw [← hi]; exact hlk
                        · intro g hg; rw [← hi]
                        · intro _; rfl
                  · rw [if_neg hlt] at hser
                    exact Except.noConfusion hser
              | false =>
                  simp only [hdyn, Bool.false_eq_true, if_false, hdelim] at hser
                  cases hsv : Message.serializeValue fl v0 spec.encoding with
                  | error e =>
                      simp only [hsv] at hser
                      exact Except.noConfusion hser
                  | ok s1 =>
                      simp only [hsv, Except.ok.injEq, Prod.mk.injEq] at hser
                      obtain ⟨hp, hi⟩ := hser
                      subst hp
                      have hfv : valFits fl.ftype v0 := by
                        cases v0 <;>
                          first
                            | exact hfit0
                            | exact valFits_not_vcomp _ _ (fun a hh => Value.noConfusion hh)
                      have hdv := Message.deserializeValue_roundtrip fl v0 spec.encoding s1
                        rest henc hwft hfv hsv
                      refine ⟨v0, ?_, ?_, ?_, ?_⟩
                      · simp only [Message.deserializeFieldBody, hnl, hdyn,
                          Bool.false_eq_true, if_false, hdelim, bind, Except.bind, hdv,
                          pure, Except.pure]
                      · rw [← hi]; exact hlk
                      · intro g hg; rw [← hi]
                      · intro _; rfl

/-! ### Constructor lookups and name bookkeeping -/

theorem nodup_rotate {f : String} {xs ys : List String}
    (h : (f :: (xs ++ ys)).Nodup) : (xs ++ (ys ++ [f])).Nodup := by
  have hp := List.perm_append_singleton f (xs ++ ys)
  have h2 : ((xs ++ ys) ++ [f]).Nodup := (hp.nodup_iff).mpr h
  simpa [List.append_assoc] using h2

theorem lookupA_mkFields_not_mem (fs : List (String × MField)) (kwargs : Ctx) (f : String)
    (h : f ∉ fs.map Prod.fst) : lookupA (Message.mkFields fs kwargs) f = none := by
  induction fs with
  | nil => rfl
  | cons hd tl ih =>
      obtain ⟨g, gl⟩ := hd
      simp only [List.map_cons, List.mem_cons] at h
      push_neg at h
      cases hs : gl.static with
      | some sv =>
          simp only [Message.mkFields, hs, lookupA, if_neg (Ne.symm h.1)]
          exact ih h.2
      | none =>
          cases hk : lookupA kwargs g with
          | some v =>
              simp only [Message.mkFields, hs, hk, lookupA, if_neg (Ne.symm h.1)]
              exact ih h.2
          | none =>
              simp only [Message.mkFields, hs, hk]
              exact ih h.2

theorem lookupA_mkFields (fs : List (String × MField)) (kwargs : Ctx) (f : String)
    (fl : MField) (hnd : (fs.map Prod.fst).Nodup) (hmem : (f, fl) ∈ fs) :
    lookupA (Message.mkFields fs kwargs) f
      = match fl.static with
        | some sv => some sv
        | none => lookupA kwargs f := by
  induction fs with
  | nil => simp at hmem
  | cons hd tl ih =>
      obtain ⟨g, gl⟩ := hd
      simp only [List.map_cons, List.nodup_cons] at hnd
      rcases List.mem_cons.mp hmem with h1 | h1
      · cases h1
        cases hs : fl.static with
        | some sv => simp [Message.mkFields, hs, lookupA]
        | none =>
            cases hk : lookupA kwargs f with
            | some v => simp [Message.mkFields, hs, hk, lookupA]
            | none =>
                simp only [Message.mkFields, hs, hk]
                simp [lookupA_mkFields_not_mem tl kwargs f hnd.1, hk]
      · have hgf : g ≠ f := by
          intro hh
          subst hh
          exact hnd.1 (List.mem_map.mpr ⟨(g, fl), h1, rfl⟩)
        cases hs : gl.static with
        | some sv =>
            simp only [Message.mkFields, hs, lookupA, if_neg hgf]
            exact ih hnd.2 h1
        | none =>
            cases hk : lookupA kwargs g with
            | some v =>
                simp only [Message.mkFields, hs, hk, lookupA, if_neg hgf]
                exact ih hnd.2 h1
            | none =>
                simp only [Message.mkFields, hs, hk]
                exact ih hnd.2 h1

/-! ### The field-loop round trip -/

theorem Message.deserializeFields_roundtrip_fold
    (spec : MClass) (fs : List (String × MField)) (avail : List String)
    (instCur kwargs : Ctx) (s : Bytes) (instF : Ctx) (rest : Bytes)
    (hwf : fieldsWF spec fs avail)
    (hnd : ((fs.map Prod.fst) ++ avail).Nodup)
    (hser : Message.serializeFields spec fs instCur = .ok (s, instF))
    (hagree : ∀ g ∈ avail, ∃ w, lookupA kwargs g = some w ∧ lookupA instCur g = some w)
    (hfits : ∀ f fl v, (f, fl) ∈ fs → lookupA instCur f = some v → fieldValFits fl v)
    (hstat : ∀ f fl sv, (f, fl) ∈ fs → fl.static = some sv → lookupA instCur f = some sv) :
    ∃ kwF,
      Message.deserializeFields spec fs (s ++ rest) kwargs = .ok (kwF, s.length)
      ∧ (∀ g, g ∉ fs.map Prod.fst → lookupA kwF g = lookupA kwargs g)
      ∧ (∀ f fl, (f, fl) ∈ fs → fl.cond = none → lookupA kwF f = lookupA instF f)
      ∧ (∀ f fl c, (f, fl) ∈ fs → fl.cond = some c → evalCond c instF = .ok false →
          lookupA kwF f = lookupA kwargs f)
      ∧ (∀ f fl c, (f, fl) ∈ fs → fl.cond = some c → evalCond c instF = .ok true →
          lookupA kwF f = lookupA instF f) := by
  induction fs generalizing avail instCur kwargs s with
  | nil =>
      simp only [Message.serializeFields, Except.ok.injEq, Prod.mk.injEq] at hser
      refine ⟨kwargs, ?_, ?_, ?_, ?_, ?_⟩
      · rw [← hser.1]
        simp [Message.deserializeFields]
      · intro g _
        rfl
      · intro f fl hm
        simp at hm
      · intro f fl c hm
        simp at hm
      · intro f fl c hm
        simp at hm
  | cons hd tl ih =>
      obtain ⟨f, fl⟩ := hd
      have hndflat : (f :: (tl.map Prod.fst ++ avail)).Nodup := by simpa using hnd
      have hfnot : f ∉ tl.map Prod.fst ∧ f ∉ avail := by
        have h1 := (List.nodup_cons.mp hndflat).1
        simp only [List.mem_append] at h1
        push_neg at h1
        exact h1
      have hndtl : (tl.map Prod.fst ++ avail).Nodup := (List.nodup_cons.mp hndflat).2
      have havnotl : ∀ g ∈ avail, g ∉ tl.map Prod.fst := by
        intro g hg hcon
        exact (List.nodup_append.mp hndtl).2.2 hcon hg
      obtain ⟨hcore, hwftl⟩ := hwf
      obtain ⟨hencf, hdelimf, _hbitsf, hwftf, hstatcl, hcondcl, hnlcl, hsrccl⟩ := hcore
      simp only [Message.serializeFields, bind, Except.bind] at hser
      cases hsf : Message.serializeField spec f fl instCur with
      | error e =>
          simp only [hsf] at hser
          exact Except.noConfusion hser
      | ok r =>
          obtain ⟨piece, inst1⟩ := r
          simp only [hsf] at hser
          cases hst : Message.serializeFields spec tl inst1 with
          | error e =>
              simp only [hst] at hser
              exact Except.noConfusion hser
          | ok r2 =>
              obtain ⟨stl, iF⟩ := r2
              simp only [hst, pure, Except.pure, Except.ok.injEq, Prod.mk.injEq] at hser
              obtain ⟨hseq, hiF⟩ := hser
              subst iF
              subst hseq
              have hfits' : ∀ f2 fl2 v2, (f2, fl2) ∈ tl →
                  lookupA inst1 f2 = some v2 → fieldValFits fl2 v2 := by
                intro f2 fl2 v2 hm hlk2
                have hne : f2 ≠ f := by
                  intro hh
                  subst hh
                  exact hfnot.1 (List.mem_map.mpr ⟨(f2, fl2), hm, rfl⟩)
                rcases Message.serializeField_inst spec f fl instCur piece inst1 hsf with
                  hi | ⟨_, _, v, hi⟩
                · rw [hi] at hlk2
                  exact hfits f2 fl2 v2 (by simp [hm]) hlk2
                · rw [hi, lookupA_setA_ne _ _ _ _ hne] at hlk2
                  exact hfits f2 fl2 v2 (by simp [hm]) hlk2
              have hstat' : ∀ f2 fl2 sv2, (f2, fl2) ∈ tl →
                  fl2.static = some sv2 → lookupA inst1 f2 = some sv2 := by
                intro f2 fl2 sv2 hm hs2
                have hne : f2 ≠ f := by
                  intro hh
                  subst hh
                  exact hfnot.1 (List.mem_map.mpr ⟨(f2, fl2), hm, rfl⟩)
                rcases Message.serializeField_inst spec f fl instCur piece inst1 hsf with
                  hi | ⟨_, _, v, hi⟩
                · rw [hi]
                  exact hstat f2 fl2 sv2 (by simp [hm]) hs2
                · rw [hi, lookupA_setA_ne _ _ _ _ hne]
                  exact hstat f2 fl2 sv2 (by simp [hm]) hs2
              have hframeF : ∀ g, g ∉ tl.map Prod.fst →
                  lookupA instF g = lookupA inst1 g := by
                intro g hg
                exact Message.serializeFields_frame spec tl inst1 stl instF hst g hg
              cases hcnd : fl.cond with
              | some c =>
                  have hstaticf : fl.static = none := by
                    cases hsx : fl.static with
                    | none => rfl
                    | some sv =>
                        have := (hstatcl (by simp [hsx])).1
                        rw [hcnd] at this
                        exact Option.noConfusion this
                  have hctarget := hcondcl c hcnd
                  obtain ⟨w, hkw, hiw⟩ := hagree (condRefName c) hctarget
                  have hkweq : lookupA kwargs (condRefName c)
                      = lookupA instCur (condRefName c) := by rw [hkw, hiw]
                  have hFeq : lookupA instF (condRefName c)
                      = lookupA instCur (condRefName c) := by
                    rw [hframeF _ (havnotl _ hctarget)]
                    rcases Message.serializeField_inst spec f fl instCur piece inst1 hsf with
                      hi | ⟨_, _, v, hi⟩
                    · rw [hi]
                    · rw [hi, lookupA_setA_ne _ _ _ _ ?hne]
                      case hne =>
                        intro hh
                        exact hfnot.2 (hh ▸ hctarget)
                  have hwftl' : fieldsWF spec tl avail := by
                    simpa [hcnd] using hwftl
                  cases hev : evalCond c instCur with
                  | error e =>
                      simp only [Message.serializeField, hcnd, hev, bind, Except.bind] at hsf
                      exact Except.noConfusion hsf
                  | ok b =>
                      have hevF : evalCond c instF = .ok b := by
                        rw [evalCond_stable c instF instCur hFeq, hev]
                      have hevk : evalCond c kwargs = .ok b := by
                        rw [evalCond_stable c kwargs instCur hkweq, hev]
                      cases b with
                      | false =>
                          rw [Message.serializeField_skip spec f fl instCur c hcnd hev]
                            at hsf
                          have hpe := Except.ok.inj hsf
                          obtain ⟨hp1, hp2⟩ : [] = piece ∧ instCur = inst1 := by
                            simpa using hpe
                          subst hp1
                          subst hp2
                          obtain ⟨kwF, hA, hB, hC, hD, hE⟩ := ih avail instCur kwargs stl
                            hwftl' hndtl hst hagree
                            (fun f2 fl2 v2 hm h2 => hfits f2 fl2 v2 (by simp [hm]) h2)
                            (fun f2 fl2 sv2 hm h2 => hstat f2 fl2 sv2 (by simp [hm]) h2)
                          have hdf := Message.deserializeField_skip spec f fl
                            (stl ++ rest) kwargs c hstaticf hcnd hevk
                          refine ⟨kwF, ?_, ?_, ?_, ?_, ?_⟩
                          · simp only [Message.deserializeFields, bind, Except.bind,
                              List.nil_append, hdf, List.drop_zero, hA, pure, Except.pure,
                              Nat.zero_add]
                          · intro g hg
                            simp only [List.map_cons, List.mem_cons] at hg
                            push_neg at hg
                            exact hB g hg.2
                          · intro f2 fl2 hm hc2
                            rcases List.mem_cons.mp hm with h1 | h1
                            · cases h1
                              rw [hcnd] at hc2
                              exact Option.noConfusion hc2
                            · exact hC f2 fl2 h1 hc2
                          · intro f2 fl2 c2 hm hc2 hevF2
                            rcases List.mem_cons.mp hm with h1 | h1
                            · cases h1
                              exact hB f hfnot.1
                            · exact hD f2 fl2 c2 h1 hc2 hevF2
                          · intro f2 fl2 c2 hm hc2 hevF2
                            rcases List.mem_cons.mp hm with h1 | h1
                            · cases h1
                              have hceq : c2 = c := Option.some.inj (hc2.symm.trans hcnd)
                              subst hceq
                              exact absurd (Except.ok.inj (hevF.symm.trans hevF2)) (by simp)
                            · exact hE f2 fl2 c2 h1 hc2 hevF2
                      | true =>
                          rw [Message.serializeField_take spec f fl instCur c hcnd hev]
                            at hsf
                          obtain ⟨v, hdecB, hinst1f, hframe1, _⟩ :=
                            Message.deserializeFieldBody_roundtrip spec f fl instCur kwargs
                              avail piece inst1 (stl ++ rest) hstaticf hencf hdelimf hwftf
                              (fun hs2 => ⟨(hsrccl hs2).1, (hsrccl hs2).2.1,
                                (hsrccl hs2).2.2.1⟩)
                              (fun g hg => hnlcl g hg) hsf hagree
                              (fun v2 hv2 => hfits f fl v2 (by simp) hv2)
                          have hagree' : ∀ g ∈ avail, ∃ w,
                              lookupA (setA kwargs f v) g = some w
                              ∧ lookupA inst1 g = some w := by
                            intro g hg
                            obtain ⟨w, h1, h2⟩ := hagree g hg
                            have hgf : g ≠ f := fun hh => hfnot.2 (hh ▸ hg)
                            refine ⟨w, ?_, ?_⟩
                            · rw [lookupA_setA_ne _ _ _ _ hgf]
                              exact h1
                            · rw [hframe1 g hgf]
                              exact h2
                          obtain ⟨kwF, hA, hB, hC, hD, hE⟩ := ih avail inst1
                            (setA kwargs f v) stl hwftl' hndtl hst hagree' hfits' hstat'
                          have hdf : Message.deserializeField spec f fl
                              (piece ++ (stl ++ rest)) kwargs
                              = .ok (setA kwargs f v, piece.length) := by
                            rw [Message.deserializeField_take spec f fl _ kwargs c
                              hstaticf hcnd hevk]
                            exact hdecB
                          refine ⟨kwF, ?_, ?_, ?_, ?_, ?_⟩
                          · simp only [Message.deserializeFields, bind, Except.bind,
                              List.append_assoc, hdf, List.drop_left, hA, pure,
                              Except.pure, List.length_append]
                          · intro g hg
                            simp only [List.map_cons, List.mem_cons] at hg
                            push_neg at hg
                            rw [hB g hg.2, lookupA_setA_ne _ _ _ _ hg.1]
                          · intro f2 fl2 hm hc2
                            rcases List.mem_cons.mp hm with h1 | h1
                            · cases h1
                              rw [hcnd] at hc2
                              exact Option.noConfusion hc2
                            · exact hC f2 fl2 h1 hc2
                          · intro f2 fl2 c2 hm hc2 hevF2
                            rcases List.mem_cons.mp hm with h1 | h1
                            · cases h1
                              have hceq : c2 = c := Option.some.inj (hc2.symm.trans hcnd)
                              subst hceq
                              exact absurd (Except.ok.inj (hevF.symm.trans hevF2))
                                (by simp)
                            · have hne : f2 ≠ f := fun hh =>
                                hfnot.1 (hh ▸ List.mem_map.mpr ⟨(f2, fl2), h1, rfl⟩)
                              rw [hD f2 fl2 c2 h1 hc2 hevF2,
                                lookupA_setA_ne _ _ _ _ hne]
                          · intro f2 fl2 c2 hm hc2 hevF2
                            rcases List.mem_cons.mp hm with h1 | h1
                            · cases h1
                              rw [hB f hfnot.1, lookupA_setA_self,
                                hframeF f hfnot.1, hinst1f]
                            · exact hE f2 fl2 c2 h1 hc2 hevF2
              | none =>
                  have hwftl' : fieldsWF spec tl (avail ++ [f]) := by
                    simpa [hcnd] using hwftl
                  have hnd' : (tl.map Prod.fst ++ (avail ++ [f])).Nodup :=
                    nodup_rotate hndflat
                  cases hstatx : fl.static with
                  | some sv =>
                      obtain ⟨hc0, hsrcf, hnlf, hdynf⟩ := hstatcl (by simp [hstatx])
                      have hfit : fieldValFits fl sv :=
                        hfits f fl sv (by simp) (hstat f fl sv (by simp) hstatx)
                      obtain ⟨hdec, hieq⟩ := Message.deserializeField_roundtrip_static
                        spec f fl instCur kwargs piece inst1 (stl ++ rest) sv hstatx hcnd
                        hencf hdelimf hnlf hdynf hsrcf hwftf hsf hfit
                      subst hieq
                      have hagree' : ∀ g ∈ avail ++ [f], ∃ w,
                          lookupA (setA kwargs f sv) g = some w
                          ∧ lookupA inst1 g = some w := by
                        intro g hg
                        rcases List.mem_append.mp hg with hg1 | hg1
                        · obtain ⟨w, h1, h2⟩ := hagree g hg1
                          have hgf : g ≠ f := fun hh => hfnot.2 (hh ▸ hg1)
                          refine ⟨w, ?_, h2⟩
                          rw [lookupA_setA_ne _ _ _ _ hgf]
                          exact h1
                        · have hgf : g = f := by simpa using hg1
                          subst hgf
                          exact ⟨sv, lookupA_setA_self _ _ _,
                            hstat g fl sv (by simp) hstatx⟩
                      obtain ⟨kwF, hA, hB, hC, hD, hE⟩ := ih (avail ++ [f]) inst1
                        (setA kwargs f sv) stl hwftl' hnd' hst hagree' hfits' hstat'
                      refine ⟨kwF, ?_, ?_, ?_, ?_, ?_⟩
                      · simp only [Message.deserializeFields, bind, Except.bind,
                          List.append_assoc, hdec, List.drop_left, hA, pure,
                          Except.pure, List.length_append]
                      · intro g hg
                        simp only [List.map_cons, List.mem_cons] at hg
                        push_neg at hg
                        rw [hB g hg.2, lookupA_setA_ne _ _ _ _ hg.1]
                      · intro f2 fl2 hm hc2
                        rcases List.mem_cons.mp hm with h1 | h1
                        · cases h1
                          rw [hB f hfnot.1, lookupA_setA_self, hframeF f hfnot.1,
                            hstat f fl sv (by simp) hstatx]
                        · exact hC f2 fl2 h1 hc2
                      · intro f2 fl2 c2 hm hc2 hevF2
                        rcases List.mem_cons.mp hm with h1 | h1
                        · cases h1
                          rw [hcnd] at hc2
                          exact Option.noConfusion hc2
                        · have hne : f2 ≠ f := fun hh =>
                            hfnot.1 (hh ▸ List.mem_map.mpr ⟨(f2, fl2), h1, rfl⟩)
                          rw [hD f2 fl2 c2 h1 hc2 hevF2, lookupA_setA_ne _ _ _ _ hne]
                      · intro f2 fl2 c2 hm hc2 hevF2
                        rcases List.mem_cons.mp hm with h1 | h1
                        · cases h1
                          rw [hcnd] at hc2
                          exact Option.noConfusion hc2
                        · exact hE f2 fl2 c2 h1 hc2 hevF2
                  | none =>
                      rw [Message.serializeField_nocond spec f fl instCur hcnd] at hsf
                      obtain ⟨v, hdecB, hinst1f, hframe1, _⟩ :=
                        Message.deserializeFieldBody_roundtrip spec f fl instCur kwargs
                          avail piece inst1 (stl ++ rest) hstatx hencf hdelimf hwftf
                          (fun hs2 => ⟨(hsrccl hs2).1, (hsrccl hs2).2.1,
                            (hsrccl hs2).2.2.1⟩)
                          (fun g hg => hnlcl g hg) hsf hagree
                          (fun v2 hv2 => hfits f fl v2 (by simp) hv2)
                      have hdf : Message.deserializeField spec f fl
                          (piece ++ (stl ++ rest)) kwargs
                          = .ok (setA kwargs f v, piece.length) := by
                        rw [Message.deserializeField_nocond spec f fl _ kwargs
                          hstatx hcnd]
                        exact hdecB
                      have hagree' : ∀ g ∈ avail ++ [f], ∃ w,
                          lookupA (setA kwargs f v) g = some w
                          ∧ lookupA inst1 g = some w := by
                        intro g hg
                        rcases List.mem_append.mp hg with hg1 | hg1
                        · obtain ⟨w, h1, h2⟩ := hagree g hg1
                          have hgf : g ≠ f := fun hh => hfnot.2 (hh ▸ hg1)
                          refine ⟨w, ?_, ?_⟩
                          · rw [lookupA_setA_ne _ _ _ _ hgf]
                            exact h1
                          · rw [hframe1 g hgf]
                            exact h2
                        · have hgf : g = f := by simpa using hg1
                          subst hgf
                          exact ⟨v, lookupA_setA_self _ _ _, hinst1f⟩
                      obtain ⟨kwF, hA, hB, hC, hD, hE⟩ := ih (avail ++ [f]) inst1
                        (setA kwargs f v) stl hwftl' hnd' hst hagree' hfits' hstat'
                      refine ⟨kwF, ?_, ?_, ?_, ?_, ?_⟩
                      · simp only [Message.deserializeFields, bind, Except.bind,
                          List.append_assoc, hdf, List.drop_left, hA, pure,
                          Except.pure, List.length_append]
                      · intro g hg
                        simp only [List.map_cons, List.mem_cons] at hg
                        push_neg at hg
                        rw [hB g hg.2, lookupA_setA_ne _ _ _ _ hg.1]
                      · intro f2 fl2 hm hc2
                        rcases List.mem_cons.mp hm with h1 | h1
                        · cases h1
                          rw [hB f hfnot.1, lookupA_setA_self, hframeF f hfnot.1,
                            hinst1f]
                        · exact hC f2 fl2 h1 hc2
                      · intro f2 fl2 c2 hm hc2 hevF2
                        rcases List.mem_cons.mp hm with h1 | h1
                        · cases h1
                          rw [hcnd] at hc2
                          exact Option.noConfusion hc2
                        · have hne : f2 ≠ f := fun hh =>
                            hfnot.1 (hh ▸ List.mem_map.mpr ⟨(f2, fl2), h1, rfl⟩)
                          rw [hD f2 fl2 c2 h1 hc2 hevF2, lookupA_setA_ne _ _ _ _ hne]
                      · intro f2 fl2 c2 hm hc2 hevF2
                        rcases List.mem_cons.mp hm with h1 | h1
                        · cases h1
                          rw [hcnd] at hc2
                          exact Option.noConfusion hc2
                        · exact hE f2 fl2 c2 h1 hc2 hevF2

/-! ### Re-serialization stability

Serializing a field from a second instance that stores the same relevant
values (the decoded instance, in the protocol's auto-field validation)
produces the same bytes and leaves the second instance unchanged. -/

theorem Message.serializeFieldBody_stable
    (spec : MClass) (f : String) (fl : MField) (instCur instB : Ctx)
    (piece : Bytes) (inst1 : Ctx)
    (hdelim : fl.delimiter = none)
    (hstatwf : fl.static.isSome → fl.numlist = none ∧ fl.dynamicArray = false)
    (hsrcwf : fl.source.isSome → fl.numlist = none ∧ fl.dynamicArray = false)
    (hser : Message.serializeFieldBody spec f fl instCur = .ok (piece, inst1))
    (hB0 : fl.static = none → fl.source = none → lookupA instB f = lookupA instCur f)
    (hBsrc : ∀ vs, fl.source = some vs →
      lookupA instB (vsrcName vs) = lookupA instCur (vsrcName vs))
    (hBset : fl.source.isSome → lookupA instB f = lookupA inst1 f)
    (hnlB : ∀ g, fl.numlist = some (.ref g) →
      lookupA instB g = lookupA instCur g) :
    Message.serializeFieldBody spec f fl instB = .ok (piece, instB) := by
  cases hstatx : fl.static with
  | some sv =>
      obtain ⟨hnl, hdyn⟩ := hstatwf (by simp [hstatx])
      simp only [Message.serializeFieldBody, hstatx, hnl, hdyn, hdelim,
        Bool.false_eq_true, if_false, bind, Except.bind, pure, Except.pure] at hser ⊢
      cases hsv : Message.serializeValue fl sv spec.encoding with
      | error e =>
          simp only [hsv] at hser
          exact Except.noConfusion hser
      | ok s1 =>
          simp only [hsv, Except.ok.injEq, Prod.mk.injEq] at hser ⊢
          exact ⟨hser.1, trivial⟩
  | none =>
      cases hsrcx : fl.source with
      | some vs =>
          obtain ⟨hnl, hdyn⟩ := hsrcwf (by simp [hsrcx])
          have hcv : Message.computeFieldValue spec instB fl
              = Message.computeFieldValue spec instCur fl :=
            Message.computeFieldValue_stable spec fl instB instCur vs hsrcx
              (hBsrc vs hsrcx)
          simp only [Message.serializeFieldBody, hstatx, hsrcx, hnl, hdyn, hdelim,
            Bool.false_eq_true, if_false, bind, Except.bind, pure, Except.pure, hcv]
            at hser ⊢
          cases hcc : Message.computeFieldValue spec instCur fl with
          | error e =>
              simp only [hcc] at hser
              exact Except.noConfusion hser
          | ok v =>
              simp only [hcc] at hser ⊢
              cases hsv : Message.serializeValue fl v spec.encoding with
              | error e =>
                  simp only [hsv] at hser
                  exact Except.noConfusion hser
              | ok s1 =>
                  simp only [hsv, Except.ok.injEq, Prod.mk.injEq] at hser ⊢
                  refine ⟨hser.1, ?_⟩
                  apply setA_of_lookupA_eq
                  rw [hBset (by simp [hsrcx]), ← hser.2, lookupA_setA_self]
      | none =>
          have hBf := hB0 hstatx hsrcx
          simp only [Message.serializeFieldBody, hstatx, hsrcx, bind, Except.bind,
            pure, Except.pure] at hser ⊢
          cases hlk : lookupA instCur f with
          | none =>
              simp only [hlk] at hser
              exact Except.noConfusion hser
          | some v0 =>
              simp only [hlk] at hser
              simp only [hBf, hlk]
              cases hnl : fl.numlist with
              | some np =>
                  simp only [hnl] at hser ⊢
                  cases np with
                  | lit n =>
                      simp only [pure, Except.pure] at hser ⊢
                      cases v0 <;>
                        try (simp only at hser ⊢; exact Except.noConfusion hser)
                      case vlist items =>
                      simp only at hser ⊢
                      by_cases hlen : (items.length : Int) = (n : Int)
                      · rw [if_pos hlen] at hser ⊢
                        cases hsi : Message.serializeItems fl items spec.encoding with
                        | error e =>
                            simp only [hsi] at hser
                            exact Except.noConfusion hser
                        | ok s1 =>
                            simp only [hsi, Except.ok.injEq, Prod.mk.injEq] at hser ⊢
                            exact ⟨hser.1, trivial⟩
                      · rw [if_neg hlen] at hser
                        exact Except.noConfusion hser
                  | ref g =>
                      have hg := hnlB g hnl
                      simp only [Message.resolveFieldReference, hg, pure, Except.pure]
                        at hser ⊢
                      cases hlg : lookupA instCur g with
                      | none =>
                          simp only [hlg] at hser ⊢
                          exact Except.noConfusion hser
                      | some w =>
                          simp only [hlg] at hser ⊢
                          cases w <;>
                            try (simp only at hser ⊢; exact Except.noConfusion hser)
                          case vint k =>
                          simp only at hser ⊢
                          cases v0 <;>
                            try (simp only at hser ⊢; exact Except.noConfusion hser)
                          case vlist items =>
                          simp only at hser ⊢
                          by_cases hlen : (items.length : Int) = k
                          · rw [if_pos hlen] at hser ⊢
                            cases hsi : Message.serializeItems fl items spec.encoding with
                            | error e =>
                                simp only [hsi] at hser
                                exact Except.noConfusion hser
                            | ok s1 =>
                                simp only [hsi, Except.ok.injEq, Prod.mk.injEq]
                                  at hser ⊢
                                exact ⟨hser.1, trivial⟩
                          · rw [if_neg hlen] at hser
                            exact Except.noConfusion hser
              | none =>
                  simp only [hnl] at hser ⊢
                  cases hdyn : fl.dynamicArray with
                  | true =>
                      simp only [hdyn, eq_self_iff_true, if_true] at hser ⊢
                      cases v0 <;>
                        try (simp only at hser ⊢; exact Except.noConfusion hser)
                      case vlist items =>
                      simp only at hser ⊢
                      by_cases hlt : items.length < 2 ^ 32
                      · rw [if_pos hlt] at hser ⊢
                        cases hsi : Message.serializeItems fl items spec.encoding with
                        | error e =>
                            simp only [hsi] at hser
                            exact Except.noConfusion hser
                        | ok body =>
                            simp only [hsi, pure, Except.pure, Except.ok.injEq,
                              Prod.mk.injEq] at hser ⊢
                            exact ⟨hser.1, trivial⟩
                      · rw [if_neg hlt] at hser
                        exact Except.noConfusion hser
                  | false =>
                      simp only [hdyn, Bool.false_eq_true, if_false, hdelim]
                        at hser ⊢
                      cases hsv : Message.serializeValue fl v0 spec.encoding with
                      | error e =>
                          simp only [hsv] at hser
                          exact Except.noConfusion hser
                      | ok s1 =>
                          simp only [hsv, Except.ok.injEq, Prod.mk.injEq] at hser ⊢
                          exact ⟨hser.1, trivial⟩

theorem fieldsWF_targetPlain (spec : MClass) (fs : List (String × MField))
    (avail : List String) (h : fieldsWF spec fs avail) :
    ∀ f fl vs, (f, fl) ∈ fs → fl.source = some vs → targetPlain spec (vsrcName vs) := by
  induction fs generalizing avail with
  | nil =>
      intro f fl vs hm
      simp at hm
  | cons hd tl ih =>
      obtain ⟨g, gl⟩ := hd
      obtain ⟨hcore, hwftl⟩ := h
      intro f fl vs hm hs
      rcases List.mem_cons.mp hm with h1 | h1
      · cases h1
        exact (hcore.2.2.2.2.2.2.2 (by simp [hs])).2.2.2 vs hs
      · exact ih _ hwftl f fl vs h1 hs

theorem Message.serializeFields_stable
    (spec : MClass) (fs : List (String × MField)) (avail : List String)
    (instCur instB : Ctx) (s : Bytes) (instF : Ctx)
    (hwf : fieldsWF spec fs avail)
    (hnd : ((fs.map Prod.fst) ++ avail).Nodup)
    (hndspec : (spec.fields.map Prod.fst).Nodup)
    (hmem : ∀ x ∈ fs, x ∈ spec.fields)
    (hser : Message.serializeFields spec fs instCur = .ok (s, instF))
    (h1 : ∀ g ∈ avail, lookupA instB g = lookupA instCur g)
    (h2 : ∀ f fl, (f, fl) ∈ fs → fl.source = none → fl.static = none →
        (∀ c, fl.cond = some c → evalCond c instF = .ok true) →
        lookupA instB f = lookupA instCur f)
    (h3 : ∀ f fl vs, (f, fl) ∈ fs → fl.source = some vs →
        lookupA instB (vsrcName vs) = lookupA instCur (vsrcName vs))
    (h4 : ∀ f fl, (f, fl) ∈ fs → fl.source.isSome = true →
        (∀ c, fl.cond = some c → evalCond c instF = .ok true) →
        lookupA instB f = lookupA instF f)
    (h5 : ∀ f fl sv, (f, fl) ∈ fs → fl.static = some sv → lookupA instB f = some sv)
    (hstat : ∀ f fl sv, (f, fl) ∈ fs → fl.static = some sv →
        lookupA instCur f = some sv) :
    Message.serializeFields spec fs instB = .ok (s, instB) := by
  induction fs generalizing avail instCur s with
  | nil =>
      simp only [Message.serializeFields, Except.ok.injEq, Prod.mk.injEq] at hser
      rw [← hser.1]
      simp [Message.serializeFields]
  | cons hd tl ih =>
      obtain ⟨f, fl⟩ := hd
      have hndflat : (f :: (tl.map Prod.fst ++ avail)).Nodup := by simpa using hnd
      have hfnot : f ∉ tl.map Prod.fst ∧ f ∉ avail := by
        have hx := (List.nodup_cons.mp hndflat).1
        simp only [List.mem_append] at hx
        push_neg at hx
        exact hx
      have hndtl : (tl.map Prod.fst ++ avail).Nodup := (List.nodup_cons.mp hndflat).2
      obtain ⟨hcore, hwftl⟩ := hwf
      obtain ⟨hencf, hdelimf, _hbitsf, hwftf, hstatcl, hcondcl, hnlcl, hsrccl⟩ := hcore
      simp only [Message.serializeFields, bind, Except.bind] at hser
      cases hsf : Message.serializeField spec f fl instCur with
      | error e =>
          simp only [hsf] at hser
          exact Except.noConfusion hser
      | ok r =>
          obtain ⟨piece, inst1⟩ := r
          simp only [hsf] at hser
          cases hst : Message.serializeFields spec tl inst1 with
          | error e =>
              simp only [hst] at hser
              exact Except.noConfusion hser
          | ok r2 =>
              obtain ⟨stl, iF⟩ := r2
              simp only [hst, pure, Except.pure, Except.ok.injEq, Prod.mk.injEq] at hser
              obtain ⟨hseq, hiF⟩ := hser
              subst iF
              subst hseq
              have hframeF : ∀ g, g ∉ tl.map Prod.fst →
                  lookupA instF g = lookupA inst1 g := fun g hg =>
                Message.serializeFields_frame spec tl inst1 stl instF hst g hg
              have hinstto : ∀ g, g ≠ f → lookupA inst1 g = lookupA instCur g := by
                intro g hg
                rcases Message.serializeField_inst spec f fl instCur piece inst1 hsf with
                  hi | ⟨_, _, v, hi⟩
                · rw [hi]
                · rw [hi, lookupA_setA_ne _ _ _ _ hg]
              have h2t : ∀ f2 fl2, (f2, fl2) ∈ tl → fl2.source = none →
                  fl2.static = none →
                  (∀ c, fl2.cond = some c → evalCond c instF = .ok true) →
                  lookupA instB f2 = lookupA inst1 f2 := by
                intro f2 fl2 hm hs2 hs3 hcondt
                have hne : f2 ≠ f := fun hh =>
                  hfnot.1 (hh ▸ List.mem_map.mpr ⟨(f2, fl2), hm, rfl⟩)
                rw [hinstto f2 hne]
                exact h2 f2 fl2 (by simp [hm]) hs2 hs3 hcondt
              have h3t : ∀ f2 fl2 vs, (f2, fl2) ∈ tl → fl2.source = some vs →
                  lookupA instB (vsrcName vs) = lookupA inst1 (vsrcName vs) := by
                intro f2 fl2 vs hm hs2
                rcases Message.serializeField_inst spec f fl instCur piece inst1 hsf with
                  hi | ⟨_, hsrcf, v, hi⟩
                · rw [hi]
                  exact h3 f2 fl2 vs (by simp [hm]) hs2
                · have hne : vsrcName vs ≠ f := by
                    intro hh
                    obtain ⟨gfl, hlkg, hgsrc, _⟩ :=
                      fieldsWF_targetPlain spec tl _ hwftl f2 fl2 vs hm hs2
                    rw [hh] at hlkg
                    have hfm := mem_lookupA_of_nodup spec.fields f fl hndspec
                      (hmem (f, fl) (by simp))
                    rw [hlkg] at hfm
                    cases hfm
                    rw [hgsrc] at hsrcf
                    simp at hsrcf
                  rw [hi, lookupA_setA_ne _ _ _ _ hne]
                  exact h3 f2 fl2 vs (by simp [hm]) hs2
              have hstatt : ∀ f2 fl2 sv2, (f2, fl2) ∈ tl → fl2.static = some sv2 →
                  lookupA inst1 f2 = some sv2 := by
                intro f2 fl2 sv2 hm hs2
                have hne : f2 ≠ f := fun hh =>
                  hfnot.1 (hh ▸ List.mem_map.mpr ⟨(f2, fl2), hm, rfl⟩)
                rw [hinstto f2 hne]
                exact hstat f2 fl2 sv2 (by simp [hm]) hs2
              cases hcnd : fl.cond with
              | some c =>
                  have hstaticf : fl.static = none := by
                    cases hsx : fl.static with
                    | none => rfl
                    | some sv =>
                        have hx := (hstatcl (by simp [hsx])).1
                        rw [hcnd] at hx
                        exact Option.noConfusion hx
                  have hctarget := hcondcl c hcnd
                  have hBeq : lookupA instB (condRefName c)
                      = lookupA instCur (condRefName c) := h1 _ hctarget
                  have hFeq : lookupA instF (condRefName c)
                      = lookupA instCur (condRefName c) := by
                    rw [hframeF _ (fun hh =>
                      (List.nodup_append.mp hndtl).2.2 hh hctarget)]
                    exact hinstto _ (fun hh => hfnot.2 (hh ▸ hctarget))
                  have hwftl' : fieldsWF spec tl avail := by
                    simpa [hcnd] using hwftl
                  cases hev : evalCond c instCur with
                  | error e =>
                      simp only [Message.serializeField, hcnd, hev, bind, Except.bind]
                        at hsf
                      exact Except.noConfusion hsf
                  | ok b =>
                      have hevB : evalCond c instB = .ok b := by
                        rw [evalCond_stable c instB instCur hBeq, hev]
                      have hevF : evalCond c instF = .ok b := by
                        rw [evalCond_stable c instF instCur hFeq, hev]
                      cases b with
                      | false =>
                          rw [Message.serializeField_skip spec f fl instCur c hcnd hev]
                            at hsf
                          obtain ⟨hp1, hp2⟩ : [] = piece ∧ instCur = inst1 := by
                            simpa using Except.ok.inj hsf
                          subst hp1
                          subst hp2
                          have hih := ih avail instCur stl hwftl' hndtl
                            (fun x hx => hmem x (by simp [hx])) hst h1
                            (fun f2 fl2 hm a b c2 => h2 f2 fl2 (by simp [hm]) a b c2)
                            (fun f2 fl2 vs hm a => h3 f2 fl2 vs (by simp [hm]) a)
                            (fun f2 fl2 hm a b => h4 f2 fl2 (by simp [hm]) a b)
                            (fun f2 fl2 sv2 hm a => h5 f2 fl2 sv2 (by simp [hm]) a)
                            (fun f2 fl2 sv2 hm a => hstat f2 fl2 sv2 (by simp [hm]) a)
                          have hsfB := Message.serializeField_skip spec f fl instB c
                            hcnd hevB
                          simp only [Message.serializeFields, bind, Except.bind, hsfB,
                            hih, pure, Except.pure, List.nil_append]
                      | true =>
                          rw [Message.serializeField_take spec f fl instCur c hcnd hev]
                            at hsf
                          have hguard : ∀ c2, fl.cond = some c2 →
                              evalCond c2 instF = .ok true := by
                            intro c2 hc2
                            have hceq : c2 = c := Option.some.inj (hc2.symm.trans hcnd)
                            subst hceq
                            exact hevF
                          have hbody := Message.serializeFieldBody_stable spec f fl
                            instCur instB piece inst1 hdelimf
                            (fun hx => ⟨(hstatcl hx).2.2.1, (hstatcl hx).2.2.2⟩)
                            (fun hx => ⟨(hsrccl hx).1, (hsrccl hx).2.1⟩)
                            hsf
                            (fun ha hb => h2 f fl (by simp) hb ha hguard)
                            (fun vs hvs => h3 f fl vs (by simp) hvs)
                            (fun hx => by
                              rw [h4 f fl (by simp) hx hguard, hframeF f hfnot.1])
                            (fun g hg => h1 g (hnlcl g hg))
                          have hsfB : Message.serializeField spec f fl instB
                              = .ok (piece, instB) := by
                            rw [Message.serializeField_take spec f fl instB c hcnd hevB]
                            exact hbody
                          have hagreeT : ∀ g ∈ avail,
                              lookupA instB g = lookupA inst1 g := by
                            intro g hg
                            rw [hinstto g (fun hh => hfnot.2 (hh ▸ hg))]
                            exact h1 g hg
                          have hih := ih avail inst1 stl hwftl' hndtl
                            (fun x hx => hmem x (by simp [hx])) hst hagreeT h2t h3t
                            (fun f2 fl2 hm a b => h4 f2 fl2 (by simp [hm]) a b)
                            (fun f2 fl2 sv2 hm a => h5 f2 fl2 sv2 (by simp [hm]) a)
                            hstatt
                          simp only [Message.serializeFields, bind, Except.bind, hsfB,
                            hih, pure, Except.pure]
              | none =>
                  have hwftl' : fieldsWF spec tl (avail ++ [f]) := by
                    simpa [hcnd] using hwftl
                  have hnd' : (tl.map Prod.fst ++ (avail ++ [f])).Nodup :=
                    nodup_rotate hndflat
                  rw [Message.serializeField_nocond spec f fl instCur hcnd] at hsf
                  have hguard : ∀ c2, fl.cond = some c2 →
                      evalCond c2 instF = .ok true := by
                    intro c2 hc2
                    rw [hcnd] at hc2
                    exact Option.noConfusion hc2
                  have hbody := Message.serializeFieldBody_stable spec f fl
                    instCur instB piece inst1 hdelimf
                    (fun hx => ⟨(hstatcl hx).2.2.1, (hstatcl hx).2.2.2⟩)
                    (fun hx => ⟨(hsrccl hx).1, (hsrccl hx).2.1⟩)
                    hsf
                    (fun ha hb => h2 f fl (by simp) hb ha hguard)
                    (fun vs hvs => h3 f fl vs (by simp) hvs)
                    (fun hx => by
                      rw [h4 f fl (by simp) hx hguard, hframeF f hfnot.1])
                    (fun g hg => h1 g (hnlcl g hg))
                  have hsfB : Message.serializeField spec f fl instB
                      = .ok (piece, instB) := by
                    rw [Message.serializeField_nocond spec f fl instB hcnd]
                    exact hbody
                  have hBf1 : lookupA instB f = lookupA inst1 f := by
                    cases hstatx : fl.static with
                    | some sv =>
                        rcases Message.serializeField_inst spec f fl instCur piece inst1
                          (by rw [Message.serializeField_nocond spec f fl instCur hcnd]
                              exact hsf) with hi | ⟨hco, _, v, hi⟩
                        · rw [hi, h5 f fl sv (by simp) hstatx,
                            hstat f fl sv (by simp) hstatx]
                        · rw [hstatx] at hco
                          exact Option.noConfusion hco
                    | none =>
                        cases hsrcx : fl.source with
                        | some vs =>
                            rw [h4 f fl (by simp) (by simp [hsrcx]) hguard,
                              hframeF f hfnot.1]
                        | none =>
                            rcases Message.serializeField_inst spec f fl instCur piece
                              inst1 (by
                                rw [Message.serializeField_nocond spec f fl instCur hcnd]
                                exact hsf) with hi | ⟨_, hsome, v, hi⟩
                            · rw [hi]
                              exact h2 f fl (by simp) hsrcx hstatx hguard
                            · rw [hsrcx] at hsome
                              simp at hsome
                  have hagreeT : ∀ g ∈ avail ++ [f],
                      lookupA instB g = lookupA inst1 g := by
                    intro g hg
                    rcases List.mem_append.mp hg with hg1 | hg1
                    · rw [hinstto g (fun hh => hfnot.2 (hh ▸ hg1))]
                      exact h1 g hg1
                    · have hgf : g = f := by simpa using hg1
                      subst hgf
                      exact hBf1
                  have hih := ih (avail ++ [f]) inst1 stl hwftl' hnd'
                    (fun x hx => hmem x (by simp [hx])) hst hagreeT h2t h3t
                    (fun f2 fl2 hm a b => h4 f2 fl2 (by simp [hm]) a b)
                    (fun f2 fl2 sv2 hm a => h5 f2 fl2 sv2 (by simp [hm]) a)
                    hstatt
                  simp only [Message.serializeFields, bind, Except.bind, hsfB, hih,
                    pure, Except.pure]

/-! ### Message-level round trip and re-serialization -/

theorem fieldsWF_core_of_mem (spec : MClass) (fs : List (String × MField))
    (avail : List String) (h : fieldsWF spec fs avail) :
    ∀ f fl, (f, fl) ∈ fs → ∃ av2, fieldWFcore spec av2 fl := by
  induction fs generalizing avail with
  | nil =>
      intro f fl hm
      simp at hm
  | cons hd tl ih =>
      obtain ⟨g, gl⟩ := hd
      obtain ⟨hcore, hwftl⟩ := h
      intro f fl hm
      rcases List.mem_cons.mp hm with h1 | h1
      · cases h1
        exact ⟨avail, hcore⟩
      · exact ih _ hwftl f fl h1

theorem Message.roundtrip_reserialize
    (spec : MClass) (m : Ctx) (s rest : Bytes) (instF : Ctx)
    (hcwf : classWF spec) (hfits : instFits spec m)
    (hser : Message.serializeBytes spec m = .ok (s, instF)) :
    ∃ kwF,
      Message.deserializeBytes spec (s ++ rest)
        = .ok (Message.mkInstance spec kwF, s.length)
      ∧ Message.serializeBytes spec (Message.mkInstance spec kwF)
          = .ok (s, Message.mkInstance spec kwF)
      ∧ (∀ f fl, (f, fl) ∈ spec.fields → fl.cond = none →
          lookupA (Message.mkInstance spec kwF) f = lookupA instF f)
      ∧ (∀ f fl c, (f, fl) ∈ spec.fields → fl.cond = some c →
          evalCond c instF = .ok false →
          lookupA (Message.mkInstance spec kwF) f = none)
      ∧ (∀ f fl c, (f, fl) ∈ spec.fields → fl.cond = some c →
          evalCond c instF = .ok true →
          lookupA (Message.mkInstance spec kwF) f = lookupA instF f) := by
  obtain ⟨hbw, hhbw, hndspec, hwfF⟩ := hcwf
  have hserF : Message.serializeFields spec spec.fields m = .ok (s, instF) := by
    rw [← hser]
    simp [Message.serializeBytes, hbw, hhbw]
  obtain ⟨kwF, hA, hB, hC, hD, hE⟩ := Message.deserializeFields_roundtrip_fold
    spec spec.fields [] m [] s instF rest hwfF (by simpa using hndspec) hserF
    (by simp)
    (fun f fl v hm hv => hfits.2 f fl v hm hv)
    (fun f fl sv hm hs2 => hfits.1 f fl sv hm hs2)
  have hcore := fieldsWF_core_of_mem spec spec.fields [] hwfF
  have hplainframe : ∀ f fl, (f, fl) ∈ spec.fields → fl.source = none →
      lookupA instF f = lookupA m f := by
    intro f fl hm hs2
    apply Message.serializeFields_frame_plain spec spec.fields m s instF hserF f
    intro gfl hmg
    rw [nodup_bindings_eq spec.fields f gfl fl hndspec hmg hm]
    exact hs2
  have hmk : ∀ f fl, (f, fl) ∈ spec.fields →
      lookupA (Message.mkInstance spec kwF) f
        = match fl.static with
          | some sv => some sv
          | none => lookupA kwF f :=
    fun f fl hm => lookupA_mkFields spec.fields kwF f fl hndspec hm
  have hCm : ∀ f fl, (f, fl) ∈ spec.fields → fl.cond = none →
      lookupA (Message.mkInstance spec kwF) f = lookupA instF f := by
    intro f fl hm hc
    rw [hmk f fl hm]
    cases hstatx : fl.static with
    | some sv =>
        obtain ⟨av2, hc2⟩ := hcore f fl hm
        have hsrc0 : fl.source = none := (hc2.2.2.2.2.1 (by simp [hstatx])).2.1
        rw [hplainframe f fl hm hsrc0, hfits.1 f fl sv hm hstatx]
    | none => exact hC f fl hm hc
  have hDm : ∀ f fl c, (f, fl) ∈ spec.fields → fl.cond = some c →
      evalCond c instF = .ok false →
      lookupA (Message.mkInstance spec kwF) f = none := by
    intro f fl c hm hc hev
    obtain ⟨av2, hc2⟩ := hcore f fl hm
    have hstatx : fl.static = none := by
      cases hsx : fl.static with
      | none => rfl
      | some sv =>
          have hx := (hc2.2.2.2.2.1 (by simp [hsx])).1
          rw [hc] at hx
          exact Option.noConfusion hx
    rw [hmk f fl hm]
    simp only [hstatx]
    rw [hD f fl c hm hc hev]
    rfl
  have hEm : ∀ f fl c, (f, fl) ∈ spec.fields → fl.cond = some c →
      evalCond c instF = .ok true →
      lookupA (Message.mkInstance spec kwF) f = lookupA instF f := by
    intro f fl c hm hc hev
    obtain ⟨av2, hc2⟩ := hcore f fl hm
    have hstatx : fl.static = none := by
      cases hsx : fl.static with
      | none => rfl
      | some sv =>
          have hx := (hc2.2.2.2.2.1 (by simp [hsx])).1
          rw [hc] at hx
          exact Option.noConfusion hx
    rw [hmk f fl hm]
    simp only [hstatx]
    exact hE f fl c hm hc hev
  have hstable : Message.serializeFields spec spec.fields
      (Message.mkInstance spec kwF) = .ok (s, Message.mkInstance spec kwF) := by
    apply Message.serializeFields_stable spec spec.fields [] m
      (Message.mkInstance spec kwF) s instF hwfF (by simpa using hndspec) hndspec
      (fun x hx => hx) hserF (by simp)
    · intro f fl hm hsrc0 hstat0 hguard
      rw [← hplainframe f fl hm hsrc0]
      cases hcx : fl.cond with
      | none => exact hCm f fl hm hcx
      | some c => exact hEm f fl c hm hcx (hguard c hcx)
    · intro f fl vs hm hsrc0
      obtain ⟨gfl, hlkg, hgsrc, hgcond⟩ :=
        fieldsWF_targetPlain spec spec.fields [] hwfF f fl vs hm hsrc0
      have hgm := lookupA_mem spec.fields (vsrcName vs) gfl hlkg
      rw [← hplainframe _ gfl hgm hgsrc]
      exact hCm _ gfl hgm hgcond
    · intro f fl hm hsrc0 hguard
      cases hcx : fl.cond with
      | none => exact hCm f fl hm hcx
      | some c => exact hEm f fl c hm hcx (hguard c hcx)
    · intro f fl sv hm hstat0
      rw [hmk f fl hm]
      simp [hstat0]
    · intro f fl sv hm hstat0
      exact hfits.1 f fl sv hm hstat0
  refine ⟨kwF, ?_, ?_, hCm, hDm, hEm⟩
  · simp only [Message.deserializeBytes, hbw, hhbw, Bool.false_eq_true, Bool.or_self,
      if_false, bind, Except.bind, hA, pure, Except.pure, Message.mkInstance]
  · simp only [Message.serializeBytes, hbw, hhbw, Bool.false_eq_true, Bool.or_self,
      if_false]
    exact hstable

/-! ### Automatic header/footer fields: size, decode round trip, validation -/

/-- Byte size of one automatic field (as `_calculate_auto_fields_size`
computes it). -/
def afSize (af : AutoField) : Nat :=
  match af.ftype with
  | .uintT bits => bits / 8
  | .intT bits => bits / 8
  | .boolT => 1

/-- The modelled auto-field types have a positive byte size. -/
def autoFieldSized (af : AutoField) : Prop := 0 < afSize af

theorem calculateAutoFieldsSize_cons (f : String) (af : AutoField)
    (rest : List (String × AutoField)) :
    Protocol.calculateAutoFieldsSize ((f, af) :: rest)
      = afSize af + Protocol.calculateAutoFieldsSize rest := by
  cases hft : af.ftype <;> simp [Protocol.calculateAutoFieldsSize, afSize, hft]

theorem AutoField.toMField_serializeValue (af : AutoField) (v : Value) (bo : Byteorder) :
    Message.serializeValue af.toMField v bo
      = serializeScalar (match af.ftype with
          | .uintT bits => .uintT bits
          | .intT bits => .intT bits
          | .boolT => .boolT) v bo := by
  simp [Message.serializeValue, AutoField.toMField]

theorem serializeAutoFieldValue_length (af : AutoField) (v : Value) (bo : Byteorder)
    (s1 : Bytes) (h : Message.serializeValue af.toMField v bo = .ok s1) :
    s1.length = afSize af := by
  rw [AutoField.toMField_serializeValue] at h
  cases hft : af.ftype <;> rw [hft] at h <;>
    cases v <;> simp only [serializeScalar] at h <;> try exact Except.noConfusion h
  case uintT.vint bits n =>
    split at h
    case isFalse => exact Except.noConfusion h
    case isTrue =>
      simp only [Except.ok.injEq] at h
      subst h
      simp [afSize, hft, natToBytes_length]
  case intT.vint bits n =>
    split at h
    case isFalse => exact Except.noConfusion h
    case isTrue =>
      simp only [Except.ok.injEq] at h
      subst h
      simp [afSize, hft, intToBytes_length]
  case boolT.vbool b =>
    simp only [Except.ok.injEq] at h
    subst h
    simp [afSize, hft]

theorem Protocol.serializeAutoFields_length (fields : List (String × AutoField))
    (spec : MClass) (message : Ctx) (messageBytes : Bytes) (bs : Bytes)
    (h : Protocol.serializeAutoFields fields spec message messageBytes = .ok bs) :
    bs.length = Protocol.calculateAutoFieldsSize fields := by
  induction fields generalizing bs with
  | nil =>
      simp only [Protocol.serializeAutoFields, Except.ok.injEq] at h
      subst h
      rfl
  | cons hd tl ih =>
      obtain ⟨f, af⟩ := hd
      simp only [Protocol.serializeAutoFields, bind, Except.bind] at h
      cases hcv : Protocol.computeAutoFieldValue spec message messageBytes af with
      | error e =>
          simp only [hcv] at h
          exact Except.noConfusion h
      | ok v =>
          simp only [hcv] at h
          cases hsv : Message.serializeValue af.toMField v spec.encoding with
          | error e =>
              simp only [hsv] at h
              exact Except.noConfusion h
          | ok s1 =>
              simp only [hsv] at h
              cases hrest : Protocol.serializeAutoFields tl spec message messageBytes with
              | error e =>
                  simp only [hrest] at h
                  exact Except.noConfusion h
              | ok t =>
                  simp only [hrest, pure, Except.pure, Except.ok.injEq] at h
                  subst h
                  rw [calculateAutoFieldsSize_cons, List.length_append, ih t hrest,
                    serializeAutoFieldValue_length af v spec.encoding s1 hsv]

theorem Protocol.deserializeAutoFieldValue_roundtrip (af : AutoField) (v : Value)
    (bo : Byteorder) (s1 t : Bytes) (hsz : autoFieldSized af)
    (hsv : Message.serializeValue af.toMField v bo = .ok s1) :
    Protocol.deserializeAutoFieldValue af (s1 ++ t) bo = .ok (v, s1.length) := by
  rw [AutoField.toMField_serializeValue] at hsv
  cases hft : af.ftype <;> rw [hft] at hsv <;>
    cases v <;> simp only [serializeScalar] at hsv <;> try exact Except.noConfusion hsv
  case uintT.vint bits n =>
    split at hsv
    case isFalse => exact Except.noConfusion hsv
    case isTrue hr =>
      obtain ⟨hlo, hhi⟩ := hr
      simp only [Except.ok.injEq] at hsv
      subst hsv
      have hlen : (natToBytes (bits / 8) bo n.toNat).length = bits / 8 :=
        natToBytes_length _ _ _
      have hkn : n.toNat < 256 ^ (bits / 8) := by
        have := @Int.toNat_lt' n (256 ^ (bits / 8)) (by positivity)
        omega
      simp only [Protocol.deserializeAutoFieldValue, hft]
      rw [List.take_append_of_le_length (by omega), List.take_of_length_le (by omega)]
      rw [natFromBytes_natToBytes _ _ _ hkn]
      simp [Int.toNat_of_nonneg hlo, hlen]
  case intT.vint bits n =>
    split at hsv
    case isFalse => exact Except.noConfusion hsv
    case isTrue hr =>
      obtain ⟨hlo, hhi⟩ := hr
      simp only [Except.ok.injEq] at hsv
      subst hsv
      have hlen : (intToBytes (bits / 8) bo n).length = bits / 8 :=
        intToBytes_length _ _ _
      have hpos : 0 < bits / 8 := by
        simpa [autoFieldSized, afSize, hft] using hsz
      simp only [Protocol.deserializeAutoFieldValue, hft]
      rw [List.take_append_of_le_length (by omega), List.take_of_length_le (by omega)]
      rw [intFromBytes_intToBytes (bits / 8) bo n hpos hlo hhi]
      simp [hlen]
  case boolT.vbool b =>
    simp only [Except.ok.injEq] at hsv
    subst hsv
    cases b <;> simp [Protocol.deserializeAutoFieldValue, hft]

theorem Protocol.validateAutoFieldsLoop_roundtrip (spec : MClass) (message : Ctx)
    (messageBytes : Bytes) (fields : List (String × AutoField)) (wire : Bytes)
    (hwf : ∀ x ∈ fields, autoFieldSized x.2)
    (hser : Protocol.serializeAutoFields fields spec message messageBytes = .ok wire) :
    Protocol.validateAutoFieldsLoop spec message messageBytes spec.encoding fields wire
      = .ok () := by
  induction fields generalizing wire with
  | nil => rfl
  | cons hd tl ih =>
      obtain ⟨f, af⟩ := hd
      simp only [Protocol.serializeAutoFields, bind, Except.bind] at hser
      cases hcv : Protocol.computeAutoFieldValue spec message messageBytes af with
      | error e =>
          simp only [hcv] at hser
          exact Except.noConfusion hser
      | ok v =>
          simp only [hcv] at hser
          cases hsv : Message.serializeValue af.toMField v spec.encoding with
          | error e =>
              simp only [hsv] at hser
              exact Except.noConfusion hser
          | ok s1 =>
              simp only [hsv] at hser
              cases hrest : Protocol.serializeAutoFields tl spec message messageBytes with
              | error e =>
                  simp only [hrest] at hser
                  exact Except.noConfusion hser
              | ok t =>
                  simp only [hrest, pure, Except.pure, Except.ok.injEq] at hser
                  subst hser
                  have hdv := Protocol.deserializeAutoFieldValue_roundtrip af v
                    spec.encoding s1 t (hwf (f, af) (by simp)) hsv
                  have hih := ih t (fun x hx => hwf x (by simp [hx])) hrest
                  cases hsrcx : af.source with
                  | some vs =>
                      simp only [Protocol.validateAutoFieldsLoop, bind, Except.bind,
                        hdv, hsrcx, Option.isSome_some, if_true, hcv,
                        Value.beq_refl, List.drop_left, hih, pure, Except.pure]
                  | none =>
                      cases hstatx : af.static with
                      | some sv =>
                          have hveq : v = sv := by
                            have : Protocol.computeAutoFieldValue spec message
                                messageBytes af = .ok sv := by
                              simp [Protocol.computeAutoFieldValue, hstatx]
                            rw [this] at hcv
                            exact (Except.ok.inj hcv).symm
                          subst hveq
                          simp only [Protocol.validateAutoFieldsLoop, bind, Except.bind,
                            hdv, hsrcx, Option.isSome_none, Bool.false_eq_true, if_false,
                            hstatx, Value.beq_refl, if_true, List.drop_left, hih]
                      | none =>
                          simp only [Protocol.computeAutoFieldValue, hstatx, hsrcx]
                            at hcv
                          exact Except.noConfusion hcv

/-! ### Auto-field compute congruence and the protocol universe -/

theorem Protocol.computeAutoFieldValue_congr (spec : MClass) (mA mB : Ctx)
    (messageBytes : Bytes) (af : AutoField)
    (h : ∀ vs, af.source = some vs →
      (match vs with
        | .sizeOf g => ¬(g = "body" ∨ g = "message" ∨ g = "payload")
        | _ => True) →
      lookupA mA (vsrcName vs) = lookupA mB (vsrcName vs)) :
    Protocol.computeAutoFieldValue spec mA messageBytes af
      = Protocol.computeAutoFieldValue spec mB messageBytes af := by
  cases hstatx : af.static with
  | some sv => simp [Protocol.computeAutoFieldValue, hstatx]
  | none =>
      cases hsrcx : af.source with
      | none => simp [Protocol.computeAutoFieldValue, hstatx, hsrcx]
      | some vs =>
          cases vs with
          | lengthOf g =>
              have heq := h _ hsrcx trivial
              simp only [vsrcName] at heq
              simp [Protocol.computeAutoFieldValue, hstatx, hsrcx,
                Protocol.resolveAutoFieldReference, heq]
          | sizeOf g =>
              by_cases hg : g = "body" ∨ g = "message" ∨ g = "payload"
              · simp [Protocol.computeAutoFieldValue, hstatx, hsrcx, hg]
              · have heq := h _ hsrcx hg
                simp only [vsrcName] at heq
                simp [Protocol.computeAutoFieldValue, hstatx, hsrcx, hg,
                  Protocol.resolveAutoFieldReference, heq]
          | valueFrom g =>
              have heq := h _ hsrcx trivial
              simp only [vsrcName] at heq
              simp [Protocol.computeAutoFieldValue, hstatx, hsrcx,
                Protocol.resolveAutoFieldReference, heq]

theorem Protocol.serializeAutoFields_congr (fields : List (String × AutoField))
    (spec : MClass) (mA mB : Ctx) (messageBytes : Bytes)
    (h : ∀ f af vs, (f, af) ∈ fields → af.source = some vs →
      (match vs with
        | .sizeOf g => ¬(g = "body" ∨ g = "message" ∨ g = "payload")
        | _ => True) →
      lookupA mA (vsrcName vs) = lookupA mB (vsrcName vs)) :
    Protocol.serializeAutoFields fields spec mA messageBytes
      = Protocol.serializeAutoFields fields spec mB messageBytes := by
  induction fields with
  | nil => rfl
  | cons hd tl ih =>
      obtain ⟨f, af⟩ := hd
      have hcv := Protocol.computeAutoFieldValue_congr spec mA mB messageBytes af
        (fun vs hvs hread => h f af vs (by simp) hvs hread)
      simp only [Protocol.serializeAutoFields, hcv,
        ih (fun f2 af2 vs hm hvs hread => h f2 af2 vs (by simp [hm]) hvs hread)]

/-- The protocol universe for the round-trip theorem: sized auto fields whose
computed sources point at plain unconditional message fields (or the reserved
whole-body names). -/
def autoFieldWF (spec : MClass) (af : AutoField) : Prop :=
  autoFieldSized af
  ∧ (∀ vs, af.source = some vs →
      (match vs with
        | .sizeOf g => ¬(g = "body" ∨ g = "message" ∨ g = "payload")
        | _ => True) →
      targetPlain spec (vsrcName vs))

def protoWF (p : Protocol) (spec : MClass) : Prop :=
  (∀ x ∈ p.headers, autoFieldWF spec x.2) ∧ (∀ x ∈ p.footers, autoFieldWF spec x.2)

/-! ### The protocol-level round trip -/

theorem Protocol.decode_encode_roundtrip
    (p : Protocol) (spec : MClass) (m : Ctx) (bufs : Buffers) (sid : String)
    (wire : Bytes) (mF : Ctx)
    (hcwf : classWF spec) (hpwf : protoWF p spec) (hfits : instFits spec m)
    (hreg : lookupA p.registry spec.name = some spec)
    (hbuf : bufs sid = none)
    (henc : Protocol.encode p spec m = .ok (wire, mF)) :
    ∃ m2, Protocol.decode p bufs wire sid = (bufs, some (.msg spec m2 []))
      ∧ (∀ f fl, (f, fl) ∈ spec.fields → fl.cond = none →
          lookupA m2 f = lookupA mF f)
      ∧ (∀ f fl c, (f, fl) ∈ spec.fields → fl.cond = some c →
          evalCond c mF = .ok false → lookupA m2 f = none)
      ∧ (∀ f fl c, (f, fl) ∈ spec.fields → fl.cond = some c →
          evalCond c mF = .ok true → lookupA m2 f = lookupA mF f) := by
  simp only [Protocol.encode, hreg, Option.isNone_some, Bool.false_eq_true, if_false]
    at henc
  cases hval : Message.validate spec m with
  | false =>
      rw [hval] at henc
      simp at henc
  | true =>
      rw [hval] at henc
      simp only [Bool.not_true, Bool.false_eq_true, if_false] at henc
      by_cases hn16 : spec.name.length < 2 ^ 16
      swap
      · rw [if_neg hn16] at henc
        exact Except.noConfusion henc
      rw [if_pos hn16] at henc
      simp only [bind, Except.bind] at henc
      cases hserB : Message.serializeBytes spec m with
      | error e =>
          simp only [hserB] at henc
          exact Except.noConfusion henc
      | ok r =>
          obtain ⟨body, instF⟩ := r
          simp only [hserB] at henc
          cases hhdr : Protocol.serializeAutoFields p.headers spec instF body with
          | error e =>
              simp only [hhdr] at henc
              exact Except.noConfusion henc
          | ok hdr =>
              simp only [hhdr] at henc
              cases hftr : Protocol.serializeAutoFields p.footers spec instF body with
              | error e =>
                  simp only [hftr] at henc
                  exact Except.noConfusion henc
              | ok ftr =>
                  simp only [hftr, pure, Except.pure, Except.ok.injEq,
                    Prod.mk.injEq] at henc
                  obtain ⟨hw, hmF⟩ := henc
                  subst mF
                  subst hw
                  obtain ⟨kwF, hDec, hRes, hCm, hDm, hEm⟩ :=
                    Message.roundtrip_reserialize spec m body ftr instF hcwf hfits hserB
                  set m2 := Message.mkInstance spec kwF with hm2
                  have hlkeq : ∀ (f : String) (af : AutoField) (vs : VSource),
                      af.source = some vs →
                      autoFieldWF spec af →
                      (match vs with
                        | .sizeOf g => ¬(g = "body" ∨ g = "message" ∨ g = "payload")
                        | _ => True) →
                      lookupA instF (vsrcName vs) = lookupA m2 (vsrcName vs) := by
                    intro f af vs hvs hafwf hread
                    obtain ⟨gfl, hlkg, hgsrc, hgcond⟩ := hafwf.2 vs hvs hread
                    exact (hCm _ gfl (lookupA_mem spec.fields _ gfl hlkg) hgcond).symm
                  have hhdr2 : Protocol.serializeAutoFields p.headers spec m2 body
                      = .ok hdr := by
                    rw [← Protocol.serializeAutoFields_congr p.headers spec instF m2 body
                      (fun f af vs hm hvs hread =>
                        hlkeq f af vs hvs (hpwf.1 (f, af) hm) hread)]
                    exact hhdr
                  have hftr2 : Protocol.serializeAutoFields p.footers spec m2 body
                      = .ok ftr := by
                    rw [← Protocol.serializeAutoFields_congr p.footers spec instF m2 body
                      (fun f af vs hm hvs hread =>
                        hlkeq f af vs hvs (hpwf.2 (f, af) hm) hread)]
                    exact hftr
                  have hhdrlen : hdr.length = Protocol.calculateAutoFieldsSize p.headers :=
                    Protocol.serializeAutoFields_length p.headers spec instF body hdr hhdr
                  have hftrlen : ftr.length = Protocol.calculateAutoFieldsSize p.footers :=
                    Protocol.serializeAutoFields_length p.footers spec instF body ftr hftr
                  have hTlen : (natToBytes 2 .big spec.name.length).length = 2 :=
                    natToBytes_length 2 .big spec.name.length
                  have hvalH : (if 0 < Protocol.calculateAutoFieldsSize p.headers then
                      Protocol.validateAutoFields p.headers hdr spec m2
                      else .ok ()) = .ok () := by
                    by_cases h0 : 0 < Protocol.calculateAutoFieldsSize p.headers
                    · rw [if_pos h0]
                      simp only [Protocol.validateAutoFields, bind, Except.bind, hRes]
                      exact Protocol.validateAutoFieldsLoop_roundtrip spec m2 body
                        p.headers hdr (fun x hx => (hpwf.1 x hx).1) hhdr2
                    · rw [if_neg h0]
                  have hvalF : (if 0 < Protocol.calculateAutoFieldsSize p.footers then
                      Protocol.validateAutoFields p.footers ftr spec m2
                      else .ok ()) = .ok () := by
                    by_cases h0 : 0 < Protocol.calculateAutoFieldsSize p.footers
                    · rw [if_pos h0]
                      simp only [Protocol.validateAutoFields, bind, Except.bind, hRes]
                      exact Protocol.validateAutoFieldsLoop_roundtrip spec m2 body
                        p.footers ftr (fun x hx => (hpwf.2 x hx).1) hftr2
                    · rw [if_neg h0]
                  refine ⟨m2, ?_, hCm, hDm, hEm⟩
                  have hname256 : spec.name.length < 256 ^ 2 := by
                    have h216 : (256 : Nat) ^ 2 = 2 ^ 16 := by norm_num
                    rw [h216]
                    exact hn16
                  have htake2 : (natToBytes 2 .big spec.name.length
                      ++ (spec.name ++ (hdr ++ (body ++ ftr)))).take 2
                      = natToBytes 2 .big spec.name.length :=
                    List.take_left' hTlen
                  have hdrop2 : (natToBytes 2 .big spec.name.length
                      ++ (spec.name ++ (hdr ++ (body ++ ftr)))).drop 2
                      = spec.name ++ (hdr ++ (body ++ ftr)) :=
                    List.drop_left' hTlen
                  have hmdata : (natToBytes 2 .big spec.name.length
                      ++ (spec.name ++ (hdr ++ (body ++ ftr)))).drop
                      (2 + spec.name.length)
                      = hdr ++ (body ++ ftr) := by
                    rw [← List.append_assoc]
                    exact List.drop_left' (by simp [hTlen])
                  have hmt : (spec.name ++ (hdr ++ (body ++ ftr))).take
                      (List.length spec.name) = spec.name := List.take_left' rfl
                  have hc1 : ¬(List.length (natToBytes 2 .big spec.name.length
                      ++ (spec.name ++ (hdr ++ (body ++ ftr)))) < 2) := by
                    simp only [List.length_append, hTlen]
                    omega
                  have hc2 : ¬(List.length (natToBytes 2 .big spec.name.length
                      ++ (spec.name ++ (hdr ++ (body ++ ftr))))
                      < 2 + List.length spec.name) := by
                    simp only [List.length_append, hTlen]
                    omega
                  have hc3 : ¬(List.length (hdr ++ (body ++ ftr))
                      < Protocol.calculateAutoFieldsSize p.headers) := by
                    simp only [List.length_append, hhdrlen]
                    omega
                  have hc4 : ¬(List.length (hdr ++ (body ++ ftr))
                      < Protocol.calculateAutoFieldsSize p.headers + List.length body
                        + Protocol.calculateAutoFieldsSize p.footers) := by
                    simp only [List.length_append, hhdrlen, hftrlen]
                    omega
                  have hdropbody : (hdr ++ (body ++ ftr)).drop
                      (Protocol.calculateAutoFieldsSize p.headers) = body ++ ftr := by
                    rw [← hhdrlen]
                    exact List.drop_left hdr (body ++ ftr)
                  have htakehdr : (hdr ++ (body ++ ftr)).take
                      (Protocol.calculateAutoFieldsSize p.headers) = hdr := by
                    rw [← hhdrlen]
                    exact List.take_left hdr (body ++ ftr)
                  have htakeftr : ((hdr ++ (body ++ ftr)).drop
                      (Protocol.calculateAutoFieldsSize p.headers + List.length body)).take
                      (Protocol.calculateAutoFieldsSize p.footers) = ftr := by
                    rw [← hhdrlen, ← hftrlen,
                      show hdr ++ (body ++ ftr) = (hdr ++ body) ++ ftr from
                        (List.append_assoc hdr body ftr).symm,
                      List.drop_left' (by simp), List.take_length]
                  have hdroptotal : (natToBytes 2 .big spec.name.length
                      ++ (spec.name ++ (hdr ++ (body ++ ftr)))).drop
                      (2 + spec.name.length + Protocol.calculateAutoFieldsSize p.headers
                        + List.length body + Protocol.calculateAutoFieldsSize p.footers)
                      = [] := by
                    apply List.drop_of_length_le
                    simp only [List.length_append, hTlen, hhdrlen, hftrlen]
                    omega
                  simp only [Protocol.decode, hbuf]
                  simp only [List.append_assoc]
                  simp only [htake2,
                    natFromBytes_natToBytes 2 .big spec.name.length hname256, hc1, hc2,
                    hdrop2, hmt, hreg, hmdata, hc3, hdropbody, hDec, hc4, htakehdr,
                    htakeftr, hvalH, hvalF, hdroptotal, if_false]

/-! ### Truncated input: the field loop fails on a strict prefix -/

theorem Message.deserializeFieldBody_prefix
    (spec : MClass) (f : String) (fl : MField) (instCur kwargs : Ctx)
    (avail : List String) (piece : Bytes) (inst1 : Ctx) (m : Nat)
    (hstatic : fl.static = none)
    (henc : fl.encoder = none) (hdelim : fl.delimiter = none)
    (hwft : ftypeWF fl.ftype)
    (hsrcwf : fl.source.isSome →
      fl.numlist = none ∧ fl.dynamicArray = false ∧ ftypeScalar fl.ftype)
    (hnlref : ∀ g, fl.numlist = some (.ref g) → g ∈ avail)
    (hser : Message.serializeFieldBody spec f fl instCur = .ok (piece, inst1))
    (hagree : ∀ g ∈ avail, ∃ w, lookupA kwargs g = some w ∧ lookupA instCur g = some w)
    (hfits : ∀ v, lookupA instCur f = some v → fieldValFits fl v)
    (hm : m < piece.length) :
    ∃ e, Message.deserializeFieldBody spec f fl (piece.take m) kwargs = .error e := by
  cases hsrc : fl.source with
  | some vs =>
      obtain ⟨hnl, hdyn, hscal⟩ := hsrcwf (by simp [hsrc])
      simp only [Message.serializeFieldBody, hstatic, hsrc, hnl, hdyn, hdelim,
        Bool.false_eq_true, if_false, bind, Except.bind, pure, Except.pure] at hser
      cases hcv : Message.computeFieldValue spec instCur fl with
      | error e =>
          simp only [hcv] at hser
          exact Except.noConfusion hser
      | ok v =>
          simp only [hcv] at hser
          cases hsv : Message.serializeValue fl v spec.encoding with
          | error e =>
              simp only [hsv] at hser
              exact Except.noConfusion hser
          | ok s1 =>
              simp only [hsv, Except.ok.injEq, Prod.mk.injEq] at hser
              obtain ⟨hp, hi⟩ := hser
              subst hp
              have hfv : valFits fl.ftype v := by
                cases hft : fl.ftype with
                | scalar t => simp [valFits]
                | comp p =>
                    rw [hft] at hscal
                    exact absurd hscal (by simp [ftypeScalar])
                | bitT =>
                    rw [hft] at hscal
                    exact absurd hscal (by simp [ftypeScalar])
              obtain ⟨e, he⟩ := Message.deserializeValue_prefix fl v spec.encoding s1
                henc hwft hfv hsv m hm
              refine ⟨e, ?_⟩
              simp only [Message.deserializeFieldBody, hnl, hdyn, Bool.false_eq_true,
                if_false, hdelim, bind, Except.bind, he]
  | none =>
      simp only [Message.serializeFieldBody, hstatic, hsrc, bind, Except.bind,
        pure, Except.pure] at hser
      cases hlk : lookupA instCur f with
      | none =>
          simp only [hlk] at hser
          exact Except.noConfusion hser
      | some v0 =>
          simp only [hlk] at hser
          have hfit0 := hfits v0 hlk
          cases hnl : fl.numlist with
          | some np =>
              simp only [hnl] at hser
              cases np with
              | lit n =>
                  simp only [pure, Except.pure] at hser
                  cases v0 <;> try (simp only at hser; exact Except.noConfusion hser)
                  case vlist items =>
                  simp only at hser
                  simp only [fieldValFits] at hfit0
                  by_cases hlen : (items.length : Int) = (n : Int)
                  · rw [if_pos hlen] at hser
                    cases hsi : Message.serializeItems fl items spec.encoding with
                    | error e =>
                        simp only [hsi] at hser
                        exact Except.noConfusion hser
                    | ok s1 =>
                        simp only [hsi, Except.ok.injEq, Prod.mk.injEq] at hser
                        obtain ⟨hp, hi⟩ := hser
                        subst hp
                        have hn : n = items.length := by exact_mod_cast hlen.symm
                        obtain ⟨e, he⟩ := Message.decodeItems_prefix fl spec.encoding
                          items s1 henc hwft hfit0 hsi m hm
                        refine ⟨e, ?_⟩
                        simp only [Message.deserializeFieldBody, hnl, pure, Except.pure,
                          bind, Except.bind, hn, he]
                  · rw [if_neg hlen] at hser
                    exact Except.noConfusion hser
              | ref g =>
                  obtain ⟨w, hkw, hiw⟩ := hagree g (hnlref g hnl)
                  simp only [Message.resolveFieldReference, hiw, pure, Except.pure]
                    at hser
                  cases w <;> try (simp only at hser; exact Except.noConfusion hser)
                  case vint k =>
                  simp only at hser
                  cases v0 <;> try (simp only at hser; exact Except.noConfusion hser)
                  case vlist items =>
                  simp only at hser
                  simp only [fieldValFits] at hfit0
                  by_cases hlen : (items.length : Int) = k
                  · rw [if_pos hlen] at hser
                    cases hsi : Message.serializeItems fl items spec.encoding with
                    | error e =>
                        simp only [hsi] at hser
                        exact Except.noConfusion hser
                    | ok s1 =>
                        simp only [hsi, Except.ok.injEq, Prod.mk.injEq] at hser
                        obtain ⟨hp, hi⟩ := hser
                        subst hp
                        have hn : k.toNat = items.length := by
                          rw [← hlen]
                          simp
                        obtain ⟨e, he⟩ := Message.decodeItems_prefix fl spec.encoding
                          items s1 henc hwft hfit0 hsi m hm
                        refine ⟨e, ?_⟩
                        simp only [Message.deserializeFieldBody, hnl, hkw, pure,
                          Except.pure, bind, Except.bind, hn, he]
                  · rw [if_neg hlen] at hser
                    exact Except.noConfusion hser
          | none =>
              simp only [hnl] at hser
              cases hdyn : fl.dynamicArray with
              | true =>
                  simp only [hdyn, eq_self_iff_true, if_true] at hser
                  cases v0 <;> try (simp only at hser; exact Except.noConfusion hser)
                  case vlist items =>
                  simp only at hser
                  simp only [fieldValFits] at hfit0
                  by_cases hlt : items.length < 2 ^ 32
                  · rw [if_pos hlt] at hser
                    cases hsi : Message.serializeItems fl items spec.encoding with
                    | error e =>
                        simp only [hsi] at hser
                        exact Except.noConfusion hser
                    | ok body =>
                        simp only [hsi, pure, Except.pure, Except.ok.injEq,
                          Prod.mk.injEq] at hser
                        obtain ⟨hp, hi⟩ := hser
                        subst hp
                        have hm' : m < 4 + body.length := by
                          simpa [List.length_append, natToBytes_length] using hm
                        by_cases h4 : m < 4
                        · refine ⟨.insufficient, ?_⟩
                          simp only [Message.deserializeFieldBody, hnl, hdyn,
                            eq_self_iff_true, if_true, bind, Except.bind]
                          rw [if_pos (by
                            simp only [List.length_take, List.length_append,
                              natToBytes_length]
                            omega)]
                        · push_neg at h4
                          have htake : (natToBytes 4 spec.encoding items.length
                              ++ body).take m
                              = natToBytes 4 spec.encoding items.length
                                ++ body.take (m - 4) := by
                            rw [List.take_append_eq_append_take,
                              List.take_of_length_le (by
                                simp [natToBytes_length]
                                omega)]
                            simp [natToBytes_length]
                          have htake4 : ((natToBytes 4 spec.encoding items.length
                              ++ body.take (m - 4)).take 4)
                              = natToBytes 4 spec.encoding items.length :=
                            List.take_left' (natToBytes_length 4 _ _)
                          have hdrop4 : ((natToBytes 4 spec.encoding items.length
                              ++ body.take (m - 4)).drop 4) = body.take (m - 4) :=
                            List.drop_left' (natToBytes_length 4 _ _)
                          have hlt' : items.length < 256 ^ 4 := by
                            have h2324 : (256 : Nat) ^ 4 = 2 ^ 32 := by norm_num
                            rw [h2324]
                            exact hlt
                          obtain ⟨e, he⟩ := Message.decodeItems_prefix fl spec.encoding
                            items body henc hwft hfit0 hsi (m - 4) (by omega)
                          refine ⟨e, ?_⟩
                          simp only [Message.deserializeFieldBody, hnl, hdyn,
                            eq_self_iff_true, if_true, bind, Except.bind, htake]
                          rw [if_neg (by
                            simp only [List.length_append, natToBytes_length,
                              List.length_take]
                            omega)]
                          rw [htake4, natFromBytes_natToBytes 4 _ _ hlt', hdrop4, he]
                  · rw [if_neg hlt] at hser
                    exact Except.noConfusion hser
              | false =>
                  simp only [hdyn, Bool.false_eq_true, if_false, hdelim] at hser
                  cases hsv : Message.serializeValue fl v0 spec.encoding with
                  | error e =>
                      simp only [hsv] at hser
                      exact Except.noConfusion hser
                  | ok s1 =>
                      simp only [hsv, Except.ok.injEq, Prod.mk.injEq] at hser
                      obtain ⟨hp, hi⟩ := hser
                      subst hp
                      have hfv : valFits fl.ftype v0 := by
                        cases v0 <;>
                          first
                            | exact hfit0
                            | exact valFits_not_vcomp _ _
                                (fun a hh => Value.noConfusion hh)
                      obtain ⟨e, he⟩ := Message.deserializeValue_prefix fl v0
                        spec.encoding s1 henc hwft hfv hsv m hm
                      refine ⟨e, ?_⟩
                      simp only [Message.deserializeFieldBody, hnl, hdyn,
                        Bool.false_eq_true, if_false, hdelim, bind, Except.bind, he]

theorem Message.deserializeFields_prefix_fold
    (spec : MClass) (fs : List (String × MField)) (avail : List String)
    (instCur kwargs : Ctx) (s : Bytes) (instF : Ctx) (m : Nat)
    (hwf : fieldsWF spec fs avail)
    (hnd : ((fs.map Prod.fst) ++ avail).Nodup)
    (hser : Message.serializeFields spec fs instCur = .ok (s, instF))
    (hagree : ∀ g ∈ avail, ∃ w, lookupA kwargs g = some w ∧ lookupA instCur g = some w)
    (hfits : ∀ f fl v, (f, fl) ∈ fs → lookupA instCur f = some v → fieldValFits fl v)
    (hstat : ∀ f fl sv, (f, fl) ∈ fs → fl.static = some sv → lookupA instCur f = some sv)
    (hm : m < s.length) :
    ∃ e, Message.deserializeFields spec fs (s.take m) kwargs = .error e := by
  induction fs generalizing avail instCur kwargs s m with
  | nil =>
      simp only [Message.serializeFields, Except.ok.injEq, Prod.mk.injEq] at hser
      rw [← hser.1] at hm
      simp at hm
  | cons hd tl ih =>
      obtain ⟨f, fl⟩ := hd
      have hndflat : (f :: (tl.map Prod.fst ++ avail)).Nodup := by simpa using hnd
      have hfnot : f ∉ tl.map Prod.fst ∧ f ∉ avail := by
        have h1 := (List.nodup_cons.mp hndflat).1
        simp only [List.mem_append] at h1
        push_neg at h1
        exact h1
      have hndtl : (tl.map Prod.fst ++ avail).Nodup := (List.nodup_cons.mp hndflat).2
      obtain ⟨hcore, hwftl⟩ := hwf
      obtain ⟨hencf, hdelimf, _hbitsf, hwftf, hstatcl, hcondcl, hnlcl, hsrccl⟩ := hcore
      simp only [Message.serializeFields, bind, Except.bind] at hser
      cases hsf : Message.serializeField spec f fl instCur with
      | error e =>
          simp only [hsf] at hser
          exact Except.noConfusion hser
      | ok r =>
          obtain ⟨piece, inst1⟩ := r
          simp only [hsf] at hser
          cases hst : Message.serializeFields spec tl inst1 with
          | error e =>
              simp only [hst] at hser
              exact Except.noConfusion hser
          | ok r2 =>
              obtain ⟨stl, iF⟩ := r2
              simp only [hst, pure, Except.pure, Except.ok.injEq, Prod.mk.injEq] at hser
              obtain ⟨hseq, hiF⟩ := hser
              subst iF
              subst hseq
              have hfits' : ∀ f2 fl2 v2, (f2, fl2) ∈ tl →
                  lookupA inst1 f2 = some v2 → fieldValFits fl2 v2 := by
                intro f2 fl2 v2 hmm2 hlk2
                have hne : f2 ≠ f := by
                  intro hh
                  subst hh
                  exact hfnot.1 (List.mem_map.mpr ⟨(f2, fl2), hmm2, rfl⟩)
                rcases Message.serializeField_inst spec f fl instCur piece inst1 hsf with
                  hi | ⟨_, _, v, hi⟩
                · rw [hi] at hlk2
                  exact hfits f2 fl2 v2 (by simp [hmm2]) hlk2
                · rw [hi, lookupA_setA_ne _ _ _ _ hne] at hlk2
                  exact hfits f2 fl2 v2 (by simp [hmm2]) hlk2
              have hstat' : ∀ f2 fl2 sv2, (f2, fl2) ∈ tl →
                  fl2.static = some sv2 → lookupA inst1 f2 = some sv2 := by
                intro f2 fl2 sv2 hmm2 hs2
                have hne : f2 ≠ f := by
                  intro hh
                  subst hh
                  exact hfnot.1 (List.mem_map.mpr ⟨(f2, fl2), hmm2, rfl⟩)
                rcases Message.serializeField_inst spec f fl instCur piece inst1 hsf with
                  hi | ⟨_, _, v, hi⟩
                · rw [hi]
                  exact hstat f2 fl2 sv2 (by simp [hmm2]) hs2
                · rw [hi, lookupA_setA_ne _ _ _ _ hne]
                  exact hstat f2 fl2 sv2 (by simp [hmm2]) hs2
              rw [List.length_append] at hm
              cases hcnd : fl.cond with
              | some c =>
                  have hstaticf : fl.static = none := by
                    cases hsx : fl.static with
                    | none => rfl
                    | some sv =>
                        have hx := (hstatcl (by simp [hsx])).1
                        rw [hcnd] at hx
                        exact Option.noConfusion hx
                  obtain ⟨w, hkw, hiw⟩ := hagree (condRefName c) (hcondcl c hcnd)
                  have hkweq : lookupA kwargs (condRefName c)
                      = lookupA instCur (condRefName c) := by rw [hkw, hiw]
                  have hwftl' : fieldsWF spec tl avail := by
                    simpa [hcnd] using hwftl
                  cases hev : evalCond c instCur with
                  | error e =>
                      simp only [Message.serializeField, hcnd, hev, bind, Except.bind]
                        at hsf
                      exact Except.noConfusion hsf
                  | ok b =>
                      have hevk : evalCond c kwargs = .ok b := by
                        rw [evalCond_stable c kwargs instCur hkweq, hev]
                      cases b with
                      | false =>
                          rw [Message.serializeField_skip spec f fl instCur c hcnd hev]
                            at hsf
                          obtain ⟨hp1, hp2⟩ : [] = piece ∧ instCur = inst1 := by
                            simpa using Except.ok.inj hsf
                          subst hp1
                          subst hp2
                          obtain ⟨e, he⟩ := ih avail instCur kwargs stl m hwftl' hndtl
                            hst hagree
                            (fun f2 fl2 v2 hmm2 h2 => hfits f2 fl2 v2 (by simp [hmm2]) h2)
                            (fun f2 fl2 sv2 hmm2 h2 =>
                              hstat f2 fl2 sv2 (by simp [hmm2]) h2)
                            (by simpa using hm)
                          have hdf := Message.deserializeField_skip spec f fl
                            (stl.take m) kwargs c hstaticf hcnd hevk
                          refine ⟨e, ?_⟩
                          simp only [List.nil_append, Message.deserializeFields, bind,
                            Except.bind, hdf, List.drop_zero, he]
                      | true =>
                          rw [Message.serializeField_take spec f fl instCur c hcnd hev]
                            at hsf
                          by_cases hmp : m < piece.length
                          · obtain ⟨e, he⟩ := Message.deserializeFieldBody_prefix spec
                              f fl instCur kwargs avail piece inst1 m hstaticf hencf
                              hdelimf hwftf
                              (fun hs2 => ⟨(hsrccl hs2).1, (hsrccl hs2).2.1,
                                (hsrccl hs2).2.2.1⟩)
                              (fun g hg => hnlcl g hg) hsf hagree
                              (fun v2 hv2 => hfits f fl v2 (by simp) hv2) hmp
                            refine ⟨e, ?_⟩
                            rw [List.take_append_of_le_length (le_of_lt hmp)]
                            simp only [Message.deserializeFields, bind, Except.bind]
                            rw [Message.deserializeField_take spec f fl _ kwargs c
                              hstaticf hcnd hevk, he]
                          · push_neg at hmp
                            have htke : (piece ++ stl).take m
                                = piece ++ stl.take (m - piece.length) := by
                              rw [List.take_append_eq_append_take,
                                List.take_of_length_le hmp]
                            obtain ⟨v, hdecB, hinst1f, hframe1, _⟩ :=
                              Message.deserializeFieldBody_roundtrip spec f fl instCur
                                kwargs avail piece inst1 (stl.take (m - piece.length))
                                hstaticf hencf hdelimf hwftf
                                (fun hs2 => ⟨(hsrccl hs2).1, (hsrccl hs2).2.1,
                                  (hsrccl hs2).2.2.1⟩)
                                (fun g hg => hnlcl g hg) hsf hagree
                                (fun v2 hv2 => hfits f fl v2 (by simp) hv2)
                            have hagree' : ∀ g ∈ avail, ∃ w2,
                                lookupA (setA kwargs f v) g = some w2
                                ∧ lookupA inst1 g = some w2 := by
                              intro g hg
                              obtain ⟨w2, h1, h2⟩ := hagree g hg
                              have hgf : g ≠ f := fun hh => hfnot.2 (hh ▸ hg)
                              refine ⟨w2, ?_, ?_⟩
                              · rw [lookupA_setA_ne _ _ _ _ hgf]
                                exact h1
                              · rw [hframe1 g hgf]
                                exact h2
                            obtain ⟨e, he⟩ := ih avail inst1 (setA kwargs f v) stl
                              (m - piece.length) hwftl' hndtl hst hagree' hfits' hstat'
                              (by omega)
                            refine ⟨e, ?_⟩
                            rw [htke]
                            simp only [Message.deserializeFields, bind, Except.bind]
                            rw [Message.deserializeField_take spec f fl _ kwargs c
                              hstaticf hcnd hevk, hdecB]
                            simp only [List.drop_left, he]
              | none =>
                  have hwftl' : fieldsWF spec tl (avail ++ [f]) := by
                    simpa [hcnd] using hwftl
                  have hnd' : (tl.map Prod.fst ++ (avail ++ [f])).Nodup :=
                    nodup_rotate hndflat
                  cases hstatx : fl.static with
                  | some sv =>
                      obtain ⟨hc0, hsrcf, hnlf, hdynf⟩ := hstatcl (by simp [hstatx])
                      have hfit : fieldValFits fl sv :=
                        hfits f fl sv (by simp) (hstat f fl sv (by simp) hstatx)
                      rw [Message.serializeField_nocond spec f fl instCur hcnd] at hsf
                      simp only [Message.serializeFieldBody, hstatx, hsrcf, hnlf, hdynf,
                        hdelimf, Bool.false_eq_true, if_false, bind, Except.bind, pure,
                        Except.pure] at hsf
                      cases hsv : Message.serializeValue fl sv spec.encoding with
                      | error e =>
                          simp only [hsv] at hsf
                          exact Except.noConfusion hsf
                      | ok s1 =>
                          simp only [hsv, Except.ok.injEq, Prod.mk.injEq] at hsf
                          obtain ⟨hp, hi⟩ := hsf
                          subst hp
                          subst hi
                          have hfv : valFits fl.ftype sv := by
                            cases sv <;>
                              first
                                | exact hfit
                                | exact valFits_not_vcomp _ _
                                    (fun a hh => Value.noConfusion hh)
                          by_cases hmp : m < s1.length
                          · obtain ⟨e, he⟩ := Message.deserializeValue_prefix fl sv
                              spec.encoding s1 hencf hwftf hfv hsv m hmp
                            refine ⟨e, ?_⟩
                            rw [List.take_append_of_le_length (le_of_lt hmp)]
                            simp only [Message.deserializeFields, bind, Except.bind,
                              Message.deserializeField, hstatx, he]
                          · push_neg at hmp
                            have htke : (s1 ++ stl).take m
                                = s1 ++ stl.take (m - s1.length) := by
                              rw [List.take_append_eq_append_take,
                                List.take_of_length_le hmp]
                            have hdv := Message.deserializeValue_roundtrip fl sv
                              spec.encoding s1 (stl.take (m - s1.length)) hencf hwftf
                              hfv hsv
                            have hagree' : ∀ g ∈ avail ++ [f], ∃ w2,
                                lookupA (setA kwargs f sv) g = some w2
                                ∧ lookupA instCur g = some w2 := by
                              intro g hg
                              rcases List.mem_append.mp hg with hg1 | hg1
                              · obtain ⟨w2, h1, h2⟩ := hagree g hg1
                                have hgf : g ≠ f := fun hh => hfnot.2 (hh ▸ hg1)
                                refine ⟨w2, ?_, h2⟩
                                rw [lookupA_setA_ne _ _ _ _ hgf]
                                exact h1
                              · have hgf : g = f := by simpa using hg1
                                subst hgf
                                exact ⟨sv, lookupA_setA_self _ _ _,
                                  hstat g fl sv (by simp) hstatx⟩
                            obtain ⟨e, he⟩ := ih (avail ++ [f]) instCur
                              (setA kwargs f sv) stl (m - s1.length) hwftl' hnd' hst
                              hagree' hfits' hstat' (by omega)
                            refine ⟨e, ?_⟩
                            rw [htke]
                            simp only [Message.deserializeFields, bind, Except.bind,
                              Message.deserializeField, hstatx, hdv, Value.beq_refl,
                              if_true, pure, Except.pure, List.drop_left, he]
                  | none =>
                      rw [Message.serializeField_nocond spec f fl instCur hcnd] at hsf
                      by_cases hmp : m < piece.length
                      · obtain ⟨e, he⟩ := Message.deserializeFieldBody_prefix spec
                          f fl instCur kwargs avail piece inst1 m hstatx hencf
                          hdelimf hwftf
                          (fun hs2 => ⟨(hsrccl hs2).1, (hsrccl hs2).2.1,
                            (hsrccl hs2).2.2.1⟩)
                          (fun g hg => hnlcl g hg) hsf hagree
                          (fun v2 hv2 => hfits f fl v2 (by simp) hv2) hmp
                        refine ⟨e, ?_⟩
                        rw [List.take_append_of_le_length (le_of_lt hmp)]
                        simp only [Message.deserializeFields, bind, Except.bind]
                        rw [Message.deserializeField_nocond spec f fl _ kwargs
                          hstatx hcnd, he]
                      · push_neg at hmp
                        have htke : (piece ++ stl).take m
                            = piece ++ stl.take (m - piece.length) := by
                          rw [List.take_append_eq_append_take,
                            List.take_of_length_le hmp]
                        obtain ⟨v, hdecB, hinst1f, hframe1, _⟩ :=
                          Message.deserializeFieldBody_roundtrip spec f fl instCur
                            kwargs avail piece inst1 (stl.take (m - piece.length))
                            hstatx hencf hdelimf hwftf
                            (fun hs2 => ⟨(hsrccl hs2).1, (hsrccl hs2).2.1,
                              (hsrccl hs2).2.2.1⟩)
                            (fun g hg => hnlcl g hg) hsf hagree
                            (fun v2 hv2 => hfits f fl v2 (by simp) hv2)
                        have hagree' : ∀ g ∈ avail ++ [f], ∃ w2,
                            lookupA (setA kwargs f v) g = some w2
                            ∧ lookupA inst1 g = some w2 := by
                          intro g hg
                          rcases List.mem_append.mp hg with hg1 | hg1
                          · obtain ⟨w2, h1, h2⟩ := hagree g hg1
                            have hgf : g ≠ f := fun hh => hfnot.2 (hh ▸ hg1)
                            refine ⟨w2, ?_, ?_⟩
                            · rw [lookupA_setA_ne _ _ _ _ hgf]
                              exact h1
                            · rw [hframe1 g hgf]
                              exact h2
                          · have hgf : g = f := by simpa using hg1
                            subst hgf
                            exact ⟨v, lookupA_setA_self _ _ _, hinst1f⟩
                        obtain ⟨e, he⟩ := ih (avail ++ [f]) inst1 (setA kwargs f v)
                          stl (m - piece.length) hwftl' hnd' hst hagree' hfits' hstat'
                          (by omega)
                        refine ⟨e, ?_⟩
                        rw [htke]
                        simp only [Message.deserializeFields, bind, Except.bind]
                        rw [Message.deserializeField_nocond spec f fl _ kwargs
                          hstatx hcnd, hdecB]
                        simp only [List.drop_left, he]

/-! ### Buffer-map algebra and buffered prefixes -/

theorem bufDel_of_none (b : Buffers) (k : String) (h : b k = none) :
    bufDel b k = b := by
  funext j
  by_cases hj : j = k
  · subst hj
    rw [bufDel_self, h]
  · simp [bufDel, hj]

theorem bufSet_bufDel (b : Buffers) (k : String) (v : Bytes) :
    bufSet (bufDel b k) k v = bufSet b k v := by
  funext j
  by_cases hj : j = k <;> simp [bufSet, bufDel, hj]

theorem Protocol.decode_append (p : Protocol) (bufs : Buffers) (sid : String)
    (chunk prev : Bytes) (h : bufs sid = some prev) :
    Protocol.decode p bufs chunk sid
      = Protocol.decode p (bufDel bufs sid) (prev ++ chunk) sid := by
  simp only [Protocol.decode, h, bufDel_self]

theorem Protocol.decode_prefix_none
    (p : Protocol) (spec : MClass) (m : Ctx) (bufs : Buffers) (sid : String)
    (wire : Bytes) (mF : Ctx) (j : Nat)
    (hcwf : classWF spec) (hfits : instFits spec m)
    (hreg : lookupA p.registry spec.name = some spec)
    (hbuf : bufs sid = none)
    (henc : Protocol.encode p spec m = .ok (wire, mF))
    (hj : j < wire.length)
    (hcut : j < 2 + spec.name.length + Protocol.calculateAutoFieldsSize p.headers + 10
      ∨ wire.length - Protocol.calculateAutoFieldsSize p.footers ≤ j) :
    Protocol.decode p bufs (wire.take j) sid = (bufSet bufs sid (wire.take j), none) := by
  simp only [Protocol.encode, hreg, Option.isNone_some, Bool.false_eq_true, if_false]
    at henc
  cases hval : Message.validate spec m with
  | false =>
      rw [hval] at henc
      simp at henc
  | true =>
      rw [hval] at henc
      simp only [Bool.not_true, Bool.false_eq_true, if_false] at henc
      by_cases hn16 : spec.name.length < 2 ^ 16
      swap
      · rw [if_neg hn16] at henc
        exact Except.noConfusion henc
      rw [if_pos hn16] at henc
      simp only [bind, Except.bind] at henc
      cases hserB : Message.serializeBytes spec m with
      | error e =>
          simp only [hserB] at henc
          exact Except.noConfusion henc
      | ok r =>
          obtain ⟨body, instF⟩ := r
          simp only [hserB] at henc
          cases hhdr : Protocol.serializeAutoFields p.headers spec instF body with
          | error e =>
              simp only [hhdr] at henc
              exact Except.noConfusion henc
          | ok hdr =>
              simp only [hhdr] at henc
              cases hftr : Protocol.serializeAutoFields p.footers spec instF body with
              | error e =>
                  simp only [hftr] at henc
                  exact Except.noConfusion henc
              | ok ftr =>
                  simp only [hftr, pure, Except.pure, Except.ok.injEq,
                    Prod.mk.injEq] at henc
                  obtain ⟨hw, hmF⟩ := henc
                  subst mF
                  subst hw
                  obtain ⟨hbw, hhbw, hndspec, hwfF⟩ := hcwf
                  have hserF : Message.serializeFields spec spec.fields m
                      = .ok (body, instF) := by
                    rw [← hserB]
                    simp [Message.serializeBytes, hbw, hhbw]
                  have hhdrlen : hdr.length = Protocol.calculateAutoFieldsSize p.headers :=
                    Protocol.serializeAutoFields_length p.headers spec instF body hdr hhdr
                  have hftrlen : ftr.length = Protocol.calculateAutoFieldsSize p.footers :=
                    Protocol.serializeAutoFields_length p.footers spec instF body ftr hftr
                  have hTlen : (natToBytes 2 .big spec.name.length).length = 2 :=
                    natToBytes_length 2 .big spec.name.length
                  have hname256 : spec.name.length < 256 ^ 2 := by
                    have h216 : (256 : Nat) ^ 2 = 2 ^ 16 := by norm_num
                    rw [h216]
                    exact hn16
                  rw [List.append_assoc, List.append_assoc, List.append_assoc] at hj
                  simp only [List.length_append, hTlen] at hj
                  simp only [List.append_assoc] at hcut ⊢
                  simp only [List.length_append, hTlen] at hcut
                  simp only [Protocol.decode, hbuf]
                  by_cases hj2 : j < 2
                  · rw [if_pos (by simp only [List.length_take]; omega)]
                  · push_neg at hj2
                    rw [if_neg (by
                      simp only [List.length_take, List.length_append, hTlen]
                      omega)]
                    have htk2 : ((natToBytes 2 .big spec.name.length
                        ++ (spec.name ++ (hdr ++ (body ++ ftr)))).take j).take 2
                        = natToBytes 2 .big spec.name.length := by
                      rw [List.take_take, show min 2 j = 2 from by omega]
                      exact List.take_left' hTlen
                    rw [htk2,
                      natFromBytes_natToBytes 2 .big spec.name.length hname256]
                    by_cases hjL : j < 2 + spec.name.length
                    · rw [if_pos (by
                        simp only [List.length_take, List.length_append, hTlen]
                        omega)]
                    · push_neg at hjL
                      rw [if_neg (by
                        simp only [List.length_take, List.length_append, hTlen]
                        omega)]
                      have hdrp2 : ((natToBytes 2 .big spec.name.length
                          ++ (spec.name ++ (hdr ++ (body ++ ftr)))).take j).drop 2
                          = (spec.name ++ (hdr ++ (body ++ ftr))).take (j - 2) := by
                        rw [List.drop_take, List.drop_left' hTlen]
                      have hmt : (((spec.name ++ (hdr ++ (body ++ ftr))).take
                          (j - 2)).take spec.name.length) = spec.name := by
                        rw [List.take_take,
                          show min spec.name.length (j - 2) = spec.name.length from
                            by omega]
                        exact List.take_left' rfl
                      rw [hdrp2, hmt, hreg]
                      simp only []
                      have hmdata : ((natToBytes 2 .big spec.name.length
                          ++ (spec.name ++ (hdr ++ (body ++ ftr)))).take j).drop
                          (2 + spec.name.length)
                          = (hdr ++ (body ++ ftr)).take (j - (2 + spec.name.length))
                          := by
                        rw [List.drop_take, ← List.append_assoc,
                          List.drop_left' (by simp [hTlen])]
                      rw [hmdata]
                      by_cases hjH : j - (2 + spec.name.length)
                          < Protocol.calculateAutoFieldsSize p.headers
                      · rw [if_pos (by
                          simp only [List.length_take, List.length_append, hhdrlen]
                          omega)]
                      · push_neg at hjH
                        rw [if_neg (by
                          simp only [List.length_take, List.length_append, hhdrlen,
                            hftrlen]
                          omega)]
                        have hbodyp : (((hdr ++ (body ++ ftr)).take
                            (j - (2 + spec.name.length))).drop
                            (Protocol.calculateAutoFieldsSize p.headers))
                            = (body ++ ftr).take
                              (j - (2 + spec.name.length)
                                - Protocol.calculateAutoFieldsSize p.headers) := by
                          rw [List.drop_take]
                          congr 1
                          rw [← hhdrlen]
                          exact List.drop_left hdr (body ++ ftr)
                        rw [hbodyp]
                        by_cases hjB : j - (2 + spec.name.length)
                            - Protocol.calculateAutoFieldsSize p.headers < body.length
                        · have hj10 : j - (2 + spec.name.length)
                              - Protocol.calculateAutoFieldsSize p.headers < 10 := by
                            rcases hcut with hcut1 | hcut2
                            · omega
                            · omega
                          have hbtk : (body ++ ftr).take
                              (j - (2 + spec.name.length)
                                - Protocol.calculateAutoFieldsSize p.headers)
                              = body.take (j - (2 + spec.name.length)
                                - Protocol.calculateAutoFieldsSize p.headers) :=
                            List.take_append_of_le_length (le_of_lt hjB)
                          obtain ⟨e, he⟩ := Message.deserializeFields_prefix_fold
                            spec spec.fields [] m [] body instF
                            (j - (2 + spec.name.length)
                              - Protocol.calculateAutoFieldsSize p.headers)
                            hwfF (by simpa using hndspec) hserF (by simp)
                            (fun f fl v hm2 hv => hfits.2 f fl v hm2 hv)
                            (fun f fl sv hm2 hs2 => hfits.1 f fl sv hm2 hs2) hjB
                          have hdb : Message.deserializeBytes spec
                              ((body ++ ftr).take
                                (j - (2 + spec.name.length)
                                  - Protocol.calculateAutoFieldsSize p.headers))
                              = .error e := by
                            rw [hbtk]
                            simp only [Message.deserializeBytes, hbw, hhbw,
                              Bool.or_self, Bool.false_eq_true, if_false, bind,
                              Except.bind, he]
                          rw [hdb]
                          simp only []
                          rw [if_pos (by
                            simp only [List.length_take, List.length_append]
                            omega)]
                        · push_neg at hjB
                          have hbtk : (body ++ ftr).take
                              (j - (2 + spec.name.length)
                                - Protocol.calculateAutoFieldsSize p.headers)
                              = body ++ ftr.take
                                (j - (2 + spec.name.length)
                                  - Protocol.calculateAutoFieldsSize p.headers
                                  - body.length) := by
                            rw [List.take_append_eq_append_take,
                              List.take_of_length_le hjB]
                          obtain ⟨kwF, hDec, _, _, _, _⟩ :=
                            Message.roundtrip_reserialize spec m body
                              (ftr.take (j - (2 + spec.name.length)
                                - Protocol.calculateAutoFieldsSize p.headers
                                - body.length)) instF
                              ⟨hbw, hhbw, hndspec, hwfF⟩ hfits hserB
                          rw [hbtk, hDec]
                          simp only []
                          rw [if_pos (by
                            simp only [List.length_take, List.length_append, hhdrlen,
                              hftrlen]
                            omega)]

/-! ### Feeding a wire message in chunks -/

/-- Successive `Protocol.decode` calls with one source id, threading the
incomplete-buffer map and collecting each call's result. -/
def Protocol.decodeAll (p : Protocol) (bufs : Buffers) (sid : String) :
    List Bytes → Buffers × List (Option DecodeOut)
  | [] => (bufs, [])
  | c :: cs =>
      let r := Protocol.decode p bufs c sid
      let rest := Protocol.decodeAll p r.1 sid cs
      (rest.1, r.2 :: rest.2)

/-- A split point after which `decode` still buffers: either fewer than 10
bytes of the body region have arrived, or the cut lies at or beyond the end
of the body (inside the footers). -/
def Protocol.goodCut (p : Protocol) (spec : MClass) (wireLen j : Nat) : Prop :=
  j < 2 + spec.name.length + Protocol.calculateAutoFieldsSize p.headers + 10
  ∨ wireLen - Protocol.calculateAutoFieldsSize p.footers ≤ j

theorem bufDel_bufSet (b : Buffers) (k : String) (v : Bytes) :
    bufDel (bufSet b k v) k = bufDel b k := by
  funext j
  by_cases hj : j = k <;> simp [bufSet, bufDel, hj]

theorem Protocol.decodeAll_go (p : Protocol) (bufs0 : Buffers) (sid : String)
    (wire : Bytes) (out : Option DecodeOut) (P : Nat → Prop)
    (hbuf : bufs0 sid = none)
    (hfull : Protocol.decode p bufs0 wire sid = (bufs0, out))
    (hpref : ∀ j, j < wire.length → P j →
      Protocol.decode p bufs0 (wire.take j) sid
        = (bufSet bufs0 sid (wire.take j), none)) :
    ∀ cs acc bufsCur,
      (∀ c, Protocol.decode p bufsCur c sid
        = Protocol.decode p bufs0 (acc ++ c) sid) →
      acc ++ cs.flatten = wire → cs ≠ [] → (∀ c ∈ cs, c ≠ []) →
      (∀ k, k + 1 < cs.length → P (acc.length + ((cs.take (k + 1)).flatten).length)) →
      Protocol.decodeAll p bufsCur sid cs
        = (bufs0, List.replicate (cs.length - 1) none ++ [out]) := by
  intro cs
  induction cs with
  | nil =>
      intro acc bufsCur _ _ hne
      exact absurd rfl hne
  | cons c cs' ih =>
      intro acc bufsCur hcur hjoin _ hnonempty hcut
      cases cs' with
      | nil =>
          simp only [List.flatten, List.append_nil] at hjoin
          have hr : Protocol.decode p bufsCur c sid = (bufs0, out) := by
            rw [hcur c, hjoin]
            exact hfull
          simp [Protocol.decodeAll, hr]
      | cons c2 cs2 =>
          have hlt : (acc ++ c).length < wire.length := by
            rw [← hjoin]
            simp only [List.flatten, List.length_append]
            have hc2 : c2 ≠ [] := hnonempty c2 (by simp)
            have : 0 < c2.length := List.length_pos.mpr hc2
            omega
          have htk : wire.take (acc ++ c).length = acc ++ c := by
            rw [← hjoin, show acc ++ (c :: c2 :: cs2).flatten
                = (acc ++ c) ++ (c2 :: cs2).flatten from by
              simp [List.flatten, List.append_assoc]]
            exact List.take_left (acc ++ c) _
          have hP : P (acc ++ c).length := by
            have := hcut 0 (by simp)
            simpa [List.flatten, List.length_append] using this
          have hr : Protocol.decode p bufsCur c sid
              = (bufSet bufs0 sid (acc ++ c), none) := by
            rw [hcur c, show acc ++ c = wire.take (acc ++ c).length from htk.symm]
            exact hpref (acc ++ c).length hlt hP
          have hcur' : ∀ cc, Protocol.decode p (bufSet bufs0 sid (acc ++ c)) cc sid
              = Protocol.decode p bufs0 ((acc ++ c) ++ cc) sid := by
            intro cc
            rw [Protocol.decode_append p _ sid cc (acc ++ c) (bufSet_self _ _ _),
              bufDel_bufSet, bufDel_of_none bufs0 sid hbuf]
          have hih := ih (acc ++ c) (bufSet bufs0 sid (acc ++ c)) hcur'
            (by rw [← hjoin]; simp [List.flatten, List.append_assoc])
            (by simp)
            (fun cc hcc => hnonempty cc (by simp [hcc]))
            (by
              intro k hk
              have := hcut (k + 1) (by simpa using hk)
              simpa [List.flatten, List.length_append, Nat.add_assoc] using this)
          conv_lhs => rw [Protocol.decodeAll]
          simp only [hr, hih]
          simp [List.replicate_succ]

/-! ## Concrete classes and protocols used to settle the claims -/

/-- A bitwise message with fields `{a:1, b:1, c:6}` (claim C6). -/
def bitsClass : MClass :=
  { name := [66, 105, 116, 115]
    fields := [
      ("a", { ftype := .bitT, bits := some 1 }),
      ("b", { ftype := .bitT, bits := some 1 }),
      ("c", { ftype := .bitT, bits := some 6 })] }

def bitsInst : Ctx := [("a", .vint 1), ("b", .vint 0), ("c", .vint 30)]

/-- `Frame{ data: bytes }` and its protocol with the `size` auto header
(claims C1, C2, C7). -/
def Frame : MClass :=
  { name := [70, 114, 97, 109, 101]
    fields := [("data", { ftype := .scalar .bytesT })] }

def frameProto : Protocol :=
  { registry := [([70, 114, 97, 109, 101], Frame)]
    headers := [("size", { ftype := .uintT 32, source := some (.sizeOf "body") })] }

def frameInst : Ctx := [("data", .vbytes [65, 66, 67])]

def frameWire : Bytes :=
  [0, 5, 70, 114, 97, 109, 101, 0, 0, 0, 7, 0, 0, 0, 3, 65, 66, 67]

/-- A class with a delimited array followed by a scalar whose wire bytes the
delimiter look-ahead swallows (claim C1's counterexample). -/
def DelimX : MClass :=
  { name := [88]
    fields := [
      ("a", { ftype := .scalar (.uintT 8), delimiter := some [255] }),
      ("b", { ftype := .scalar (.uintT 16) })] }

def delimProto : Protocol := { registry := [([88], DelimX)] }

def delimInst : Ctx := [("a", .vlist [.vint 1]), ("b", .vint 767)]

/-- A one-byte static message (claim C4's counterexample: the mismatching
body is shorter than the 10-byte threshold). -/
def Magic : MClass :=
  { name := [77, 97, 103, 105, 99]
    fields := [("m", { ftype := .scalar (.uintT 8), static := some (.vint 5) })] }

def magicProto : Protocol := { registry := [([77, 97, 103, 105, 99], Magic)] }

def magicBad : Bytes := [0, 5, 77, 97, 103, 105, 99, 6]

/-- A static field followed by a `bytes` payload, so a mismatching body can
reach the 10-byte threshold (claim C4's witness). -/
def MagicB : MClass :=
  { name := [77]
    fields := [
      ("m", { ftype := .scalar (.uintT 8), static := some (.vint 5) }),
      ("d", { ftype := .scalar .bytesT })] }

def magicBProto : Protocol := { registry := [([77], MagicB)] }

def magicBBadBody : Bytes := [6, 0, 0, 0, 9, 1, 2, 3, 4, 5, 6, 7, 8, 9]

/-- A message whose body exceeds 10 bytes, so a mid-body split defeats
chunked feeding (claim C2's counterexample). -/
def Big : MClass :=
  { name := [66, 105, 103]
    fields := [("data", { ftype := .scalar .bytesT })] }

def bigProto : Protocol := { registry := [([66, 105, 103], Big)] }

def bigInst : Ctx :=
  [("data", .vbytes [1, 2, 3, 4, 5, 6, 7, 8, 9, 10, 11, 12])]

def bigC1 : Bytes := [0, 3, 66, 105, 103, 0, 0, 0, 12, 1, 2, 3, 4, 5, 6, 7]

def bigC2 : Bytes := [8, 9, 10, 11, 12]

/-- The nested partial and enclosing message of the deep-assignment claim
(C3).  The Python class carries the extra spec entry
`"header.length": {"length_of": "payload"}` inside the `header` field's
spec dict; `serialize_bytes` only ever reads the keys `condition`, `static`,
`length_of`/`size_of`/`value_from`/`compute`, `numlist`, `dynamic_array`,
`delimiter` and `type` of a field spec, and `_resolve_field_reference` does
not split dotted names, so that entry is dead data and the embedding of the
class is `DeepMsg` below. -/
def DataHeader : PartSpec :=
  { fields := [
      ("length", { ptype := .uintT 16 }),
      ("content", { ptype := .bytesT })] }

def DeepMsg : MClass :=
  { name := [68]
    fields := [
      ("header", { ftype := .comp DataHeader }),
      ("payload", { ftype := .scalar .bytesT })] }

def deepInst : Ctx :=
  [("header", .vcomp [("length", .vint 0),
      ("content", .vbytes [72, 101, 97, 100, 101, 114])]),
    ("payload", .vbytes [84, 101, 115, 116, 32, 68, 97, 116, 97])]

/-- A message with one conditional field whose predicate reads the first
field (claim C5's witness). -/
def CondMsg : MClass :=
  { name := [67]
    fields := [
      ("k", { ftype := .scalar (.uintT 8) }),
      ("opt", { ftype := .scalar (.uintT 8), cond := some (.intEq "k" 1) })] }

def condInst : Ctx := [("k", .vint 0), ("opt", .vint 7)]

/-- A concrete custom encoder (claim C8's witness). -/
def constEnc : EncModel :=
  { enc := fun _ _ => .ok [42]
    dec := fun _ _ => .ok (.vint 7, 1) }

def pEnc : PFieldSpec := { ptype := .boolT, encoder := some constEnc }

def flEnc : MField := { ftype := .scalar .boolT, encoder := some constEnc }

/-! ## Claims -/

/-- C3: the deep-assignment spec entry (`"header.length": {"length_of":
"payload"}`) is never consulted by `Message.serialize_bytes` or
`_resolve_field_reference`, so the nested composite's `length` is written
and decoded unchanged (0), while the decoded payload has length 9: the
claimed equality between the decoded nested length and the decoded payload
length fails. -/
theorem C3_deep_assignment_ignored :
    ∃ bs m2,
      Message.serializeBytes DeepMsg deepInst = .ok (bs, deepInst)
      ∧ Message.deserializeBytes DeepMsg bs = .ok (m2, bs.length)
      ∧ lookupA m2 "header"
          = some (.vcomp [("length", .vint 0),
              ("content", .vbytes [72, 101, 97, 100, 101, 114])])
      ∧ lookupA m2 "payload"
          = some (.vbytes [84, 101, 115, 116, 32, 68, 97, 116, 97])
      ∧ ([84, 101, 115, 116, 32, 68, 97, 116, 97] : Bytes).length = 9
      ∧ (0 : Int) ≠ 9 :=
  ⟨_, _, rfl, rfl, rfl, rfl, rfl, by decide⟩

/-- C6 (counterexample to the claimed byte): the three bit fields
`{a:1=1, b:1=0, c:6=30}` pack to `0x9E`, not `0xBE`. -/
theorem C6_counterexample :
    Message.serializeBytes bitsClass bitsInst = .ok ([158], bitsInst)
    ∧ (158 : Nat) ≠ 190 :=
  ⟨rfl, by decide⟩

/-- C6 (amended): the bitwise message `{a:1=1, b:1=0, c:6=30}` serializes
to the single byte `0x9E` (`0b10011110`). -/
theorem C6_bit_packing :
    Message.serializeBytes bitsClass bitsInst = .ok ([0x9E], bitsInst) := rfl

/-- C7: `Protocol.encode` of `Frame{data = b"ABC"}` with the `size` header
produces exactly `00 05 "Frame" 00 00 00 07 00 00 00 03 "ABC"`. -/
theorem C7_frame_envelope :
    Protocol.encode frameProto Frame frameInst = .ok (frameWire, frameInst) := rfl

/-- C8: a field with a custom encoder takes its wire form entirely from the
encoder in `MessagePartial` — but in `Message` the same spec raises a
`NameError` (`FieldEncoder` is used in `message.py` without being
imported), so the claimed equal treatment fails. -/
theorem C8_encoder_paths (e : EncModel) (v : Value) (bo : Byteorder)
    (p : PFieldSpec) (fl : MField) (data : Bytes)
    (hp : p.encoder = some e) (hf : fl.encoder = some e) :
    MessagePartial.serializeValue p v bo = e.enc v bo
    ∧ MessagePartial.deserializeValue p data bo = e.dec data bo
    ∧ Message.serializeValue fl v bo = .error .nameErr
    ∧ Message.deserializeValue fl data bo = .error .nameErr := by
  refine ⟨?_, ?_, ?_, ?_⟩ <;>
    simp [MessagePartial.serializeValue, MessagePartial.deserializeValue,
      Message.serializeValue, Message.deserializeValue, hp, hf]

theorem C8_encoder_paths_witness :
    MessagePartial.serializeValue pEnc (.vint 0) .big = .ok [42]
    ∧ MessagePartial.deserializeValue pEnc [9] .big = .ok (.vint 7, 1)
    ∧ Message.serializeValue flEnc (.vint 0) .big = .error .nameErr
    ∧ Message.deserializeValue flEnc [9] .big = .error .nameErr := by
  have h := C8_encoder_paths constEnc (.vint 0) .big pEnc flEnc [9] rfl rfl
  exact ⟨h.1.trans rfl, h.2.1.trans rfl, h.2.2.1, h.2.2.2⟩

/-- C9: decoding a bool field consumes exactly one byte, yields `false`
exactly on a zero byte (any nonzero byte is `true`), never fails on a
nonempty input; encoding only emits `0x00`/`0x01`, so decode-then-encode
normalizes any nonzero byte to `0x01`. -/
theorem C9_bool_semantics (bo : Byteorder) :
    (∀ b rest, deserializeScalar .boolT (b :: rest) bo = .ok (.vbool (b != 0), 1))
    ∧ (∀ bb, serializeScalar .boolT (.vbool bb) bo
        = .ok [if bb then 1 else 0])
    ∧ (∀ b rest v n, b ≠ 0 →
        deserializeScalar .boolT (b :: rest) bo = .ok (v, n) →
        serializeScalar .boolT v bo = .ok [1]) := by
  refine ⟨fun b rest => rfl, fun bb => rfl, fun b rest v n hb hd => ?_⟩
  simp only [deserializeScalar, Except.ok.injEq, Prod.mk.injEq] at hd
  rw [← hd.1]
  simp [serializeScalar, hb]

theorem C9_bool_semantics_witness :
    deserializeScalar .boolT [7, 9] .big = .ok (.vbool (7 != 0), 1)
    ∧ serializeScalar .boolT (.vbool true) .big = .ok [if true then 1 else 0]
    ∧ serializeScalar .boolT (.vbool (7 != 0)) .big = .ok [1] :=
  ⟨(C9_bool_semantics .big).1 7 [9], (C9_bool_semantics .big).2.1 true,
    (C9_bool_semantics .big).2.2 7 [9] (.vbool (7 != 0)) 1 (by decide)
      ((C9_bool_semantics .big).1 7 [9])⟩

/-- C10: `Protocol.decode` keeps the incomplete-buffer invariant — after a
non-`None` result no entry remains for the source id, and after a `None`
result the entry holds exactly the previously buffered bytes plus the new
data. -/
theorem C10_buffer_invariant (p : Protocol) (bufs : Buffers) (data : Bytes)
    (sid : String) :
    ((Protocol.decode p bufs data sid).2.isSome = true →
      (Protocol.decode p bufs data sid).1 sid = none)
    ∧ ((Protocol.decode p bufs data sid).2 = none →
      (Protocol.decode p bufs data sid).1 sid
        = some (match bufs sid with
            | some b => b ++ data
            | none => data)) := by
  cases hb : bufs sid with
  | none =>
      simp only [Protocol.decode, hb]
      repeat' split
      all_goals simp [bufSet_self, hb]
  | some b =>
      simp only [Protocol.decode, hb]
      repeat' split
      all_goals simp [bufSet_self, bufDel_self, hb]

theorem C10_buffer_invariant_witness :
    (Protocol.decode magicProto emptyBufs magicBad "s1").1 "s1" = some magicBad :=
  (C10_buffer_invariant magicProto emptyBufs magicBad "s1").2 rfl

/-! ### Well-formedness of the concrete examples -/

theorem frame_classWF : classWF Frame := by
  refine ⟨rfl, rfl, by simp [Frame], ?_⟩
  refine ⟨⟨rfl, rfl, rfl, trivial, ?_, ?_, ?_, ?_⟩, trivial⟩ <;>
    intros <;> simp_all

theorem frame_instFits : instFits Frame frameInst := by
  constructor
  · intro f fl sv hm hs
    simp [Frame] at hm
    obtain ⟨h1, h2⟩ := hm
    subst h2
    simp at hs
  · intro f fl v hm hv
    simp [Frame] at hm
    obtain ⟨h1, h2⟩ := hm
    subst h2
    cases v <;>
      first
        | (simp only [fieldValFits]
           intro w hw
           cases w <;> simp [valFits])
        | simp [fieldValFits, valFits]

theorem frame_protoWF : protoWF frameProto Frame := by
  constructor
  · intro x hx
    simp only [frameProto, List.mem_cons, List.not_mem_nil, or_false] at hx
    subst hx
    constructor
    · norm_num [autoFieldSized, afSize]
    · intro vs hvs hread
      simp only [Option.some.injEq] at hvs
      subst hvs
      exact absurd (Or.inl rfl) hread
  · intro x hx
    simp [frameProto] at hx

theorem condMsg_classWF : classWF CondMsg := by
  refine ⟨rfl, rfl, by simp [CondMsg], ?_⟩
  refine ⟨⟨rfl, rfl, rfl, ?_, ?_, ?_, ?_, ?_⟩,
    ⟨rfl, rfl, rfl, ?_, ?_, ?_, ?_, ?_⟩, trivial⟩
  · norm_num [ftypeWF, stypeWF]
  · intro h
    simp at h
  · intro c hc
    simp at hc
  · intro g hg
    simp at hg
  · intro h
    simp at h
  · norm_num [ftypeWF, stypeWF]
  · intro h
    simp at h
  · intro c hc
    injection hc with h
    subst h
    simp [condRefName]
  · intro g hg
    simp at hg
  · intro h
    simp at h

theorem condMsg_instFits : instFits CondMsg condInst := by
  constructor
  · intro f fl sv hm hs
    simp [CondMsg] at hm
    rcases hm with ⟨h1, h2⟩ | ⟨h1, h2⟩ <;> subst h2 <;> simp at hs
  · intro f fl v hm hv
    simp [CondMsg] at hm
    rcases hm with ⟨h1, h2⟩ | ⟨h1, h2⟩ <;> subst h2 <;>
      cases v <;>
        first
          | (simp only [fieldValFits]
             intro w hw
             cases w <;> simp [valFits])
          | simp [fieldValFits, valFits]

/-! ### Claims C1, C2, C4, C5 -/

/-- C1 (amended): for every registered message class in the round-trip
universe (byte-aligned, distinct field names, no custom encoders, sized
scalar or one-level composite types, no delimited arrays) and every
instance whose fields are set and in range, decoding the encoding with an
empty incomplete buffer round-trips: `decode` returns the decoded message
of the same class with nothing left over and an unchanged buffer map, and
the decoded instance is field-equal to the encoder's instance (computed
header/footer fields validated on the way). -/
theorem C1_roundtrip (p : Protocol) (spec : MClass) (m : Ctx) (bufs : Buffers)
    (sid : String) (wire : Bytes) (mF : Ctx)
    (hcwf : classWF spec) (hpwf : protoWF p spec) (hfits : instFits spec m)
    (hreg : lookupA p.registry spec.name = some spec)
    (hbuf : bufs sid = none)
    (henc : Protocol.encode p spec m = .ok (wire, mF)) :
    ∃ m2, Protocol.decode p bufs wire sid = (bufs, some (.msg spec m2 []))
      ∧ (∀ f fl, (f, fl) ∈ spec.fields → fl.cond = none →
          lookupA m2 f = lookupA mF f)
      ∧ (∀ f fl c, (f, fl) ∈ spec.fields → fl.cond = some c →
          evalCond c mF = .ok false → lookupA m2 f = none)
      ∧ (∀ f fl c, (f, fl) ∈ spec.fields → fl.cond = some c →
          evalCond c mF = .ok true → lookupA m2 f = lookupA mF f) :=
  Protocol.decode_encode_roundtrip p spec m bufs sid wire mF hcwf hpwf hfits
    hreg hbuf henc

theorem C1_roundtrip_witness :
    ∃ m2, Protocol.decode frameProto emptyBufs frameWire "s1"
        = (emptyBufs, some (.msg Frame m2 []))
      ∧ (∀ f fl, (f, fl) ∈ Frame.fields → fl.cond = none →
          lookupA m2 f = lookupA frameInst f)
      ∧ (∀ f fl c, (f, fl) ∈ Frame.fields → fl.cond = some c →
          evalCond c frameInst = .ok false → lookupA m2 f = none)
      ∧ (∀ f fl c, (f, fl) ∈ Frame.fields → fl.cond = some c →
          evalCond c frameInst = .ok true → lookupA m2 f = lookupA frameInst f) :=
  C1_roundtrip frameProto Frame frameInst emptyBufs "s1" frameWire frameInst
    frame_classWF frame_protoWF frame_instFits rfl rfl rfl

/-- C1 (counterexample to the unrestricted claim): the delimited-array
look-ahead consumes the following field's wire bytes, so `decode` of
`encode` returns `None` (buffering the whole message) instead of the
decoded message. -/
theorem C1_counterexample :
    Protocol.encode delimProto DelimX delimInst
      = .ok ([0, 1, 88, 1, 255, 2, 255], delimInst)
    ∧ (Protocol.decode delimProto emptyBufs [0, 1, 88, 1, 255, 2, 255] "s1").2
      = none :=
  ⟨rfl, rfl⟩

/-- C2 (amended): splitting an encoded message into non-empty chunks and
feeding them to successive `decode` calls with one source id yields `None`
on every call before the last and the decoded message on the last call,
provided every intermediate split point is a `goodCut`: it either leaves
fewer than 10 bytes of the body region or falls at or beyond the end of the
body.  (A mid-body split with 10 or more body bytes instead produces an
`InvalidMessage` — see the counterexample.) -/
theorem C2_chunked (p : Protocol) (spec : MClass) (m : Ctx) (bufs : Buffers)
    (sid : String) (wire : Bytes) (mF : Ctx) (cs : List Bytes)
    (hcwf : classWF spec) (hpwf : protoWF p spec) (hfits : instFits spec m)
    (hreg : lookupA p.registry spec.name = some spec)
    (hbuf : bufs sid = none)
    (henc : Protocol.encode p spec m = .ok (wire, mF))
    (hjoin : cs.flatten = wire) (hcs : cs ≠ []) (hne : ∀ c ∈ cs, c ≠ [])
    (hcut : ∀ k, k + 1 < cs.length →
      Protocol.goodCut p spec wire.length ((cs.take (k + 1)).flatten).length) :
    ∃ m2, Protocol.decodeAll p bufs sid cs
      = (bufs, List.replicate (cs.length - 1) none ++ [some (.msg spec m2 [])]) := by
  obtain ⟨m2, hdec, _, _, _⟩ :=
    Protocol.decode_encode_roundtrip p spec m bufs sid wire mF hcwf hpwf hfits
      hreg hbuf henc
  refine ⟨m2, ?_⟩
  apply Protocol.decodeAll_go p bufs sid wire (some (.msg spec m2 []))
    (Protocol.goodCut p spec wire.length) hbuf hdec
    (fun j hj hP =>
      Protocol.decode_prefix_none p spec m bufs sid wire mF j hcwf hfits hreg
        hbuf henc hj hP)
    cs [] bufs (fun c => rfl) (by simpa using hjoin) hcs hne
    (fun k hk => by simpa using hcut k hk)

theorem C2_chunked_witness :
    ∃ m2, Protocol.decodeAll frameProto emptyBufs "s1"
        [[0, 5, 70], [114, 97, 109, 101, 0, 0, 0, 7, 0, 0, 0, 3, 65, 66, 67]]
      = (emptyBufs, List.replicate 1 none ++ [some (.msg Frame m2 [])]) :=
  C2_chunked frameProto Frame frameInst emptyBufs "s1" frameWire frameInst
    [[0, 5, 70], [114, 97, 109, 101, 0, 0, 0, 7, 0, 0, 0, 3, 65, 66, 67]]
    frame_classWF frame_protoWF frame_instFits rfl rfl rfl rfl (by decide)
    (by decide)
    (by
      intro k hk
      simp only [List.length_cons, List.length_nil] at hk
      have hk0 : k = 0 := by omega
      subst hk0
      exact Or.inl (by decide))

/-- C2 (counterexample to the unrestricted claim): splitting `encode(m)`
mid-body so that 10 or more body bytes arrive in the first chunk makes the
very first `decode` call return an `InvalidMessage` instead of `None`. -/
theorem C2_counterexample :
    Protocol.encode bigProto Big bigInst = .ok (bigC1 ++ bigC2, bigInst)
    ∧ bigC1 ≠ [] ∧ bigC2 ≠ []
    ∧ (Protocol.decode bigProto emptyBufs bigC1 "s1").2.isSome = true :=
  ⟨rfl, by decide, by decide, rfl⟩

/-- C4 (amended): a static-field mismatch is reported as
`Err.staticMismatch` by the field decoder, and `Protocol.decode` wraps that
body error in an `InvalidMessage` returned normally with the buffer map
unchanged — provided at least 10 body bytes are present (with fewer, the
error is treated as an incomplete message and buffered — see the
counterexample). -/
theorem C4_static_mismatch_invalid (p : Protocol) (mc : MClass) (bufs : Buffers)
    (sid f : String) (hd body : Bytes)
    (hbuf : bufs sid = none)
    (hreg : lookupA p.registry mc.name = some mc)
    (hname : mc.name.length < 256 ^ 2)
    (hhd : hd.length = Protocol.calculateAutoFieldsSize p.headers)
    (hbody : Message.deserializeBytes mc body = .error (.staticMismatch f))
    (h10 : 10 ≤ body.length) :
    (∀ (spec : MClass) (g : String) (fl : MField) (data2 : Bytes) (kwargs : Ctx)
        (sv v : Value) (consumed : Nat), fl.static = some sv →
        Message.deserializeValue fl data2 spec.encoding = .ok (v, consumed) →
        Value.beq v sv = false →
        Message.deserializeField spec g fl data2 kwargs
          = .error (.staticMismatch g))
    ∧ Protocol.decode p bufs
        (natToBytes 2 .big mc.name.length ++ (mc.name ++ (hd ++ body))) sid
      = (bufs, some (.invalid
          ⟨natToBytes 2 .big mc.name.length ++ (mc.name ++ (hd ++ body)),
            .staticMismatch f, some mc.name⟩)) := by
  constructor
  · intro spec g fl data2 kwargs sv v consumed hstatic hdv hbeq
    simp only [Message.deserializeField, hstatic, bind, Except.bind, hdv, hbeq,
      Bool.false_eq_true, if_false]
  · have hTlen : (natToBytes 2 .big mc.name.length).length = 2 :=
      natToBytes_length 2 .big mc.name.length
    have htake2 : (natToBytes 2 .big mc.name.length
        ++ (mc.name ++ (hd ++ body))).take 2
        = natToBytes 2 .big mc.name.length := List.take_left' hTlen
    have hdrop2 : (natToBytes 2 .big mc.name.length
        ++ (mc.name ++ (hd ++ body))).drop 2
        = mc.name ++ (hd ++ body) := List.drop_left' hTlen
    have hmt : (mc.name ++ (hd ++ body)).take mc.name.length = mc.name :=
      List.take_left' rfl
    have hmdata : (natToBytes 2 .big mc.name.length
        ++ (mc.name ++ (hd ++ body))).drop (2 + mc.name.length)
        = hd ++ body := by
      rw [← List.append_assoc]
      exact List.drop_left' (by simp [hTlen])
    have hdb : (hd ++ body).drop (Protocol.calculateAutoFieldsSize p.headers)
        = body := by
      rw [← hhd]
      exact List.drop_left hd body
    have hc1 : ¬((natToBytes 2 .big mc.name.length
        ++ (mc.name ++ (hd ++ body))).length < 2) := by
      simp only [List.length_append, hTlen]
      omega
    have hc2 : ¬((natToBytes 2 .big mc.name.length
        ++ (mc.name ++ (hd ++ body))).length < 2 + mc.name.length) := by
      simp only [List.length_append, hTlen]
      omega
    have hc3 : ¬((hd ++ body).length
        < Protocol.calculateAutoFieldsSize p.headers) := by
      simp only [List.length_append, hhd]
      omega
    have hc4 : ¬(body.length < 10) := by omega
    simp only [Protocol.decode, hbuf, htake2,
      natFromBytes_natToBytes 2 .big mc.name.length hname, hc1, hc2, hdrop2,
      hmt, hreg, hmdata, hc3, hdb, hbody, hc4, if_false]

theorem C4_static_mismatch_invalid_witness :
    Protocol.decode magicBProto emptyBufs
      (natToBytes 2 .big MagicB.name.length
        ++ (MagicB.name ++ ([] ++ magicBBadBody))) "s1"
      = (emptyBufs, some (.invalid
          ⟨natToBytes 2 .big MagicB.name.length
            ++ (MagicB.name ++ ([] ++ magicBBadBody)),
            .staticMismatch "m", some MagicB.name⟩)) :=
  (C4_static_mismatch_invalid magicBProto MagicB emptyBufs "s1" "m" []
    magicBBadBody rfl rfl (by decide) rfl rfl (by decide)).2

/-- C4 (counterexample to the unconditional claim): a mismatching static
byte in a body shorter than 10 bytes is buffered and `decode` returns
`None` — no `InvalidMessage` is produced. -/
theorem C4_counterexample :
    Message.deserializeBytes Magic [6] = .error (.staticMismatch "m")
    ∧ (Protocol.decode magicProto emptyBufs magicBad "s1").2 = none
    ∧ (Protocol.decode magicProto emptyBufs magicBad "s1").1 "s1" = some magicBad :=
  ⟨rfl, rfl, rfl⟩

/-- C5: a conditional field whose predicate is false over the decoded
fields contributes no bytes when serializing, consumes no bytes and adds no
entry when deserializing, and the decoded instance has no attribute of that
name, while every unconditional field is unaffected. -/
theorem C5_conditional_field (spec : MClass) (f : String) (fl : MField)
    (c : CondE) (m : Ctx) (s : Bytes) (instF : Ctx) (rest : Bytes)
    (hcwf : classWF spec) (hfits : instFits spec m)
    (hmem : (f, fl) ∈ spec.fields) (hc : fl.cond = some c)
    (hser : Message.serializeBytes spec m = .ok (s, instF))
    (hev : evalCond c instF = .ok false) :
    Message.serializeField spec f fl instF = .ok ([], instF)
    ∧ (∀ data kwargs, evalCond c kwargs = .ok false →
        Message.deserializeField spec f fl data kwargs = .ok (kwargs, 0))
    ∧ ∃ m2, Message.deserializeBytes spec (s ++ rest) = .ok (m2, s.length)
        ∧ lookupA m2 f = none
        ∧ (∀ g gl, (g, gl) ∈ spec.fields → gl.cond = none →
            lookupA m2 g = lookupA instF g) := by
  have hstaticf : fl.static = none := by
    obtain ⟨av2, hc2⟩ := fieldsWF_core_of_mem spec spec.fields [] hcwf.2.2.2 f fl hmem
    cases hsx : fl.static with
    | none => rfl
    | some sv =>
        have hx := (hc2.2.2.2.2.1 (by simp [hsx])).1
        rw [hc] at hx
        exact Option.noConfusion hx
  obtain ⟨kwF, hDec, hRes, hCm, hDm, hEm⟩ :=
    Message.roundtrip_reserialize spec m s rest instF hcwf hfits hser
  refine ⟨Message.serializeField_skip spec f fl instF c hc hev, ?_, ?_⟩
  · intro data kwargs hevk
    exact Message.deserializeField_skip spec f fl data kwargs c hstaticf hc hevk
  · exact ⟨Message.mkInstance spec kwF, hDec, hDm f fl c hmem hc hev,
      fun g gl hg hgc => hCm g gl hg hgc⟩

theorem C5_conditional_field_witness :
    Message.serializeField CondMsg "opt"
        { ftype := .scalar (.uintT 8), cond := some (.intEq "k" 1) } condInst
      = .ok ([], condInst)
    ∧ (∀ data kwargs, evalCond (.intEq "k" 1) kwargs = .ok false →
        Message.deserializeField CondMsg "opt"
          { ftype := .scalar (.uintT 8), cond := some (.intEq "k" 1) } data kwargs
        = .ok (kwargs, 0))
    ∧ ∃ m2, Message.deserializeBytes CondMsg ([0] ++ []) = .ok (m2, [0].length)
        ∧ lookupA m2 "opt" = none
        ∧ (∀ g gl, (g, gl) ∈ CondMsg.fields → gl.cond = none →
            lookupA m2 g = lookupA condInst g) :=
  C5_conditional_field CondMsg "opt"
    { ftype := .scalar (.uintT 8), cond := some (.intEq "k" 1) }
    (.intEq "k" 1) condInst [0] condInst [] condMsg_classWF condMsg_instFits
    (by simp [CondMsg]) rfl rfl rfl

end Packerpy
